import Mathlib

/-!
# Voxel engine: octree construction, averaging, replication and traversal order

A shallow embedding of `src/src/octree.cpp` (variant A, cubemap renderer) and of
`src/src/octree_draw.cpp` (variant B, integer-frustum renderer).

Conventions of the embedding.

* A C `int` is an `Int` in `[-2^31, 2^31)`; arithmetic that can leave that range is
  wrapped with `wrap32` (two's complement).  Bit operations go through the unsigned
  bit pattern (`toU32`).
* A colour (`int avgcolor`, `int color`) is kept as its 32-bit pattern, a `Nat`:
  the code only ever masks and shifts colours, which is the same on the pattern.
* A pointer `octree *` is `Option Nat`: `none` is `NULL`, `some a` is the node at
  address `a`, where slot `s` of chunk number `k` of the arena has address
  `k * 65536 + s`.  The memory is a total map from addresses to nodes.
-/

namespace VoxelEngine

/-! ## Machine integers -/

/-- The unsigned 32-bit pattern of an integer. -/
def toU32 (v : Int) : Nat := (v % 4294967296).toNat

/-- The signed value of a 32-bit pattern. -/
def toI32 (n : Nat) : Int :=
  if n % 4294967296 < 2147483648 then ((n % 4294967296 : Nat) : Int)
  else ((n % 4294967296 : Nat) : Int) - 4294967296

/-- Two's complement wrap to a signed 32-bit value. -/
def wrap32 (v : Int) : Int := toI32 (toU32 v)

/-- Signed addition `a + b` on `int`. -/
def add32 (a b : Int) : Int := wrap32 (a + b)

/-- Signed subtraction `a - b` on `int`. -/
def sub32 (a b : Int) : Int := wrap32 (a - b)

/-- Signed multiplication `a * b` on `int`. -/
def mul32 (a b : Int) : Int := wrap32 (a * b)

/-- Bitwise `a & b` on `int`. -/
def and32 (a b : Int) : Int := toI32 (toU32 a &&& toU32 b)

/-- Left shift `a << k` on `int`. -/
def shl32 (a : Int) (k : Nat) : Int := wrap32 (a * 2 ^ k)

/-- Arithmetic right shift `a >> k` on `int`. -/
def shr32 (a : Int) (k : Nat) : Int := a / 2 ^ k

/-! ## The octree node and the arena (`octree.cpp` lines 15-51) -/

/-- `PRUNE_NODES` of `octree.cpp`. -/
def PRUNE_NODES : Bool := false

/-- `OCTREE_DEPTH` of `octree.cpp`. -/
def OCTREE_DEPTH : Nat := 20

/-- `SCENE_SIZE = 1 << OCTREE_DEPTH`. -/
def SCENE_SIZE : Int := 2 ^ OCTREE_DEPTH

/-- A node of the octree: `struct octree`. -/
structure octree where
  /-- the eight child pointers `c[8]` -/
  c : Fin 8 → Option Nat
  /-- `int avgcolor`, as a 32-bit pattern -/
  avgcolor : Nat
  /-- `bool leaf` -/
  leaf : Bool

/-- The node built by the constructor `octree()`: eight null children, colour 0.
The constructor leaves `leaf` uninitialised; the embedding reads it as `false`. -/
def octree.fresh : octree := { c := fun _ => none, avgcolor := 0, leaf := false }

/-- The memory: a node at every address. -/
abbrev Mem := Nat → octree

/-- Chunk size `N` of `octree_buffer`. -/
def N : Nat := 65536

/-- `struct octree_buffer`: `list` is the number of chunks pushed so far, `i` the
slot index in the last chunk. -/
structure octree_buffer where
  list : Nat
  i : Nat

/-- The constructor `octree_buffer() : i(N)`. -/
def octree_buffer.init : octree_buffer := { list := 0, i := N }

/-- Address of slot `slot` of chunk number `chunk`. -/
def ptr (chunk slot : Nat) : Nat := chunk * N + slot

/-- `octree_buffer::allocate`: the updated buffer and the address `list.back() + i`. -/
def octree_buffer.allocate (b : octree_buffer) : octree_buffer × Nat :=
  let i := b.i + 1
  if i ≥ N then ({ list := b.list + 1, i := 0 }, ptr (b.list + 1 - 1) 0)
  else ({ list := b.list, i := i }, ptr (b.list - 1) i)

/-- The program state the octree builder works on: the arena and the memory. -/
structure Heap where
  buf : octree_buffer
  mem : Mem

/-- Overwrite one child slot of the node at `p`. -/
def Mem.setChild (m : Mem) (p : Nat) (i : Fin 8) (q : Option Nat) : Mem :=
  fun a => if a = p then { m p with c := fun j => if j = i then q else (m p).c j } else m a

/-- Overwrite the colour of the node at `p`. -/
def Mem.setColor (m : Mem) (p : Nat) (col : Nat) : Mem :=
  fun a => if a = p then { m p with avgcolor := col } else m a

/-- Overwrite the leaf flag of the node at `p`. -/
def Mem.setLeaf (m : Mem) (p : Nat) (b : Bool) : Mem :=
  fun a => if a = p then { m p with leaf := b } else m a

/-! ## `octree::set` (`octree.cpp` lines 53-67) -/

/-- The child index computed by `set` once `depth` has been decremented:
`((x&mask)*4 + (y&mask)*2 + (z&mask)) >> depth` with `mask = 1 << depth`. -/
def setIdx (x y z : Int) (depth : Nat) : Int :=
  let mask := shl32 1 depth
  shr32 (add32 (add32 (mul32 (and32 x mask) 4) (mul32 (and32 y mask) 2)) (and32 z mask)) depth

/-- `octree::set` on the node at `p`, for a non-negative `depth`.  A failed `assert`
aborts the program: the result is `none`. -/
def setN (h : Heap) (p : Nat) (x y z : Int) : Nat → Nat → Option Heap
  | 0, color => some { h with mem := h.mem.setColor p color }
  | depth + 1, color =>
    if depth < 30 then
      let idx := setIdx x y z depth
      if hi : 0 ≤ idx ∧ idx < 8 then
        let i : Fin 8 := ⟨idx.toNat, by omega⟩
        match (h.mem p).c i with
        | some q => setN h q x y z depth color
        | none =>
          let a := h.buf.allocate
          setN { buf := a.1, mem := h.mem.setChild p i (some a.2) } a.2 x y z depth color
      else none
    else none

/-- `octree::set(x, y, z, depth, color)` on the node at `p`.  A negative `depth` is
decremented and then fails `assert(depth>=0)`. -/
def octree.set (h : Heap) (p : Nat) (x y z depth : Int) (color : Nat) : Option Heap :=
  if depth < 0 then none else setN h p x y z depth.toNat color

/-- The state at the start of `load_voxel`: a new arena, all memory as constructed,
and the root `M = octree_buffer.allocate()`. -/
def Heap.init : Heap := { buf := octree_buffer.init.allocate.1, mem := fun _ => octree.fresh }

/-- The address of the root `M` allocated by `load_voxel`. -/
def rootAddr : Nat := octree_buffer.init.allocate.2

/-- One voxel record handed to `set`: coordinates, depth and colour. -/
structure Voxel where
  x : Int
  y : Int
  z : Int
  depth : Int
  color : Nat

/-- The loop of `load_voxel`: `M->set` for each record in turn, from the initial state.
The list holds the records latest first: its head is the record stored last. -/
def build : List Voxel → Option Heap
  | [] => some Heap.init
  | v :: vs => (build vs).bind fun h => octree.set h rootAddr v.x v.y v.z v.depth v.color

/-! ## Lookups along a path of child indices -/

/-- Follow the child indices of `path` from the node at `p`; `none` when a null
child is met. -/
def walk (m : Mem) (p : Nat) : List (Fin 8) → Option Nat
  | [] => some p
  | i :: rest =>
    match (m p).c i with
    | none => none
    | some q => walk m q rest

/-- The colour found at the end of a path, if the path exists. -/
def colorAt (m : Mem) (p : Nat) (path : List (Fin 8)) : Option Nat :=
  (walk m p path).map fun q => (m q).avgcolor

/-- Bit `k` of the two's complement representation of `x`. -/
def bitOf (x : Int) (k : Nat) : Nat := ((x / 2 ^ k) % 2).toNat

/-- The child `4*bit_k(x) + 2*bit_k(y) + bit_k(z)`. -/
def bitIdx (x y z : Int) (k : Nat) : Fin 8 :=
  ⟨4 * bitOf x k + 2 * bitOf y k + bitOf z k, by
    have hx : bitOf x k < 2 := by unfold bitOf; omega
    have hy : bitOf y k < 2 := by unfold bitOf; omega
    have hz : bitOf z k < 2 := by unfold bitOf; omega
    omega⟩

/-- The bit path of `(x, y, z)` over `d` levels: level `d-1` first, level `0` last. -/
def bitPath (x y z : Int) : Nat → List (Fin 8)
  | 0 => []
  | d + 1 => bitIdx x y z d :: bitPath x y z d

/-! ## Well-formedness of the heap built by `set` -/

/-- Number of nodes handed out so far by the arena. -/
def used (b : octree_buffer) : Nat := if b.list = 0 then 0 else (b.list - 1) * N + b.i + 1

/-- The arena is either new (no chunk, `i = N`) or points into its last chunk. -/
def bufOK (b : octree_buffer) : Prop := (b.list = 0 ∧ b.i = N) ∨ (0 < b.list ∧ b.i < N)

/-- The node at `a` can be reached from the node at `p` through child pointers. -/
inductive Reach (m : Mem) : Nat → Nat → Prop
  | refl (p : Nat) : Reach m p p
  | step {p q a : Nat} (i : Fin 8) : (m p).c i = some q → Reach m q a → Reach m p a

/-- The memory holds trees below address `u`: a child lies at a higher address than
its parent, below `u`, and has exactly one parent slot. -/
structure TreeInv (m : Mem) (u : Nat) : Prop where
  lt : ∀ p i q, (m p).c i = some q → p < q ∧ q < u
  inj : ∀ p p' i j q, (m p).c i = some q → (m p').c j = some q → p = p' ∧ i = j

/-- Well-formed builder state: a consistent arena over a tree-shaped memory that
contains the root. -/
structure HeapOK (h : Heap) : Prop where
  buf : bufOK h.buf
  tree : TreeInv h.mem (used h.buf)
  root : rootAddr < used h.buf

/-- Voxel records the loader can store in a scene of depth at most 26. -/
def ValidVoxels (vs : List Voxel) : Prop := ∀ v ∈ vs, 0 ≤ v.depth ∧ v.depth ≤ 26

/-- No node at depth `d` below the node at `p` has a child. -/
def NoKidsAt (m : Mem) (p d : Nat) : Prop :=
  ∀ π : List (Fin 8), π.length = d → ∀ q, walk m p π = some q → ∀ i, (m q).c i = none

/-! ## `octree::average` (`octree.cpp` lines 68-107) -/

/-- Red channel as read by `average`: `(v&0xff0000)>>16`. -/
def chanR (v : Nat) : Nat := (v &&& 0xff0000) >>> 16

/-- Green channel as read by `average`: `(v&0xff00)>>8`. -/
def chanG (v : Nat) : Nat := (v &&& 0xff00) >>> 8

/-- Blue channel as read by `average`: `v&0xff`. -/
def chanB (v : Nat) : Nat := v &&& 0xff

/-- Modelled from the spec: `rgb(r, g, b)` is declared in `art.h`, which is not part of
the sources.  The spec gives the colour layout `0xAARRGGBB`, an averaged colour of the
form `0xFF......` and channels equal to `round` of the mean; the model packs the
rounded channels under an opaque alpha byte. -/
def rgb (r g b : ℚ) : Nat :=
  0xFF000000 + (round r).toNat * 65536 + (round g).toNat * 256 + (round b).toNat

/-- The accumulators `float r, g, b` and `int n` of `average`.  The sums are sums of at
most eight integers below 256, which `float` holds exactly; they are kept as
rationals, and so is the quotient handed to `rgb`. -/
structure Acc where
  r : ℚ
  g : ℚ
  b : ℚ
  n : Nat

/-- One iteration of the summing loop of `average` on the node at `p`. -/
def sumStep (m : Mem) (p : Nat) (acc : Acc) (i : Fin 8) : Acc :=
  match (m p).c i with
  | some q =>
    let v := (m q).avgcolor
    { r := acc.r + chanR v, g := acc.g + chanG v, b := acc.b + chanB v, n := acc.n + 1 }
  | none => acc

/-- One iteration of the pruning loop of `average` (only run when `PRUNE_NODES`);
`delete` frees memory, which the embedding does not track. -/
def pruneStep (p : Nat) (m : Mem) (i : Fin 8) : Mem :=
  match (m p).c i with
  | some q =>
    let m1 := m.setColor p (m q).avgcolor
    if (m1 q).leaf then m1.setChild p i none else m1
  | none => m

/-- One iteration of the first loop of `average` on the node at `p`: average the
child in slot `i`, if any, and clear `leaf`.  `rec` is the recursive call. -/
def avgStep (rec : Mem → Nat → Option Mem) (p : Nat) (m : Mem) (i : Fin 8) : Option Mem :=
  match (m p).c i with
  | some q => (rec m q).map fun (m' : Mem) => m'.setLeaf p false
  | none => some m

/-- The loop `for (i...) c[i]=this` of `average`. -/
def selfLoop (p : Nat) (m : Mem) : Mem :=
  (List.finRange 8).foldl (fun (m : Mem) (i : Fin 8) => m.setChild p i (some p)) m

/-- The summing loop of `average` on the node at `p`. -/
def sumKids (m : Mem) (p : Nat) : Acc :=
  (List.finRange 8).foldl (sumStep m p) { r := 0, g := 0, b := 0, n := 0 }

/-- `octree::average` on the node at `p`.  The recursion follows child pointers, so it
is bounded by `fuel`; `none` means the fuel ran out. -/
def averageFuel : Nat → Mem → Nat → Option Mem
  | 0, _, _ => none
  | fuel + 1, m, p =>
    ((List.finRange 8).foldlM (avgStep (averageFuel fuel) p) (m.setLeaf p true)).bind fun m2 =>
      if (m2 p).leaf then some (selfLoop p m2)
      else
        let acc := sumKids m2 p
        if acc.n > 1 ∨ PRUNE_NODES = false then
          some (m2.setColor p (rgb (acc.r / acc.n) (acc.g / acc.n) (acc.b / acc.n)))
        else
          some ((List.finRange 8).foldl (pruneStep p) m2)

/-- The non-empty children of the node at `a`, in slot order. -/
def kids (m : Mem) (a : Nat) : List Nat := (List.finRange 8).filterMap (m a).c

/-- The mean of a channel of `avgcolor` over the non-empty children of the node at `a`. -/
def meanChan (ch : Nat → Nat) (m : Mem) (a : Nat) : ℚ :=
  ((kids m a).map fun q => (ch (m q).avgcolor : ℚ)).sum / (kids m a).length

/-- What `average` leaves at address `a`, given the memory `m0` it started from: a node
without children in `m0` becomes a self-looping leaf and keeps its colour; any other
node keeps its children and takes the mean colour of its children. -/
structure Averaged (m0 m' : Mem) (a : Nat) : Prop where
  leaf : (∀ i, (m0 a).c i = none) →
    (m' a).leaf = true ∧ (∀ i, (m' a).c i = some a) ∧ (m' a).avgcolor = (m0 a).avgcolor
  inner : (∃ i, (m0 a).c i ≠ none) →
    (m' a).leaf = false ∧ (m' a).c = (m0 a).c ∧
      (m' a).avgcolor = rgb (meanChan chanR m' a) (meanChan chanG m' a) (meanChan chanB m' a)

/-! ## `octree::replicate` (`octree.cpp` lines 108-117) -/

/-- The slot `i & mask` of `replicate`, computed on bit patterns. -/
def maskSlot (mask : Int) (i : Fin 8) : Fin 8 :=
  ⟨i.val &&& toU32 mask, lt_of_le_of_lt Nat.and_le_left i.isLt⟩

/-- One iteration of the loop of `replicate` on the node at `p`; `rec` is the
recursive call `c[i]->replicate(mask, depth-1)`. -/
def repStep (rec : Mem → Nat → Mem) (mask : Int) (p : Nat) (m : Mem) (i : Fin 8) : Mem :=
  if i = maskSlot mask i then
    match (m p).c i with
    | some q => rec m q
    | none => m
  else m.setChild p i ((m p).c (maskSlot mask i))

/-- `octree::replicate` on the node at `p` with `depth` levels left (`0` stands for
every `depth <= 0`). -/
def replicateN (mask : Int) : Nat → Mem → Nat → Mem
  | 0, m, _ => m
  | depth + 1, m, p => (List.finRange 8).foldl (repStep (replicateN mask depth) mask p) m

/-- `octree::replicate(mask, depth)` on the node at `p`. -/
def octree.replicate (m : Mem) (p : Nat) (mask depth : Int) : Mem :=
  if depth ≤ 0 then m else replicateN mask depth.toNat m p

/-- A path with the child indices of its first `d` levels replaced by `i & mask`. -/
def maskPath (mask : Int) : Nat → List (Fin 8) → List (Fin 8)
  | 0, path => path
  | _ + 1, [] => []
  | d + 1, i :: rest => maskSlot mask i :: maskPath mask d rest

/-- The part of `Averaged` that concerns child slots: a node without children in `m0`
points to itself in `m`, any other node has the child slots it has in `m0`. -/
def AvgShape (m0 m : Mem) (a : Nat) : Prop :=
  ((∀ i, (m0 a).c i = none) ∧ ∀ i, (m a).c i = some a) ∨
  ((∃ i, (m0 a).c i ≠ none) ∧ (m a).c = (m0 a).c)

/-! ## The sub-face traversal of variant A (`octree.cpp` lines 162-223)

`quadtree.h` is not among the sources: the constants `Q::L`, `Q::M` and the method
`compute` are parameters of the embedding. -/

/-- The template parameters `<DX, DY, C, AX, AY, AZ>` of `SubFaceRenderer`. -/
structure SubFace where
  DX : Int
  DY : Int
  C : Fin 8
  AX : Fin 8
  AY : Fin 8
  AZ : Fin 8

/-- What the traversal needs of the quadtree type `Q`: the constants `Q::L` and `Q::M`
and the method `compute(r)`, which acts on `map`. -/
structure QuadCfg where
  L : Nat
  M : Nat
  compute : Nat → (Nat → Nat) → (Nat → Nat)

/-- One write to `face[]` made by `paint`: the node index `r`, the value of `map[r]`
when the write was made, and the colour written. -/
structure FaceWrite where
  r : Nat
  mapBefore : Nat
  color : Nat

/-- The quadtree `f` during a traversal: the arrays `map` and `face`, and (not part of
the program) the record of the writes to `face`, latest first. -/
structure QState where
  map : Nat → Nat
  face : Nat → Nat
  log : List FaceWrite

/-- `static const int ONE = SCENE_SIZE`. -/
def ONE : Int := SCENE_SIZE

/-- Wrap to `unsigned int`. -/
def u32 (n : Nat) : Nat := n % 4294967296

/-- The `face` index `r - Q::M`, in `unsigned int` arithmetic. -/
def cellOf (q : QuadCfg) (r : Nat) : Nat := u32 (r + 4294967296 - u32 q.M)

/-- The bounds handed from call to call: `x1, x2, x1p, x2p, y1, y2, y1p, y2p`. -/
structure Box where
  x1 : Int
  x2 : Int
  x1p : Int
  x2p : Int
  y1 : Int
  y2 : Int
  y1p : Int
  y2p : Int

/-- The occlusion test on one axis: `x2-(1-DX)*x2p<=-ONE || ONE<=x1-(1+DX)*x1p`. -/
def occluded (D a1 a2 a1p a2p : Int) : Bool :=
  decide (sub32 a2 (mul32 (sub32 1 D) a2p) ≤ wrap32 (-ONE)) ||
    decide (ONE ≤ sub32 a1 (mul32 (add32 1 D) a1p))

/-- The two early returns shared by `traverse` and `paint`. -/
def outside (t : SubFace) (b : Box) : Bool :=
  occluded t.DX b.x1 b.x2 b.x1p b.x2p || occluded t.DY b.y1 b.y2 b.y1p b.y2p

/-- `C ^ A` on child indices. -/
def xor8 (a b : Fin 8) : Fin 8 :=
  ⟨a.val ^^^ b.val, Nat.xor_lt_two_pow (n := 3) a.isLt b.isLt⟩

/-- `2*a + D*ONE`. -/
def dblPlus (D a : Int) : Int := add32 (mul32 2 a) (mul32 D ONE)

/-- `2*a - D*ONE`. -/
def dblMinus (D a : Int) : Int := sub32 (mul32 2 a) (mul32 D ONE)

/-- The bounds of a child octant: the pair `(xa, xb)` is doubled and shifted by
`+DX*ONE` or `-DX*ONE`, likewise `(ya, yb)`. -/
def childBox (t : SubFace) (b : Box) (xa xb ya yb : Int) (xplus yplus : Bool) : Box :=
  { x1 := if xplus then dblPlus t.DX xa else dblMinus t.DX xa
    x2 := if xplus then dblPlus t.DX xb else dblMinus t.DX xb
    x1p := b.x1p
    x2p := b.x2p
    y1 := if yplus then dblPlus t.DY ya else dblMinus t.DY ya
    y2 := if yplus then dblPlus t.DY yb else dblMinus t.DY yb
    y1p := b.y1p
    y2p := b.y2p }

/-- The child slots the octree arm of `traverse` looks at, in program order, each with
the bounds of the recursive call (`octree.cpp` lines 181-194). -/
def octCalls (t : SubFace) (b : Box) : List (Fin 8 × Box) :=
  let x3 := sub32 b.x1 b.x1p
  let x4 := sub32 b.x2 b.x2p
  let y3 := sub32 b.y1 b.y1p
  let y4 := sub32 b.y2 b.y2p
  (if x3 < x4 ∧ y3 < y4 then
    [(t.C, childBox t b x3 x4 y3 y4 true true),
     (xor8 t.C t.AX, childBox t b x3 x4 y3 y4 false true),
     (xor8 t.C t.AY, childBox t b x3 x4 y3 y4 true false),
     (xor8 (xor8 t.C t.AX) t.AY, childBox t b x3 x4 y3 y4 false false)]
  else []) ++
  [(xor8 t.C t.AZ, childBox t b b.x1 b.x2 b.y1 b.y2 true true),
   (xor8 (xor8 t.C t.AX) t.AZ, childBox t b b.x1 b.x2 b.y1 b.y2 false true),
   (xor8 (xor8 t.C t.AY) t.AZ, childBox t b b.x1 b.x2 b.y1 b.y2 true false),
   (xor8 (xor8 (xor8 t.C t.AX) t.AY) t.AZ, childBox t b b.x1 b.x2 b.y1 b.y2 false false)]

/-- The four quadtree children `r*4+4 .. r*4+7` with their halves of the bounds
(`octree.cpp` lines 196-211); `/` on `int` truncates toward zero. -/
def quadCalls (r : Nat) (b : Box) : List (Nat × Box) :=
  let xm := Int.tdiv (add32 b.x1 b.x2) 2
  let xmp := Int.tdiv (add32 b.x1p b.x2p) 2
  let ym := Int.tdiv (add32 b.y1 b.y2) 2
  let ymp := Int.tdiv (add32 b.y1p b.y2p) 2
  [(u32 (r * 4 + 4), { x1 := b.x1, x2 := xm, x1p := b.x1p, x2p := xmp,
                       y1 := b.y1, y2 := ym, y1p := b.y1p, y2p := ymp }),
   (u32 (r * 4 + 5), { x1 := xm, x2 := b.x2, x1p := xmp, x2p := b.x2p,
                       y1 := b.y1, y2 := ym, y1p := b.y1p, y2p := ymp }),
   (u32 (r * 4 + 6), { x1 := b.x1, x2 := xm, x1p := b.x1p, x2p := xmp,
                       y1 := ym, y2 := b.y2, y1p := ymp, y2p := b.y2p }),
   (u32 (r * 4 + 7), { x1 := xm, x2 := b.x2, x1p := xmp, x2p := b.x2p,
                       y1 := ym, y2 := b.y2, y1p := ymp, y2p := b.y2p })]

/-- `SubFaceRenderer::paint` on the quadtree node `r` with the octree node at `s`. -/
def paint (t : SubFace) (q : QuadCfg) (mem : Mem) (f : QState) (r s : Nat) (b : Box) : QState :=
  if outside t b then f
  else
    { map := fun j => if j = r then 0 else f.map j
      face := fun j => if j = cellOf q r then (mem s).avgcolor else f.face j
      log := { r := r, mapBefore := f.map r, color := (mem s).avgcolor } :: f.log }

/-- The guarded call `if (f.map[r]) paint(f, r, s, ...)`. -/
def paintIf (t : SubFace) (q : QuadCfg) (mem : Mem) (s : Nat) (f : QState) (rb : Nat × Box) :
    QState :=
  if f.map rb.1 ≠ 0 then paint t q mem f rb.1 s rb.2 else f

/-- `SubFaceRenderer::traverse`.  The recursion is bounded by `fuel`; `none` means the
fuel ran out. -/
def traverse (t : SubFace) (q : QuadCfg) (mem : Mem) :
    Nat → QState → Nat → Nat → Box → Int → Option QState
  | 0, _, _, _, _, _ => none
  | fuel + 1, f, r, s, b, d =>
    if outside t b then some f
    else if sub32 b.x2 b.x1 ≤ mul32 2 ONE ∧ sub32 b.y2 b.y1 ≤ mul32 2 ONE ∧ d < 20 then
      (octCalls t b).foldlM (fun (f : QState) (kb : Fin 8 × Box) =>
        match (mem s).c kb.1 with
        | some s' => traverse t q mem fuel f r s' kb.2 (add32 d 1)
        | none => some f) f
    else
      (if r < u32 q.L then
        (quadCalls r b).foldlM (fun (f : QState) (rb : Nat × Box) =>
          if f.map rb.1 ≠ 0 then traverse t q mem fuel f rb.1 s rb.2 d else some f) f
      else
        some ((quadCalls r b).foldl (paintIf t q mem s) f)).map
        fun (f : QState) => { f with map := q.compute r f.map }

/-- The state of the `face` writes that paint monotonicity is about: every recorded
write was made to a leaf index whose `map` entry was non-zero, that entry is now zero,
the cell still holds the colour written, and no cell was written twice. -/
structure PaintOK (q : QuadCfg) (f : QState) : Prop where
  nodup : (f.log.map fun w => cellOf q w.r).Nodup
  each : ∀ w ∈ f.log, w.mapBefore ≠ 0 ∧ f.map w.r = 0 ∧ f.face (cellOf q w.r) = w.color ∧
    4 * q.L + 4 ≤ w.r ∧ w.r < 4294967296

/-- A sample instantiation `SubFaceRenderer<1,1,0,4,2,1>` (the last quadrant of the
`Z+` face in `draw_octree`). -/
def sampleSubFace : SubFace := { DX := 1, DY := 1, C := 0, AX := 4, AY := 2, AZ := 1 }

/-- A sample quadtree configuration, with a `compute` that leaves `map` alone. -/
def sampleQuad : QuadCfg := { L := 1, M := 0, compute := fun _ mp => mp }

/-- A sample quadtree state: every `map` entry set, no colour, nothing recorded. -/
def sampleQState : QState := { map := fun _ => 1, face := fun _ => 0, log := [] }

/-- Sample bounds: the initial bounds of `FaceRenderer::render` for `x = y = 0` and
`Q = ONE` in the quadrant `DX = DY = 1`. -/
def sampleBox : Box :=
  { x1 := 0, x2 := ONE, x1p := 0, x2p := ONE, y1 := 0, y2 := ONE, y1p := 0, y2p := ONE }

/-- Sample bounds of a far camera: the initial bounds of `FaceRenderer::render` for
`x = y = 0` and `Q = 3*ONE` in the quadrant `DX = DY = 1`. -/
def wideBox : Box :=
  { x1 := 0, x2 := 3 * ONE, x1p := 0, x2p := ONE, y1 := 0, y2 := 3 * ONE, y1p := 0, y2p := ONE }

/-! ## The integer-frustum traversal of variant B (`octree_draw.cpp`) -/

/-- Bitwise `a | b` on `int`. -/
def or32 (a b : Int) : Int := toI32 (toU32 a ||| toU32 b)

/-- Bitwise `a ^ b` on `int`. -/
def xor32 (a b : Int) : Int := toI32 (toU32 a ^^^ toU32 b)

/-- `v4si`: four `int32_t` lanes. -/
abbrev v4si := Fin 4 → Int

/-- `SCENE_DEPTH` of `octree_draw.cpp`. -/
def SCENE_DEPTH : Nat := 26

/-- The axis bits `DX=4, DY=2, DZ=1` of `octree_draw.cpp`. -/
def axDX : Int := 4

/-- The axis bit `DY`. -/
def axDY : Int := 2

/-- The axis bit `DZ`. -/
def axDZ : Int := 1

/-- The table `DELTA[8]`; the fourth lane of each entry is zero-initialised. -/
def DELTA : Nat → v4si
  | 0 => ![-1, -1, -1, 0]
  | 1 => ![-1, -1, 1, 0]
  | 2 => ![-1, 1, -1, 0]
  | 3 => ![-1, 1, 1, 0]
  | 4 => ![1, -1, -1, 0]
  | 5 => ![1, -1, 1, 0]
  | 6 => ![1, 1, -1, 0]
  | 7 => ![1, 1, 1, 0]
  | _ => ![0, 0, 0, 0]

/-- Lane-wise `v < 0` of the GCC vector extension: `-1` where true, `0` where false. -/
def vltz (v : v4si) : v4si := fun l => if v l < 0 then -1 else 0

/-- Lane-wise `v > 0`: `-1` where true, `0` where false. -/
def vgtz (v : v4si) : v4si := fun l => if v l > 0 then -1 else 0

/-- Lane-wise `-v`. -/
def vneg (v : v4si) : v4si := fun l => wrap32 (-(v l))

/-- Lane-wise `a + b`. -/
def vadd (a b : v4si) : v4si := fun l => add32 (a l) (b l)

/-- Lane-wise `a - b`. -/
def vsub (a b : v4si) : v4si := fun l => sub32 (a l) (b l)

/-- Lane-wise `v << k`. -/
def vshl (v : v4si) (k : Nat) : v4si := fun l => shl32 (v l) k

/-- `octant = -(pos<0)`. -/
def octant (pos : v4si) : v4si := vneg (vltz pos)

/-- `furthest = (octant[0]<<2)|(octant[1]<<1)|(octant[2]<<0)`. -/
def furthest (pos : v4si) : Int :=
  or32 (or32 (shl32 (octant pos 0) 2) (shl32 (octant pos 1) 1)) (shl32 (octant pos 2) 0)

/-- The child index `i = furthest^k` of iteration `k` of the octree arm. -/
def visitIdx (pos : v4si) (k : Nat) : Int := xor32 (furthest pos) k

/-- The children in the order the loop `for (k=0; k<8; k++)` considers them. -/
def visitOrder (pos : v4si) : List Int := (List.range 8).map (visitIdx pos)

/-- The centre handed to the recursive call for child `i`: `pos + (DELTA[i]<<depth)`. -/
def childPos (pos : v4si) (depth : Nat) (i : Int) : v4si := vadd pos (vshl (DELTA i.toNat) depth)

/-- The three spatial lanes of `pos`. -/
def axes : List (Fin 4) := [0, 1, 2]

/-- `new_bound` for child `i`: `bound<<1`, plus `dx`, `dy`, `dz` where `C^i` has the
axis bit (`octree_draw.cpp` lines 87-90). -/
def newBound (C i : Int) (bound dx dy dz : v4si) : v4si :=
  let b0 := vshl bound 1
  let b1 := if and32 (xor32 C i) axDX ≠ 0 then vadd b0 dx else b0
  let b2 := if and32 (xor32 C i) axDY ≠ 0 then vadd b1 dy else b1
  if and32 (xor32 C i) axDZ ≠ 0 then vadd b2 dz else b2

/-- The value `ltz[0] & gtz[1] & ltz[2] & gtz[3]` of the frustum test, with
`ltz = (new_bound - dltz)<0` and `gtz = (new_bound - dgtz)>0`. -/
def frustumMask (nb dltz dgtz : v4si) : Int :=
  let ltz := vltz (vsub nb dltz)
  let gtz := vgtz (vsub nb dgtz)
  and32 (and32 (and32 (ltz 0) (gtz 1)) (ltz 2)) (gtz 3)

/-- What one iteration of the octree arm does with its child. -/
inductive ChildAction where
  /-- `continue`: the child is empty -/
  | empty : ChildAction
  /-- `continue`: frustum occlusion -/
  | rejected : ChildAction
  /-- the recursive call, with its `new_bound`, `pos` and `depth` -/
  | recurse (nb pos : v4si) (depth : Int) : ChildAction

/-- The body of the loop of the octree arm for child `i` (`octree_draw.cpp` lines
86-99).  `octnode` is the node index (all ones: inside a solid leaf) and `avgcolor`
the entry `s.avgcolor[i]` of the node; the node type is declared in `octree.h`, which
is not among the sources. -/
def octChild (C : Int) (octnode : Nat) (avgcolor : Int) (i : Int)
    (bound dx dy dz dltz dgtz pos : v4si) (depth : Nat) : ChildAction :=
  if octnode ≠ 4294967295 ∧ avgcolor < 0 then ChildAction.empty
  else
    let nb := newBound C i bound dx dy dz
    if frustumMask nb dltz dgtz = 0 then ChildAction.rejected
    else ChildAction.recurse nb (childPos pos depth i) (sub32 depth 1)

/-! ## The cubemap projection (`octree.cpp` lines 241-344)

The rays are `double` vectors.  The face selection only compares the components and
their absolute values, which is exact on finite doubles; the components are kept as
rationals (every finite double is one).  The face coordinates are computed in
`prepareCase` and `drawCase` in exact rational arithmetic with the truncation of
`(int)`, and in `prepareCaseR` and `drawCaseR` with each `double` operation rounded by
a rounding `rnd`: near the rim of a face the rounded value can be one higher than the
exact one.  For the zero ray the source divides by zero (NaN), which is not modelled:
the quotient is taken as `0`.  `SCREEN_WIDTH`,
`SCREEN_HEIGHT` (`art.h`) and `Q::SIZE` (`quadtree.h`) are parameters. -/

/-- A `glm::dvec3`. -/
structure Vec3 where
  x : ℚ
  y : ℚ
  z : ℚ

/-- The conversion `(int)` of a `double`: truncation toward zero. -/
def truncQ (q : ℚ) : Int := if 0 ≤ q then ⌊q⌋ else ⌈q⌉

/-- The ray of the screen pixel `(x, y)`:
`inverse_orientation * ((x-SCREEN_WIDTH/2)*fov, (SCREEN_HEIGHT/2-y)*fov, 1)` with
`fov = 1.0/SCREEN_HEIGHT` and `inverse_orientation = transpose(orientation)`;
`o c` is column `c` of `orientation`. -/
def ray (o : Fin 3 → Fin 3 → ℚ) (W H x y : Int) : Vec3 :=
  let fov : ℚ := 1 / (H : ℚ)
  let v0 : ℚ := ((x - Int.tdiv W 2 : Int) : ℚ) * fov
  let v1 : ℚ := ((Int.tdiv H 2 - y : Int) : ℚ) * fov
  let v2 : ℚ := 1
  { x := o 0 0 * v0 + o 0 1 * v1 + o 0 2 * v2
    y := o 1 0 * v0 + o 1 1 * v1 + o 1 2 * v2
    z := o 2 0 * v0 + o 2 1 * v1 + o 2 2 * v2 }

/-- The calls `cubemap[i].set(fx,fy)` that the loop body of `prepare_cubemap` makes for
a pixel with ray `p`, as triples `(i, fx, fy)` (`octree.cpp` lines 251-285); the
coordinates in exact rational arithmetic. -/
def prepareCase (SIZE : Nat) (p : Vec3) : List (Nat × Int × Int) :=
  let ax := |p.x|
  let ay := |p.y|
  let az := |p.z|
  if ax ≥ ay ∧ ax ≥ az then
    if p.x > 0 then
      [(2, truncQ (SIZE * (-p.z / ax / 2 + 0.5)), truncQ (SIZE * (-p.y / ax / 2 + 0.5)))]
    else
      [(4, truncQ (SIZE * (p.z / ax / 2 + 0.5)), truncQ (SIZE * (-p.y / ax / 2 + 0.5)))]
  else if ay ≥ ax ∧ ay ≥ az then
    if p.y > 0 then
      [(0, truncQ (SIZE * (p.x / ay / 2 + 0.5)), truncQ (SIZE * (p.z / ay / 2 + 0.5)))]
    else
      [(5, truncQ (SIZE * (p.x / ay / 2 + 0.5)), truncQ (SIZE * (-p.z / ay / 2 + 0.5)))]
  else if az ≥ ax ∧ az ≥ ay then
    if p.z > 0 then
      [(1, truncQ (SIZE * (p.x / az / 2 + 0.5)), truncQ (SIZE * (p.y / az / 2 + 0.5)))]
    else
      [(3, truncQ (SIZE * (-p.x / az / 2 + 0.5)), truncQ (SIZE * (p.y / az / 2 + 0.5)))]
  else []

/-- The calls `pix(x, y, cubemap[i].get_face(fx,fy))` that the loop body of
`draw_cubemap` makes for a pixel with ray `p`, as triples `(i, fx, fy)`
(`octree.cpp` lines 307-341); the coordinates in exact rational arithmetic. -/
def drawCase (SIZE : Nat) (p : Vec3) : List (Nat × Int × Int) :=
  let ax := |p.x|
  let ay := |p.y|
  let az := |p.z|
  if ax ≥ ay ∧ ax ≥ az then
    if p.x > 0 then
      [(2, truncQ (SIZE * (-p.z / ax / 2 + 0.5)), truncQ (SIZE * (-p.y / ax / 2 + 0.5)))]
    else
      [(4, truncQ (SIZE * (p.z / ax / 2 + 0.5)), truncQ (SIZE * (-p.y / ax / 2 + 0.5)))]
  else if ay ≥ ax ∧ ay ≥ az then
    if p.y > 0 then
      [(0, truncQ (SIZE * (p.x / ay / 2 + 0.5)), truncQ (SIZE * (p.z / ay / 2 + 0.5)))]
    else
      [(5, truncQ (SIZE * (p.x / ay / 2 + 0.5)), truncQ (SIZE * (-p.z / ay / 2 + 0.5)))]
  else if az ≥ ax ∧ az ≥ ay then
    if p.z > 0 then
      [(1, truncQ (SIZE * (p.x / az / 2 + 0.5)), truncQ (SIZE * (p.y / az / 2 + 0.5)))]
    else
      [(3, truncQ (SIZE * (-p.x / az / 2 + 0.5)), truncQ (SIZE * (p.y / az / 2 + 0.5)))]
  else []

/-- What the face coordinates need of the rounding `rnd` of the `double` operations: it
is monotone and exact on `0`, `±1/2`, `±1` and `S`.  The identity (exact arithmetic)
is such a rounding, and so is the rounding to nearest of IEEE `double` for `S < 2^53`. -/
def Rounding (S : Nat) (rnd : ℚ → ℚ) : Prop :=
  Monotone rnd ∧ rnd 0 = 0 ∧ rnd (1 / 2) = 1 / 2 ∧ rnd (-(1 / 2)) = -(1 / 2) ∧ rnd 1 = 1 ∧
    rnd (-1) = -1 ∧ rnd S = S

/-- The face coordinate `(int)(SIZE*(c/a/2+0.5))` with the result of each of the four
`double` operations rounded by `rnd`. -/
def faceCoord (rnd : ℚ → ℚ) (SIZE : Nat) (c a : ℚ) : Int :=
  truncQ (rnd (SIZE * rnd (rnd (rnd (c / a) / 2) + 0.5)))

/-- The loop body of `prepare_cubemap` as in `prepareCase`, with the `double`
operations of the face coordinates rounded by `rnd`. -/
def prepareCaseR (rnd : ℚ → ℚ) (SIZE : Nat) (p : Vec3) : List (Nat × Int × Int) :=
  let ax := |p.x|
  let ay := |p.y|
  let az := |p.z|
  if ax ≥ ay ∧ ax ≥ az then
    if p.x > 0 then
      [(2, faceCoord rnd SIZE (-p.z) ax, faceCoord rnd SIZE (-p.y) ax)]
    else
      [(4, faceCoord rnd SIZE p.z ax, faceCoord rnd SIZE (-p.y) ax)]
  else if ay ≥ ax ∧ ay ≥ az then
    if p.y > 0 then
      [(0, faceCoord rnd SIZE p.x ay, faceCoord rnd SIZE p.z ay)]
    else
      [(5, faceCoord rnd SIZE p.x ay, faceCoord rnd SIZE (-p.z) ay)]
  else if az ≥ ax ∧ az ≥ ay then
    if p.z > 0 then
      [(1, faceCoord rnd SIZE p.x az, faceCoord rnd SIZE p.y az)]
    else
      [(3, faceCoord rnd SIZE (-p.x) az, faceCoord rnd SIZE p.y az)]
  else []

/-- The loop body of `draw_cubemap` as in `drawCase`, with the `double` operations of
the face coordinates rounded by `rnd`. -/
def drawCaseR (rnd : ℚ → ℚ) (SIZE : Nat) (p : Vec3) : List (Nat × Int × Int) :=
  let ax := |p.x|
  let ay := |p.y|
  let az := |p.z|
  if ax ≥ ay ∧ ax ≥ az then
    if p.x > 0 then
      [(2, faceCoord rnd SIZE (-p.z) ax, faceCoord rnd SIZE (-p.y) ax)]
    else
      [(4, faceCoord rnd SIZE p.z ax, faceCoord rnd SIZE (-p.y) ax)]
  else if ay ≥ ax ∧ ay ≥ az then
    if p.y > 0 then
      [(0, faceCoord rnd SIZE p.x ay, faceCoord rnd SIZE p.z ay)]
    else
      [(5, faceCoord rnd SIZE p.x ay, faceCoord rnd SIZE (-p.z) ay)]
  else if az ≥ ax ∧ az ≥ ay then
    if p.z > 0 then
      [(1, faceCoord rnd SIZE p.x az, faceCoord rnd SIZE p.y az)]
    else
      [(3, faceCoord rnd SIZE (-p.x) az, faceCoord rnd SIZE p.y az)]
  else []

/-- A sample rounding: to the nearest multiple of `2^-10`, ties upward. -/
def gridRound (q : ℚ) : ℚ := (⌊q * 1024 + 1 / 2⌋ : ℚ) / 1024

/-- The component of `p` along the outward axis of cubemap face `i`; the faces
`0..5` are `+Y, +Z, +X, -Z, -X, -Y`. -/
def alongFace (p : Vec3) (i : Nat) : ℚ :=
  match i with
  | 0 => p.y
  | 1 => p.z
  | 2 => p.x
  | 3 => -p.z
  | 4 => -p.x
  | 5 => -p.y
  | _ => 0

/-- Face `i` is the face of a component of `p` of maximal absolute value, with the
sign of that component. -/
def Dominant (p : Vec3) (i : Nat) : Prop :=
  i < 6 ∧ 0 < alongFace p i ∧ |p.x| ≤ alongFace p i ∧ |p.y| ≤ alongFace p i ∧
    |p.z| ≤ alongFace p i

/-- A sample orientation: the identity matrix. -/
def sampleOrientation : Fin 3 → Fin 3 → ℚ := fun c r => if c = r then 1 else 0

/-! ## The loader's colour conversion (`octree.cpp` line 137) -/

/-- The colour stored by `load_voxel` for the colour word `c` read from the file:
`((c&0xff)<<16)|(c&0xff00)|((c&0xff0000)>>16)|0xff000000`, on 32-bit patterns. -/
def conv (c : Nat) : Nat :=
  ((c &&& 0xff) <<< 16) ||| (c &&& 0xff00) ||| ((c &&& 0xff0000) >>> 16) ||| 0xff000000

/-! ## The static assertions of `FaceRenderer` (`octree.cpp` lines 225-230) -/

/-- The four `static_assert`s of `FaceRenderer<C, AX, AY, AZ>`. -/
def faceAsserts (C AX AY AZ : Int) : Prop :=
  (0 ≤ C ∧ C < 8) ∧ (AX = 1 ∨ AY = 1 ∨ AZ = 1) ∧ (AX = 2 ∨ AY = 2 ∨ AZ = 2) ∧
    (AX = 4 ∨ AY = 4 ∨ AZ = 4)

/-- `(AX, AY, AZ)` is a permutation of `(1, 2, 4)`. -/
def IsPerm124 (AX AY AZ : Int) : Prop :=
  (AX = 1 ∧ AY = 2 ∧ AZ = 4) ∨ (AX = 1 ∧ AY = 4 ∧ AZ = 2) ∨ (AX = 2 ∧ AY = 1 ∧ AZ = 4) ∨
  (AX = 2 ∧ AY = 4 ∧ AZ = 1) ∨ (AX = 4 ∧ AY = 1 ∧ AZ = 2) ∨ (AX = 4 ∧ AY = 2 ∧ AZ = 1)

/-- The template arguments `<C, AX, AY, AZ>` of the six `FaceRenderer` instantiations
of `draw_octree` (`octree.cpp` lines 377-401), in program order. -/
def faceInstances : List (Int × Int × Int × Int) :=
  [(0, 4, 2, 1), (5, 4, 2, 1), (3, 1, 2, 4), (6, 1, 2, 4), (0, 4, 1, 2), (3, 4, 1, 2)]

/-! ## The child order of the octree arm of variant A -/

/-- The recursive calls the octree arm of `traverse` makes on the node at `s`: the
non-null children among the slots of `octCalls`, in order, with their bounds. -/
def octVisits (t : SubFace) (mem : Mem) (s : Nat) (b : Box) : List (Nat × Box) :=
  (octCalls t b).filterMap fun kb => ((mem s).c kb.1).map fun s' => (s', kb.2)

/-! ## The entry point of variant B (`octree_draw.cpp` lines 167-191) -/

/-- The variables `int max_z` and `C` of the corner selection loop. -/
structure CornerSel where
  max_z : Int
  C : Int

/-- One iteration of the corner loop: `if (max_z < coord.z) { max_z = coord.z; C = i; }`
where `z i` is `coord.z` of corner `i`, a `double`; the assignment to the `int`
`max_z` truncates. -/
def cornerStep (z : Nat → ℚ) (st : CornerSel) (i : Nat) : CornerSel :=
  if (st.max_z : ℚ) < z i then { max_z := truncQ (z i), C := i } else st

/-- The corner loop of `octree_draw`, from `max_z = -1<<31` and the value `C0` that the
global `C` holds on entry. -/
def selectCorner (C0 : Int) (z : Nat → ℚ) : CornerSel :=
  (List.range 8).foldl (cornerStep z) { max_z := shl32 (-1) 31, C := C0 }

/-- Corner depths of the scene cube (corners at `±2^26`) seen along its `z` axis by a
camera turned by a tiny angle: corner `i` has depth `2^26*sz - 0.25*sx + 0.3` with
`(sx, sy, sz) = DELTA[i]`. -/
def sampleDepths : Nat → ℚ
  | 0 => -1342177269 / 20
  | 1 => 1342177291 / 20
  | 2 => -1342177269 / 20
  | 3 => 1342177291 / 20
  | 4 => -1342177279 / 20
  | 5 => 1342177281 / 20
  | 6 => -1342177279 / 20
  | 7 => 1342177281 / 20
  | _ => 0

/-! ## Deltas and interpolation in variant B (`octree_draw.cpp` lines 110-125, 189-190) -/

/-- Lane-wise `a * b`. -/
def vmul (a b : v4si) : v4si := fun l => mul32 (a l) (b l)

/-- Lane-wise `v >> k`. -/
def vshr (v : v4si) (k : Nat) : v4si := fun l => shr32 (v l) k

/-- `(dx<0)*dx + (dy<0)*dy + (dz<0)*dz`: the value given to `new_dltz` at the entry
point (line 189) and in the quadtree arm (line 122). -/
def dltzOf (dx dy dz : v4si) : v4si :=
  vadd (vadd (vmul (vltz dx) dx) (vmul (vltz dy) dy)) (vmul (vltz dz) dz)

/-- `(dx>0)*dx + (dy>0)*dy + (dz>0)*dz`: the value given to `new_dgtz` at the entry
point (line 190) and in the quadtree arm (line 123). -/
def dgtzOf (dx dy dz : v4si) : v4si :=
  vadd (vadd (vmul (vgtz dx) dx) (vmul (vgtz dy) dy)) (vmul (vgtz dz) dz)

/-- `__builtin_shuffle(v, shuffle)` with `shuffle = {1,0,3,2}`. -/
def shuffle1032 (v : v4si) : v4si := ![v 1, v 0, v 3, v 2]

/-- The weights `a = {4-x, x+1, y+1, 4-y}` of cell `i`, with `x = i&3`, `y = i>>2`. -/
def weightA (i : Int) : v4si :=
  let x := and32 i 3
  let y := shr32 i 2
  ![sub32 4 x, add32 x 1, add32 y 1, sub32 4 y]

/-- The weights `b = {x, 3-x, 3-y, y}` of cell `i`. -/
def weightB (i : Int) : v4si :=
  let x := and32 i 3
  let y := shr32 i 2
  ![x, sub32 3 x, sub32 3 y, y]

/-- `(a*v + b*__builtin_shuffle(v, shuffle)) >> 2`: the interpolation applied to
`bound`, `dx`, `dy` and `dz` for cell `i` (lines 118-121). -/
def interp (i : Int) (v : v4si) : v4si :=
  vshr (vadd (vmul (weightA i) v) (vmul (weightB i) (shuffle1032 v))) 2

/-! ## The quadtree arm of variant B (`octree_draw.cpp` lines 110-133) -/

/-- The arena after `k` calls of `allocate()` on a new `octree_buffer`. -/
def afterCalls : Nat → octree_buffer
  | 0 => octree_buffer.init
  | k + 1 => (afterCalls k).allocate.1

/-- The node returned by call number `k + 1` of `allocate()` on a new
`octree_buffer`. -/
def allocated (k : Nat) : Nat := (afterCalls k).allocate.2

/-! ## Nested calls of `SubFaceRenderer::traverse` and the calls of `FaceRenderer::render`
(`octree.cpp` lines 167-238) -/

/-- The arguments `r, s, x1..y2p, d` of one call of `traverse`. -/
structure Call where
  r : Nat
  s : Nat
  b : Box
  d : Int

/-- The condition `x2-x1 <= 2*ONE && y2-y1 <= 2*ONE && d < 20` of the octree arm. -/
def octCond (c : Call) : Prop :=
  sub32 c.b.x2 c.b.x1 ≤ mul32 2 ONE ∧ sub32 c.b.y2 c.b.y1 ≤ mul32 2 ONE ∧ c.d < 20

/-- The call `c` is reached from the call `c0` through nested recursive calls of
`traverse`, `no` of them made by the octree arm and `nq` by the quadtree arm.  A call
of the quadtree arm is guarded by `f.map[r*4+k]`, which depends on the state of the
quadtree: the relation admits it for every state. -/
inductive Nested (t : SubFace) (q : QuadCfg) (mem : Mem) (c0 : Call) : Nat → Nat → Call → Prop
  | start : Nested t q mem c0 0 0 c0
  | oct {no nq : Nat} {c : Call} (v : Nat × Box) : Nested t q mem c0 no nq c →
      outside t c.b = false → octCond c → v ∈ octVisits t mem c.s c.b →
      Nested t q mem c0 (no + 1) nq { r := c.r, s := v.1, b := v.2, d := add32 c.d 1 }
  | quad {no nq : Nat} {c : Call} (rb : Nat × Box) : Nested t q mem c0 no nq c →
      outside t c.b = false → ¬ octCond c → c.r < u32 q.L → rb ∈ quadCalls c.r c.b →
      Nested t q mem c0 no (nq + 1) { r := rb.1, s := c.s, b := rb.2, d := c.d }

/-- The four calls of `FaceRenderer<C, AX, AY, AZ>::render(f, x, y, Q)`, in program
order: the instantiation of `SubFaceRenderer`, the quadtree node and the bounds
(`octree.cpp` lines 233-238). -/
def renderCalls (C AX AY AZ : Fin 8) (x y Q : Int) : List (SubFace × Nat × Box) :=
  [({ DX := -1, DY := -1, C := xor8 (xor8 C AX) AY, AX := AX, AY := AY, AZ := AZ }, 0,
      { x1 := sub32 x Q, x2 := x, x1p := wrap32 (-ONE), x2p := 0,
        y1 := sub32 y Q, y2 := y, y1p := wrap32 (-ONE), y2p := 0 }),
   ({ DX := 1, DY := -1, C := xor8 C AY, AX := AX, AY := AY, AZ := AZ }, 1,
      { x1 := x, x2 := add32 x Q, x1p := 0, x2p := ONE,
        y1 := sub32 y Q, y2 := y, y1p := wrap32 (-ONE), y2p := 0 }),
   ({ DX := -1, DY := 1, C := xor8 C AX, AX := AX, AY := AY, AZ := AZ }, 2,
      { x1 := sub32 x Q, x2 := x, x1p := wrap32 (-ONE), x2p := 0,
        y1 := y, y2 := add32 y Q, y1p := 0, y2p := ONE }),
   ({ DX := 1, DY := 1, C := C, AX := AX, AY := AY, AZ := AZ }, 3,
      { x1 := x, x2 := add32 x Q, x1p := 0, x2p := ONE,
        y1 := y, y2 := add32 y Q, y1p := 0, y2p := ONE })]

/-- `FaceRenderer<C, AX, AY, AZ>::render(f, x, y, Q)` on the scene rooted at `M`: each
call is made `if (f.map[k])`, with `d = 0`. -/
def FaceRenderer.render (C AX AY AZ : Fin 8) (q : QuadCfg) (mem : Mem) (M : Nat) (fuel : Nat)
    (f : QState) (x y Q : Int) : Option QState :=
  (renderCalls C AX AY AZ x y Q).foldlM (fun (f : QState) (c : SubFace × Nat × Box) =>
    if f.map c.2.1 ≠ 0 then traverse c.1 q mem fuel f c.2.1 M c.2.2 0 else some f) f

/-- The range of the derivative pair of one axis: `-ONE <= a1p <= a2p <= 0` when
`D = -1` and `0 <= a1p <= a2p <= ONE` when `D = +1`. -/
def DerivOK (D a1p a2p : Int) : Prop :=
  (D = -1 ∧ -ONE ≤ a1p ∧ a1p ≤ a2p ∧ a2p ≤ 0) ∨ (D = 1 ∧ 0 ≤ a1p ∧ a1p ≤ a2p ∧ a2p ≤ ONE)

/-- Both derivative pairs of the bounds are in range. -/
def BoxDerivOK (t : SubFace) (b : Box) : Prop :=
  DerivOK t.DX b.x1p b.x2p ∧ DerivOK t.DY b.y1p b.y2p

/-- A memory in which every node is a leaf pointing to itself. -/
def loopMem : Mem := fun a => { c := fun _ => some a, avgcolor := 0, leaf := true }

/-- A solid scene after `average`: every node is a leaf pointing to itself, of colour
`0xFF336699`. -/
def solidMem : Mem := fun a => { c := fun _ => some a, avgcolor := 0xFF336699, leaf := true }

/-! # Theorems -/

theorem wrap32_of_range (v : Int) (h1 : -2147483648 ≤ v) (h2 : v < 2147483648) : wrap32 v = v := by
  unfold wrap32 toI32 toU32
  split <;> omega

theorem toI32_of_lt (n : Nat) (h : n < 2147483648) : toI32 n = (n : Int) := by
  unfold toI32
  have : n % 4294967296 = n := Nat.mod_eq_of_lt (by omega)
  rw [this, if_pos h]

theorem bitOf_lt (x : Int) (k : Nat) : bitOf x k < 2 := by
  unfold bitOf; omega

theorem toU32_testBit (x : Int) (k : Nat) (hk : k < 32) :
    (toU32 x).testBit k = decide (bitOf x k = 1) := by
  unfold toU32 bitOf
  rw [Nat.testBit_to_div_mod]
  congr 1
  interval_cases k <;> simp only [eq_iff_iff] <;> norm_num <;> omega

theorem and32_mask (x : Int) (k : Nat) (hk : k < 31) :
    and32 x (shl32 1 k) = (bitOf x k : Int) * 2 ^ k := by
  have hp : (2:Int) ^ k < 2147483648 := by
    have : (2:Int) ^ k ≤ 2 ^ 30 := pow_le_pow_right₀ (by norm_num) (by omega)
    norm_num at this; omega
  have hp0 : (0:Int) < 2 ^ k := by positivity
  have hs : shl32 1 k = 2 ^ k := by
    unfold shl32; rw [one_mul]; exact wrap32_of_range _ (by omega) hp
  have hu : toU32 (2 ^ k) = 2 ^ k := by
    unfold toU32
    have : ((2:Int) ^ k) % 4294967296 = 2 ^ k := Int.emod_eq_of_lt (by omega) (by omega)
    rw [this]
    have : ((2:Int)^k) = ((2^k : Nat) : Int) := by push_cast; rfl
    rw [this, Int.toNat_natCast]
  rw [hs]; unfold and32; rw [hu, Nat.and_two_pow, toU32_testBit x k (by omega)]
  have hb := bitOf_lt x k
  have hpn : (2:Nat) ^ k < 2147483648 := by exact_mod_cast hp
  by_cases h1 : bitOf x k = 1
  · simp only [h1, decide_True, Bool.toNat_true, one_mul, Nat.cast_one]
    rw [toI32_of_lt _ hpn]; push_cast; rfl
  · have h0 : bitOf x k = 0 := by omega
    simp only [h0, zero_ne_one, decide_False, Bool.toNat_false, zero_mul, Nat.cast_zero]
    rfl

theorem setIdx_eq (x y z : Int) (k : Nat) (hk : k ≤ 28) :
    setIdx x y z k = ((bitIdx x y z k).val : Int) := by
  unfold setIdx shr32
  simp only
  rw [and32_mask x k (by omega), and32_mask y k (by omega), and32_mask z k (by omega)]
  have hx := bitOf_lt x k
  have hy := bitOf_lt y k
  have hz := bitOf_lt z k
  have hp : (2:Int) ^ k ≤ 268435456 := by
    have : (2:Int) ^ k ≤ 2 ^ 28 := pow_le_pow_right₀ (by norm_num) hk
    norm_num at this; exact this
  have hp0 : (0:Int) < 2 ^ k := by positivity
  generalize (2:Int)^k = P at *
  have bx : (0:Int) ≤ (bitOf x k : Int) * P ∧ (bitOf x k : Int) * P ≤ P := by
    constructor
    · positivity
    · nlinarith
  have by' : (0:Int) ≤ (bitOf y k : Int) * P ∧ (bitOf y k : Int) * P ≤ P := by
    constructor
    · positivity
    · nlinarith
  have bz : (0:Int) ≤ (bitOf z k : Int) * P ∧ (bitOf z k : Int) * P ≤ P := by
    constructor
    · positivity
    · nlinarith
  unfold mul32 add32
  rw [wrap32_of_range (_ * 4) (by omega) (by omega), wrap32_of_range (_ * 2) (by omega) (by omega)]
  rw [wrap32_of_range (_ * 4 + _ * 2) (by omega) (by omega)]
  rw [wrap32_of_range _ (by omega) (by omega)]
  unfold bitIdx
  simp only
  push_cast
  have : (bitOf x k : Int) * P * 4 + (bitOf y k : Int) * P * 2 + (bitOf z k : Int) * P
      = (4 * (bitOf x k : Int) + 2 * bitOf y k + bitOf z k) * P := by ring
  rw [this, Int.mul_ediv_cancel _ (ne_of_gt hp0)]

/-! ## The arena -/

theorem allocate_spec (b : octree_buffer) (hb : bufOK b) :
    b.allocate.2 = used b ∧ used b.allocate.1 = used b + 1 ∧ bufOK b.allocate.1 := by
  unfold octree_buffer.allocate used bufOK ptr N at *
  rcases hb with ⟨h1, h2⟩ | ⟨h1, h2⟩
  · simp [h1, h2]
  · by_cases hi : b.i + 1 ≥ 65536
    · have : b.i = 65535 := by omega
      simp [this]
      have h0 : b.list ≠ 0 := by omega
      simp [h0]
      obtain ⟨l, hl⟩ : ∃ l, b.list = l + 1 := ⟨b.list - 1, by omega⟩
      rw [hl]; simp; ring
    · have h0 : b.list ≠ 0 := by omega
      simp only [hi, if_false, h0]
      refine ⟨by ring, by ring, Or.inr ⟨h1, by omega⟩⟩

/-! ## Reachability in a tree-shaped memory -/

theorem Reach.snoc {m : Mem} {p b a : Nat} {i : Fin 8} (h : Reach m p b)
    (hc : (m b).c i = some a) : Reach m p a := by
  induction h with
  | refl p => exact Reach.step i hc (Reach.refl _)
  | step j hq _ ih => exact Reach.step j hq (ih hc)

theorem Reach.tail {m : Mem} {p a : Nat} (h : Reach m p a) :
    a = p ∨ ∃ b i, Reach m p b ∧ (m b).c i = some a := by
  induction h with
  | refl p => exact Or.inl rfl
  | @step p q a j hq hr ih =>
    right
    rcases ih with rfl | ⟨b, i, hb, hc⟩
    · exact ⟨p, j, Reach.refl _, hq⟩
    · exact ⟨b, i, Reach.step j hq hb, hc⟩

theorem Reach.le {m : Mem} {u p a : Nat} (ht : TreeInv m u) (h : Reach m p a) : p ≤ a := by
  induction h with
  | refl p => exact le_refl _
  | step j hq _ ih => exact le_trans (le_of_lt (ht.lt _ _ _ hq).1) ih

theorem Reach.lt_used {m : Mem} {u p a : Nat} (ht : TreeInv m u) (hp : p < u)
    (h : Reach m p a) : a < u := by
  induction h with
  | refl p => exact hp
  | step j hq _ ih => exact ih (ht.lt _ _ _ hq).2

theorem Reach.comparable {m : Mem} {u : Nat} (ht : TreeInv m u) :
    ∀ a q q', Reach m q a → Reach m q' a → Reach m q q' ∨ Reach m q' q := by
  intro a
  induction a using Nat.strong_induction_on with
  | _ a ih =>
    intro q q' h1 h2
    rcases h1.tail with rfl | ⟨b, i, hb, hc⟩
    · exact Or.inr h2
    · rcases h2.tail with rfl | ⟨b', i', hb', hc'⟩
      · exact Or.inl h1
      · obtain ⟨rfl, rfl⟩ := ht.inj _ _ _ _ _ hc hc'
        exact ih b (ht.lt _ _ _ hc).1 q q' hb hb'

theorem siblings_disjoint {m : Mem} {u p q q' a : Nat} {i j : Fin 8} (ht : TreeInv m u)
    (hq : (m p).c i = some q) (hq' : (m p).c j = some q') (hij : i ≠ j)
    (h1 : Reach m q a) (h2 : Reach m q' a) : False := by
  have key : ∀ {q q' : Nat} {i j : Fin 8}, (m p).c i = some q → (m p).c j = some q' → i ≠ j →
      Reach m q q' → False := by
    intro q q' i j hq hq' hij h
    rcases h.tail with rfl | ⟨b, k, hb, hc⟩
    · exact hij (ht.inj _ _ _ _ _ hq hq').2
    · obtain ⟨rfl, _⟩ := ht.inj _ _ _ _ _ hc hq'
      have := hb.le ht
      have := (ht.lt _ _ _ hq).1
      omega
  rcases Reach.comparable ht a q q' h1 h2 with h | h
  · exact key hq hq' hij h
  · exact key hq' hq (Ne.symm hij) h

theorem walk_congr {m m' : Mem} : ∀ (π : List (Fin 8)) (q : Nat),
    (∀ a, Reach m q a → m' a = m a) → walk m' q π = walk m q π := by
  intro π
  induction π with
  | nil => intro q _; rfl
  | cons i rest ih =>
    intro q h
    simp only [walk]
    rw [h q (Reach.refl _)]
    cases hc : (m q).c i with
    | none => rfl
    | some r => exact ih r fun a ha => h a (Reach.step i hc ha)

theorem walk_reach {m : Mem} : ∀ (π : List (Fin 8)) (q a : Nat),
    walk m q π = some a → Reach m q a := by
  intro π
  induction π with
  | nil => intro q a h; simp only [walk, Option.some.injEq] at h; subst h; exact Reach.refl _
  | cons i rest ih =>
    intro q a h
    simp only [walk] at h
    cases hc : (m q).c i with
    | none => rw [hc] at h; cases h
    | some r => rw [hc] at h; exact Reach.step i hc (ih r a h)

theorem colorAt_congr {m m' : Mem} (π : List (Fin 8)) (q : Nat)
    (h : ∀ a, Reach m q a → m' a = m a) : colorAt m' q π = colorAt m q π := by
  unfold colorAt
  rw [walk_congr π q h]
  cases hw : walk m q π with
  | none => rfl
  | some a => simp only [Option.map_some']; rw [h a (walk_reach π q a hw)]

/-! ## `set` on a tree-shaped heap -/

theorem setColor_c (m : Mem) (p a col : Nat) : ((m.setColor p col) a).c = (m a).c := by
  unfold Mem.setColor
  by_cases h : a = p
  · subst h; simp
  · simp [h]

theorem setColor_other (m : Mem) (p a col : Nat) (h : a ≠ p) : (m.setColor p col) a = m a := by
  unfold Mem.setColor; simp [h]

theorem setColor_self (m : Mem) (p col : Nat) : ((m.setColor p col) p).avgcolor = col := by
  unfold Mem.setColor; simp

theorem setChild_other (m : Mem) (p a : Nat) (i : Fin 8) (q : Option Nat) (h : a ≠ p) :
    (m.setChild p i q) a = m a := by
  unfold Mem.setChild; simp [h]

theorem setChild_self (m : Mem) (p : Nat) (i j : Fin 8) (q : Option Nat) :
    ((m.setChild p i q) p).c j = if j = i then q else (m p).c j := by
  unfold Mem.setChild; simp

theorem setChild_c (m : Mem) (p a : Nat) (i j : Fin 8) (q : Option Nat) :
    ((m.setChild p i q) a).c j = if a = p ∧ j = i then q else (m a).c j := by
  by_cases h : a = p
  · subst h; rw [setChild_self]; simp
  · rw [setChild_other _ _ _ _ _ h]; simp [h]

theorem TreeInv.setColor {m : Mem} {u : Nat} (ht : TreeInv m u) (p col : Nat) :
    TreeInv (m.setColor p col) u := by
  constructor
  · intro a i q h; rw [setColor_c] at h; exact ht.lt a i q h
  · intro a a' i j q h h'; rw [setColor_c] at h h'; exact ht.inj a a' i j q h h'

theorem TreeInv.setChild_fresh {m : Mem} {u p : Nat} (ht : TreeInv m u) (hp : p < u) (i : Fin 8) :
    TreeInv (m.setChild p i (some u)) (u + 1) := by
  constructor
  · intro a j q h
    rw [setChild_c] at h
    split at h
    · rename_i hh; obtain ⟨rfl, rfl⟩ := hh
      simp only [Option.some.injEq] at h; subst h; omega
    · have := ht.lt a j q h; omega
  · intro a a' j j' q h h'
    rw [setChild_c] at h h'
    split at h <;> split at h'
    · rename_i h1 h2; exact ⟨h1.1.trans h2.1.symm, h1.2.trans h2.2.symm⟩
    · simp only [Option.some.injEq] at h; subst h
      have := ht.lt a' j' _ h'; omega
    · simp only [Option.some.injEq] at h'; subst h'
      have := ht.lt a j _ h; omega
    · exact ht.inj a a' j j' q h h'

theorem no_child_of_fresh {m : Mem} {u a : Nat} (ht : TreeInv m u) (ha : u ≤ a) (i : Fin 8) :
    (m a).c i = none := by
  cases h : (m a).c i with
  | none => rfl
  | some q => have := ht.lt a i q h; omega

theorem setN_spec (x y z : Int) (col : Nat) : ∀ (d : Nat), d ≤ 29 → ∀ (h : Heap) (p : Nat),
    bufOK h.buf → TreeInv h.mem (used h.buf) → p < used h.buf →
    ∃ h', setN h p x y z d col = some h' ∧ bufOK h'.buf ∧ TreeInv h'.mem (used h'.buf) ∧
      used h.buf ≤ used h'.buf ∧
      (∃ q, walk h'.mem p (bitPath x y z d) = some q ∧ (h'.mem q).avgcolor = col) ∧
      (∀ a, a < used h.buf → ¬ Reach h.mem p a → h'.mem a = h.mem a) ∧
      (∀ π : List (Fin 8), π.length = d → π ≠ bitPath x y z d →
        colorAt h'.mem p π = colorAt h.mem p π) := by
  intro d
  induction d with
  | zero =>
    intro _ h p hb ht hp
    refine ⟨_, rfl, hb, ht.setColor p col, le_refl _, ⟨p, rfl, setColor_self _ _ _⟩, ?_, ?_⟩
    · intro a _ hr
      exact setColor_other _ _ _ _ (fun e => hr (e ▸ Reach.refl _))
    · intro π hl hne
      exfalso; apply hne
      simpa [bitPath] using hl
  | succ d ih =>
    intro hd h p hb ht hp
    have hidx := setIdx_eq x y z d (by omega)
    have hi : 0 ≤ setIdx x y z d ∧ setIdx x y z d < 8 := by
      rw [hidx]; have := (bitIdx x y z d).isLt; omega
    have hfin : (⟨(setIdx x y z d).toNat, by omega⟩ : Fin 8) = bitIdx x y z d := by
      apply Fin.ext; simp only; rw [hidx]; simp
    simp only [setN, show d < 30 by omega, if_true, hi, and_self, dite_true, hfin, bitPath]
    cases hc : (h.mem p).c (bitIdx x y z d) with
    | some q =>
      simp only
      have hq := ht.lt _ _ _ hc
      obtain ⟨h', hs, hb', ht', hu, ⟨e, hw, hcol⟩, hfr, hoth⟩ := ih (by omega) h q hb ht hq.2
      have hp' : h'.mem p = h.mem p :=
        hfr p hp (fun hr => by have := hr.le ht; omega)
      refine ⟨h', hs, hb', ht', hu, ⟨e, ?_, hcol⟩, ?_, ?_⟩
      · simp only [walk, hp', hc]; exact hw
      · intro a ha hr
        exact hfr a ha (fun hr' => hr (Reach.step _ hc hr'))
      · intro π hl hne
        cases π with
        | nil => simp at hl
        | cons j π' =>
          simp only [List.length_cons, Nat.add_right_cancel_iff] at hl
          unfold colorAt
          simp only [walk, hp']
          cases hcj : (h.mem p).c j with
          | none => rfl
          | some q' =>
            simp only
            by_cases hj : j = bitIdx x y z d
            · subst hj
              rw [hc] at hcj; simp only [Option.some.injEq] at hcj; subst hcj
              exact hoth π' hl (fun e => hne (by rw [e]))
            · apply colorAt_congr
              intro a ha
              apply hfr a (ha.lt_used ht (ht.lt _ _ _ hcj).2)
              intro hr
              exact siblings_disjoint ht hc hcj (Ne.symm hj) hr ha
    | none =>
      simp only
      obtain ⟨ha2, hau, hab⟩ := allocate_spec h.buf hb
      set a := h.buf.allocate with hadef
      rw [ha2]
      have ht1 : TreeInv (h.mem.setChild p (bitIdx x y z d) (some (used h.buf))) (used a.1) := by
        rw [hau]; exact ht.setChild_fresh hp _
      obtain ⟨h', hs, hb', ht', hu, ⟨e, hw, hcol⟩, hfr, hoth⟩ :=
        ih (by omega) { buf := a.1, mem := h.mem.setChild p (bitIdx x y z d) (some (used h.buf)) }
          (used h.buf) hab ht1 (by simp only; omega)
      simp only at hu hfr hoth hw
      have hfreshReach : ∀ b, Reach (h.mem.setChild p (bitIdx x y z d) (some (used h.buf)))
          (used h.buf) b → b = used h.buf := by
        intro b hr
        cases hr with
        | refl => rfl
        | step j hq _ =>
          rw [setChild_c] at hq
          have : ¬ (used h.buf = p ∧ j = bitIdx x y z d) := by omega
          rw [if_neg this, no_child_of_fresh ht (le_refl _)] at hq
          cases hq
      have hp' : h'.mem p = (h.mem.setChild p (bitIdx x y z d) (some (used h.buf))) p :=
        hfr p (by omega) (fun hr => by have := hfreshReach p hr; omega)
      refine ⟨h', hs, hb', ht', by omega, ⟨e, ?_, hcol⟩, ?_, ?_⟩
      · simp only [walk, hp', setChild_self, if_true]; exact hw
      · intro b hbu hr
        have hbp : b ≠ p := fun e => hr (e ▸ Reach.refl _)
        rw [hfr b (by omega) (fun hr' => by have := hfreshReach b hr'; omega)]
        exact setChild_other _ _ _ _ _ hbp
      · intro π hl hne
        cases π with
        | nil => simp at hl
        | cons j π' =>
          simp only [List.length_cons, Nat.add_right_cancel_iff] at hl
          unfold colorAt
          simp only [walk, hp', setChild_self]
          by_cases hj : j = bitIdx x y z d
          · subst hj
            simp only [if_true, hc]
            have hne' : π' ≠ bitPath x y z d := fun e => hne (by rw [e])
            have := hoth π' hl hne'
            unfold colorAt at this
            rw [this]
            cases π' with
            | nil => exfalso; apply hne'; subst hl; rfl
            | cons k π'' =>
              simp only [walk, setChild_c]
              have : ¬ (used h.buf = p ∧ k = bitIdx x y z d) := by omega
              rw [if_neg this, no_child_of_fresh ht (le_refl _)]
              rfl
          · simp only [if_neg hj]
            cases hcj : (h.mem p).c j with
            | none => rfl
            | some q' =>
              simp only
              apply colorAt_congr
              intro b hb'
              have hbu := hb'.lt_used ht (ht.lt _ _ _ hcj).2
              have hbp : b ≠ p := by
                have := hb'.le ht
                have := (ht.lt _ _ _ hcj).1
                omega
              rw [hfr b (by omega) (fun hr' => by have := hfreshReach b hr'; omega)]
              exact setChild_other _ _ _ _ _ hbp

theorem emod_two_pow_succ (x : Int) (d : Nat) :
    x % 2 ^ (d + 1) = x % 2 ^ d + 2 ^ d * (bitOf x d : Int) := by
  have hP : (0:Int) < 2 ^ d := by positivity
  unfold bitOf
  rw [pow_succ]
  generalize (2:Int) ^ d = P at *
  have h1 := Int.emod_add_ediv x P
  have h2 := Int.emod_add_ediv (x / P) 2
  have hb0 : 0 ≤ x / P % 2 := Int.emod_nonneg _ (by norm_num)
  have hb1 : x / P % 2 < 2 := Int.emod_lt_of_pos _ (by norm_num)
  have hr0 : 0 ≤ x % P := Int.emod_nonneg _ (ne_of_gt hP)
  have hr1 : x % P < P := Int.emod_lt_of_pos _ hP
  rw [Int.toNat_of_nonneg hb0]
  have e : x = (x % P + P * (x / P % 2)) + (P * 2) * (x / P / 2) := by
    have : P * (x / P) = P * (x / P % 2) + P * 2 * (x / P / 2) := by
      conv_lhs => rw [← h2]
      ring
    linarith
  conv_lhs => rw [e]
  rw [Int.add_mul_emod_self_left]
  apply Int.emod_eq_of_lt
  · have : 0 ≤ P * (x / P % 2) := by positivity
    omega
  · have : P * (x / P % 2) ≤ P * 1 := by
      apply mul_le_mul_of_nonneg_left _ (le_of_lt hP); omega
    omega

theorem bitIdx_eq_iff (x y z x' y' z' : Int) (k : Nat) :
    bitIdx x y z k = bitIdx x' y' z' k ↔
      bitOf x k = bitOf x' k ∧ bitOf y k = bitOf y' k ∧ bitOf z k = bitOf z' k := by
  have h1 := bitOf_lt x k
  have h2 := bitOf_lt y k
  have h3 := bitOf_lt z k
  have h4 := bitOf_lt x' k
  have h5 := bitOf_lt y' k
  have h6 := bitOf_lt z' k
  unfold bitIdx
  rw [Fin.mk.injEq]
  omega

theorem bitPath_eq_of_low_bits (x y z x' y' z' : Int) : ∀ d : Nat,
    x % 2 ^ d = x' % 2 ^ d → y % 2 ^ d = y' % 2 ^ d → z % 2 ^ d = z' % 2 ^ d →
    bitPath x y z d = bitPath x' y' z' d := by
  intro d
  induction d with
  | zero => intros; rfl
  | succ d ih =>
    intro hx hy hz
    rw [emod_two_pow_succ, emod_two_pow_succ] at hx hy hz
    have hP : (0:Int) < 2 ^ d := by positivity
    have key : ∀ a a' : Int, a % 2 ^ d + 2 ^ d * (bitOf a d : Int) = a' % 2 ^ d + 2 ^ d * (bitOf a' d : Int) →
        a % 2 ^ d = a' % 2 ^ d ∧ bitOf a d = bitOf a' d := by
      intro a a' h
      have r0 : 0 ≤ a % 2 ^ d := Int.emod_nonneg _ (ne_of_gt hP)
      have r1 : a % 2 ^ d < 2 ^ d := Int.emod_lt_of_pos _ hP
      have r0' : 0 ≤ a' % 2 ^ d := Int.emod_nonneg _ (ne_of_gt hP)
      have r1' : a' % 2 ^ d < 2 ^ d := Int.emod_lt_of_pos _ hP
      have b1 := bitOf_lt a d
      have b2 := bitOf_lt a' d
      generalize (2:Int) ^ d = P at *
      generalize a % P = r at *
      generalize a' % P = r' at *
      have hb : bitOf a d = bitOf a' d := by
        rcases Nat.lt_or_ge (bitOf a d) (bitOf a' d) with hlt | hge
        · exfalso
          have h0 : bitOf a d = 0 := by omega
          have h1 : bitOf a' d = 1 := by omega
          rw [h0, h1] at h; simp at h; omega
        · rcases Nat.lt_or_ge (bitOf a' d) (bitOf a d) with hlt | hge'
          · exfalso
            have h0 : bitOf a' d = 0 := by omega
            have h1 : bitOf a d = 1 := by omega
            rw [h0, h1] at h; simp at h; omega
          · omega
      rw [hb] at h
      exact ⟨by linarith, hb⟩
    obtain ⟨hx1, hx2⟩ := key _ _ hx
    obtain ⟨hy1, hy2⟩ := key _ _ hy
    obtain ⟨hz1, hz2⟩ := key _ _ hz
    simp only [bitPath]
    rw [ih hx1 hy1 hz1, (bitIdx_eq_iff x y z x' y' z' d).2 ⟨hx2, hy2, hz2⟩]

theorem low_bits_of_bitPath_eq (x y z x' y' z' : Int) : ∀ d : Nat,
    bitPath x y z d = bitPath x' y' z' d →
    x % 2 ^ d = x' % 2 ^ d ∧ y % 2 ^ d = y' % 2 ^ d ∧ z % 2 ^ d = z' % 2 ^ d := by
  intro d
  induction d with
  | zero => intro _; simp [Int.emod_one]
  | succ d ih =>
    intro h
    simp only [bitPath, List.cons.injEq] at h
    obtain ⟨h1, h2, h3⟩ := ih h.2
    obtain ⟨b1, b2, b3⟩ := (bitIdx_eq_iff x y z x' y' z' d).1 h.1
    simp only [emod_two_pow_succ, h1, h2, h3, b1, b2, b3, and_self]

theorem length_bitPath (x y z : Int) (d : Nat) : (bitPath x y z d).length = d := by
  induction d with
  | zero => rfl
  | succ d ih => simp [bitPath, ih]

theorem HeapOK_init : HeapOK Heap.init := by
  refine ⟨Or.inr ⟨by decide, by decide⟩, ⟨?_, ?_⟩, by decide⟩
  · intro p i q h; cases h
  · intro p p' i j q h; cases h

theorem set_spec (h : Heap) (hok : HeapOK h) (x y z d : Int) (col : Nat) (h0 : 0 ≤ d)
    (h26 : d ≤ 26) :
    ∃ h', octree.set h rootAddr x y z d col = some h' ∧ HeapOK h' ∧
      colorAt h'.mem rootAddr (bitPath x y z d.toNat) = some col ∧
      (∀ a, a < used h.buf → ¬ Reach h.mem rootAddr a → h'.mem a = h.mem a) ∧
      (∀ π : List (Fin 8), π.length = d.toNat → π ≠ bitPath x y z d.toNat →
        colorAt h'.mem rootAddr π = colorAt h.mem rootAddr π) := by
  obtain ⟨h', hs, hb', ht', hu, ⟨q, hw, hcol⟩, hfr, hoth⟩ :=
    setN_spec x y z col d.toNat (by omega) h rootAddr hok.buf hok.tree hok.root
  refine ⟨h', ?_, ⟨hb', ht', lt_of_lt_of_le hok.root hu⟩, ?_, hfr, hoth⟩
  · unfold octree.set; rw [if_neg (by omega)]; exact hs
  · unfold colorAt; rw [hw]; simp [hcol]

theorem build_ok : ∀ vs : List Voxel, ValidVoxels vs → ∃ h, build vs = some h ∧ HeapOK h := by
  intro vs
  induction vs with
  | nil => intro _; exact ⟨_, rfl, HeapOK_init⟩
  | cons v vs ih =>
    intro hv
    obtain ⟨h, hb, hok⟩ := ih (fun w hw => hv w (List.mem_cons_of_mem _ hw))
    obtain ⟨hd0, hd26⟩ := hv v (List.mem_cons_self _ _)
    obtain ⟨h', hs, hok', _⟩ := set_spec h hok v.x v.y v.z v.depth v.color hd0 hd26
    exact ⟨h', by simp only [build, hb, Option.some_bind]; exact hs, hok'⟩

/-- C1: `octree::set` stores a voxel where the bit-path lookup finds it.  On the tree
built by any earlier `set` calls (depths 0..26), for every depth `0 ≤ d ≤ 26`, colour
`c` and coordinates `x, y, z`, `root.set(x,y,z,d,c)` returns, the depth-`d` lookup along
the bits of `(x, y, z)` then finds a node of colour `c`, and the depth-`d` lookup of
every `(x', y', z')` whose low `d` bits differ from those of `(x, y, z)` in at least one
coordinate gives the same result (absent, or the same colour) as before the call. -/
theorem set_stores_voxel (vs : List Voxel) (hvs : ValidVoxels vs) (x y z d : Int) (c : Nat)
    (h0 : 0 ≤ d) (h26 : d ≤ 26) :
    ∃ h h', build vs = some h ∧ octree.set h rootAddr x y z d c = some h' ∧
      colorAt h'.mem rootAddr (bitPath x y z d.toNat) = some c ∧
      ∀ x' y' z' : Int,
        (x' % 2 ^ d.toNat ≠ x % 2 ^ d.toNat ∨ y' % 2 ^ d.toNat ≠ y % 2 ^ d.toNat ∨
          z' % 2 ^ d.toNat ≠ z % 2 ^ d.toNat) →
        colorAt h'.mem rootAddr (bitPath x' y' z' d.toNat) =
          colorAt h.mem rootAddr (bitPath x' y' z' d.toNat) := by
  obtain ⟨h, hb, hok⟩ := build_ok vs hvs
  obtain ⟨h', hs, _, hcol, _, hoth⟩ := set_spec h hok x y z d c h0 h26
  refine ⟨h, h', hb, hs, hcol, ?_⟩
  intro x' y' z' hdiff
  apply hoth _ (length_bitPath _ _ _ _)
  intro e
  obtain ⟨e1, e2, e3⟩ := low_bits_of_bitPath_eq _ _ _ _ _ _ _ e
  rcases hdiff with hd | hd | hd
  · exact hd e1
  · exact hd e2
  · exact hd e3

theorem set_stores_voxel_witness :
    (ValidVoxels [⟨1, 2, 3, 2, 0xFF00FF00⟩] ∧ (0:Int) ≤ 3 ∧ (3:Int) ≤ 26) ∧
    ∃ h h', build [⟨1, 2, 3, 2, 0xFF00FF00⟩] = some h ∧
      octree.set h rootAddr 5 0 7 3 0xFF112233 = some h' ∧
      colorAt h'.mem rootAddr (bitPath 5 0 7 (3:Int).toNat) = some 0xFF112233 ∧
      ∀ x' y' z' : Int,
        (x' % 2 ^ (3:Int).toNat ≠ 5 % 2 ^ (3:Int).toNat ∨
          y' % 2 ^ (3:Int).toNat ≠ 0 % 2 ^ (3:Int).toNat ∨
          z' % 2 ^ (3:Int).toNat ≠ 7 % 2 ^ (3:Int).toNat) →
        colorAt h'.mem rootAddr (bitPath x' y' z' (3:Int).toNat) =
          colorAt h.mem rootAddr (bitPath x' y' z' (3:Int).toNat) :=
  ⟨⟨by unfold ValidVoxels; decide, by decide, by decide⟩,
   set_stores_voxel [⟨1, 2, 3, 2, 0xFF00FF00⟩] (by unfold ValidVoxels; decide) 5 0 7 3 0xFF112233
     (by decide) (by decide)⟩

/-! ## Colour channels -/

theorem shiftRight_and_mask (v k : Nat) :
    (v &&& (255 <<< k)) >>> k = v / 2 ^ k % 256 := by
  apply Nat.eq_of_testBit_eq
  intro i
  have h255 : (255 : Nat) = 2 ^ 8 - 1 := by norm_num
  have h256 : (256 : Nat) = 2 ^ 8 := by norm_num
  rw [Nat.testBit_shiftRight, Nat.testBit_and, Nat.testBit_shiftLeft, h256,
    Nat.testBit_mod_two_pow, ← Nat.shiftRight_eq_div_pow, Nat.testBit_shiftRight, h255,
    Nat.testBit_two_pow_sub_one]
  simp only [ge_iff_le, le_add_iff_nonneg_right, zero_le, decide_True, add_tsub_cancel_left,
    Bool.true_and]
  exact Bool.and_comm _ _

theorem chanR_eq (v : Nat) : chanR v = v / 65536 % 256 := by
  have := shiftRight_and_mask v 16
  norm_num at this
  exact this

theorem chanG_eq (v : Nat) : chanG v = v / 256 % 256 := by
  have := shiftRight_and_mask v 8
  norm_num at this
  exact this

theorem chanB_eq (v : Nat) : chanB v = v % 256 := by
  have := shiftRight_and_mask v 0
  norm_num at this
  exact this

theorem chan_rgb (r g b : ℚ) (hr : round r ≤ 255) (hg : round g ≤ 255) (hb : round b ≤ 255) :
    chanR (rgb r g b) = (round r).toNat ∧ chanG (rgb r g b) = (round g).toNat ∧
      chanB (rgb r g b) = (round b).toNat := by
  rw [chanR_eq, chanG_eq, chanB_eq]
  unfold rgb
  have h1 : (round r).toNat ≤ 255 := by omega
  have h2 : (round g).toNat ≤ 255 := by omega
  have h3 : (round b).toNat ≤ 255 := by omega
  omega

/-! ## `average` on a tree-shaped memory -/

theorem setLeaf_c (m : Mem) (p a : Nat) (b : Bool) : ((m.setLeaf p b) a).c = (m a).c := by
  unfold Mem.setLeaf
  by_cases h : a = p
  · subst h; simp
  · simp [h]

theorem setLeaf_avgcolor (m : Mem) (p a : Nat) (b : Bool) :
    ((m.setLeaf p b) a).avgcolor = (m a).avgcolor := by
  unfold Mem.setLeaf
  by_cases h : a = p
  · subst h; simp
  · simp [h]

theorem setLeaf_other (m : Mem) (p a : Nat) (b : Bool) (h : a ≠ p) : (m.setLeaf p b) a = m a := by
  unfold Mem.setLeaf; simp [h]

theorem setLeaf_self (m : Mem) (p : Nat) (b : Bool) : ((m.setLeaf p b) p).leaf = b := by
  unfold Mem.setLeaf; simp

theorem setColor_leaf (m : Mem) (p a col : Nat) : ((m.setColor p col) a).leaf = (m a).leaf := by
  unfold Mem.setColor
  by_cases h : a = p
  · subst h; simp
  · simp [h]

theorem Reach.trans {m : Mem} {p a b : Nat} (h1 : Reach m p a) (h2 : Reach m a b) :
    Reach m p b := by
  induction h1 with
  | refl p => exact h2
  | step j hq _ ih => exact Reach.step j hq (ih h2)

theorem selfLoop_spec (p : Nat) (m : Mem) :
    (∀ a, a ≠ p → selfLoop p m a = m a) ∧ (selfLoop p m p).leaf = (m p).leaf ∧
      (selfLoop p m p).avgcolor = (m p).avgcolor ∧ ∀ j, (selfLoop p m p).c j = some p := by
  have key : ∀ (l : List (Fin 8)) (m : Mem),
      (∀ a, a ≠ p → l.foldl (fun (m : Mem) (i : Fin 8) => m.setChild p i (some p)) m a = m a) ∧
      (l.foldl (fun (m : Mem) (i : Fin 8) => m.setChild p i (some p)) m p).leaf = (m p).leaf ∧
      (l.foldl (fun (m : Mem) (i : Fin 8) => m.setChild p i (some p)) m p).avgcolor
        = (m p).avgcolor ∧
      ∀ j, (l.foldl (fun (m : Mem) (i : Fin 8) => m.setChild p i (some p)) m p).c j
        = if j ∈ l then some p else (m p).c j := by
    intro l
    induction l with
    | nil => intro m; simp
    | cons i l ih =>
      intro m
      obtain ⟨h1, h2, h3, h4⟩ := ih (m.setChild p i (some p))
      simp only [List.foldl_cons]
      refine ⟨fun a ha => by rw [h1 a ha, setChild_other _ _ _ _ _ ha], ?_, ?_, ?_⟩
      · rw [h2]; unfold Mem.setChild; simp
      · rw [h3]; unfold Mem.setChild; simp
      · intro j
        rw [h4 j, setChild_self]
        by_cases hj : j = i
        · subst hj; simp
        · simp [hj]
  obtain ⟨h1, h2, h3, h4⟩ := key (List.finRange 8) m
  exact ⟨h1, h2, h3, fun j => by
    have := h4 j
    rw [if_pos (List.mem_finRange j)] at this
    exact this⟩

theorem sumKids_spec (m : Mem) (p : Nat) :
    (sumKids m p).r = ((kids m p).map fun q => (chanR (m q).avgcolor : ℚ)).sum ∧
    (sumKids m p).g = ((kids m p).map fun q => (chanG (m q).avgcolor : ℚ)).sum ∧
    (sumKids m p).b = ((kids m p).map fun q => (chanB (m q).avgcolor : ℚ)).sum ∧
    (sumKids m p).n = (kids m p).length := by
  have key : ∀ (l : List (Fin 8)) (acc : Acc),
      (l.foldl (sumStep m p) acc).r
        = acc.r + ((l.filterMap (m p).c).map fun q => (chanR (m q).avgcolor : ℚ)).sum ∧
      (l.foldl (sumStep m p) acc).g
        = acc.g + ((l.filterMap (m p).c).map fun q => (chanG (m q).avgcolor : ℚ)).sum ∧
      (l.foldl (sumStep m p) acc).b
        = acc.b + ((l.filterMap (m p).c).map fun q => (chanB (m q).avgcolor : ℚ)).sum ∧
      (l.foldl (sumStep m p) acc).n = acc.n + (l.filterMap (m p).c).length := by
    intro l
    induction l with
    | nil => intro acc; simp
    | cons i l ih =>
      intro acc
      simp only [List.foldl_cons]
      obtain ⟨h1, h2, h3, h4⟩ := ih (sumStep m p acc i)
      rw [h1, h2, h3, h4]
      unfold sumStep
      cases hc : (m p).c i with
      | none => simp [List.filterMap_cons, hc]
      | some q =>
        simp only [List.filterMap_cons, hc, List.map_cons, List.sum_cons, List.length_cons]
        refine ⟨by ring, by ring, by ring, by omega⟩
  obtain ⟨h1, h2, h3, h4⟩ := key (List.finRange 8) { r := 0, g := 0, b := 0, n := 0 }
  unfold sumKids kids
  simp only [zero_add] at h1 h2 h3 h4
  exact ⟨h1, h2, h3, h4⟩

theorem mem_kids {m : Mem} {a q : Nat} : q ∈ kids m a ↔ ∃ i, (m a).c i = some q := by
  unfold kids
  simp [List.mem_filterMap]

theorem meanChan_congr (ch : Nat → Nat) {m m' : Mem} {a : Nat} (ha : m' a = m a)
    (hk : ∀ q i, (m a).c i = some q → m' q = m q) : meanChan ch m' a = meanChan ch m a := by
  unfold meanChan
  have e : kids m' a = kids m a := by unfold kids; rw [ha]
  rw [e]
  congr 2
  apply List.map_congr_left
  intro q hq
  obtain ⟨i, hi⟩ := mem_kids.1 hq
  rw [hk q i hi]

theorem Averaged.congr {m0 m' m'' : Mem} {a : Nat} (h : Averaged m0 m' a)
    (he : ∀ b, Reach m0 a b → m'' b = m' b) : Averaged m0 m'' a := by
  have ha : m'' a = m' a := he a (Reach.refl _)
  constructor
  · intro hl
    rw [ha]; exact h.leaf hl
  · intro hi
    obtain ⟨h1, h2, h3⟩ := h.inner hi
    have hk : ∀ q i, (m' a).c i = some q → m'' q = m' q := by
      intro q i hq
      rw [h2] at hq
      exact he q (Reach.step i hq (Reach.refl _))
    rw [ha]
    refine ⟨h1, h2, ?_⟩
    rw [h3, meanChan_congr chanR ha hk, meanChan_congr chanG ha hk, meanChan_congr chanB ha hk]

theorem avg_loop {m0 : Mem} {u : Nat} (ht : TreeInv m0 u) (fuel p : Nat)
    (IH : ∀ q, q < u → u ≤ q + fuel → ∀ m : Mem, (∀ a, Reach m0 q a → m a = m0 a) →
      ∃ m', averageFuel fuel m q = some m' ∧ (∀ a, ¬ Reach m0 q a → m' a = m a) ∧
        (∀ a, Reach m0 q a → Averaged m0 m' a))
    (hfuel : u ≤ p + fuel + 1) :
    ∀ l : List (Fin 8), l.Nodup → ∀ m : Mem, (m p).c = (m0 p).c →
      (∀ i ∈ l, ∀ q, (m0 p).c i = some q → ∀ a, Reach m0 q a → m a = m0 a) →
      ∃ m', l.foldlM (avgStep (averageFuel fuel) p) m = some m' ∧
        (∀ a, a ≠ p → (∀ i ∈ l, ∀ q, (m0 p).c i = some q → ¬ Reach m0 q a) → m' a = m a) ∧
        (m' p).c = (m0 p).c ∧ (m' p).avgcolor = (m p).avgcolor ∧
        ((∃ i ∈ l, (m0 p).c i ≠ none) → (m' p).leaf = false) ∧
        ((∀ i ∈ l, (m0 p).c i = none) → (m' p).leaf = (m p).leaf) ∧
        (∀ i ∈ l, ∀ q, (m0 p).c i = some q → ∀ a, Reach m0 q a → Averaged m0 m' a) := by
  intro l
  induction l with
  | nil =>
    intro _ m hc _
    refine ⟨m, rfl, fun _ _ _ => rfl, hc, rfl, ?_, fun _ => rfl, ?_⟩
    · rintro ⟨i, hi, _⟩; cases hi
    · intro i hi; cases hi
  | cons i l ih =>
    intro hnd m hc hsub
    have hil : i ∉ l := (List.nodup_cons.1 hnd).1
    have hndl : l.Nodup := (List.nodup_cons.1 hnd).2
    simp only [List.foldlM_cons]
    cases hci : (m0 p).c i with
    | none =>
      have hstep : avgStep (averageFuel fuel) p m i = some m := by
        unfold avgStep; rw [hc, hci]
      rw [hstep]
      obtain ⟨m', hf, hfr, hc', hcol, hl1, hl2, hav⟩ :=
        ih hndl m hc (fun j hj => hsub j (List.mem_cons_of_mem _ hj))
      refine ⟨m', hf, ?_, hc', hcol, ?_, ?_, ?_⟩
      · intro a ha hr
        exact hfr a ha (fun j hj => hr j (List.mem_cons_of_mem _ hj))
      · rintro ⟨j, hj, hne⟩
        rcases List.mem_cons.1 hj with rfl | hj'
        · exact absurd hci hne
        · exact hl1 ⟨j, hj', hne⟩
      · intro hall
        exact hl2 (fun j hj => hall j (List.mem_cons_of_mem _ hj))
      · intro j hj q hq
        rcases List.mem_cons.1 hj with rfl | hj'
        · rw [hci] at hq; cases hq
        · exact hav j hj' q hq
    | some q =>
      have hq := ht.lt p i q hci
      obtain ⟨mq, hmq, hfrq, havq⟩ := IH q hq.2 (by omega) m (hsub i (List.mem_cons_self _ _) q hci)
      have hstep : avgStep (averageFuel fuel) p m i = some (mq.setLeaf p false) := by
        unfold avgStep; rw [hc, hci]; simp only; rw [hmq]; rfl
      rw [hstep]
      have hpq : ¬ Reach m0 q p := fun hr => by have := hr.le ht; omega
      have hm1c : ((mq.setLeaf p false) p).c = (m0 p).c := by
        rw [setLeaf_c, hfrq p hpq, hc]
      have hm1sub : ∀ j ∈ l, ∀ q', (m0 p).c j = some q' → ∀ a, Reach m0 q' a →
          (mq.setLeaf p false) a = m0 a := by
        intro j hj q' hq' a ha
        have hap : a ≠ p := by
          have := ha.le ht
          have := (ht.lt p j q' hq').1
          omega
        have hij : i ≠ j := fun e => hil (e ▸ hj)
        rw [setLeaf_other _ _ _ _ hap,
          hfrq a (fun hr => siblings_disjoint ht hci hq' hij hr ha)]
        exact hsub j (List.mem_cons_of_mem _ hj) q' hq' a ha
      obtain ⟨m', hf, hfr, hc', hcol, hl1, hl2, hav⟩ := ih hndl (mq.setLeaf p false) hm1c hm1sub
      refine ⟨m', hf, ?_, hc', ?_, ?_, ?_, ?_⟩
      · intro a ha hr
        rw [hfr a ha (fun j hj => hr j (List.mem_cons_of_mem _ hj)), setLeaf_other _ _ _ _ ha]
        exact hfrq a (hr i (List.mem_cons_self _ _) q hci)
      · rw [hcol, setLeaf_avgcolor, hfrq p hpq]
      · intro _
        by_cases hex : ∃ j ∈ l, (m0 p).c j ≠ none
        · exact hl1 hex
        · rw [hl2 (fun j hj => by
            by_contra hne
            exact hex ⟨j, hj, hne⟩), setLeaf_self]
      · intro hall
        have := hall i (List.mem_cons_self _ _)
        rw [hci] at this; cases this
      · intro j hj q' hq' a ha
        rcases List.mem_cons.1 hj with rfl | hj'
        · rw [hci] at hq'
          simp only [Option.some.injEq] at hq'
          subst hq'
          apply (havq a ha).congr
          intro b hb
          have hqb : Reach m0 q b := ha.trans hb
          have hbp : b ≠ p := fun e => hpq (e ▸ hqb)
          rw [hfr b hbp, setLeaf_other _ _ _ _ hbp]
          intro k hk qk hqk hr
          exact siblings_disjoint ht hci hqk (fun e => hil (e ▸ hk)) hqb hr
        · exact hav j hj' q' hq' a ha

theorem average_spec {m0 : Mem} {u : Nat} (ht : TreeInv m0 u) : ∀ (fuel p : Nat), p < u →
    u ≤ p + fuel → ∀ m : Mem, (∀ a, Reach m0 p a → m a = m0 a) →
    ∃ m', averageFuel fuel m p = some m' ∧ (∀ a, ¬ Reach m0 p a → m' a = m a) ∧
      (∀ a, Reach m0 p a → Averaged m0 m' a) := by
  intro fuel
  induction fuel with
  | zero => intro p hp hu; omega
  | succ fuel IH =>
    intro p hp hu m hm
    have hmp : m p = m0 p := hm p (Reach.refl _)
    obtain ⟨m2, hf, hfr, hc, hcol, hl1, hl2, hav⟩ :=
      avg_loop ht fuel p IH (by omega) (List.finRange 8) (List.nodup_finRange 8)
        (m.setLeaf p true) (by rw [setLeaf_c, hmp])
        (fun i _ q hq a ha => by
          have hap : a ≠ p := by
            have := ha.le ht
            have := (ht.lt p i q hq).1
            omega
          rw [setLeaf_other _ _ _ _ hap]
          exact hm a (Reach.step i hq ha))
    simp only [averageFuel, hf, Option.some_bind]
    have hsplit : ∀ a, Reach m0 p a → a = p ∨ ∃ i q, (m0 p).c i = some q ∧ Reach m0 q a := by
      intro a ha
      cases ha with
      | refl => exact Or.inl rfl
      | step i hq hr => exact Or.inr ⟨i, _, hq, hr⟩
    have hout : ∀ a, ¬ Reach m0 p a → m2 a = m a := by
      intro a ha
      have hap : a ≠ p := fun e => ha (e ▸ Reach.refl _)
      rw [hfr a hap (fun i _ q hq hr => ha (Reach.step i hq hr)), setLeaf_other _ _ _ _ hap]
    by_cases hleaf : ∀ i, (m0 p).c i = none
    · have hl : (m2 p).leaf = true := by
        rw [hl2 (fun i _ => hleaf i), setLeaf_self]
      rw [if_pos hl]
      obtain ⟨s1, s2, s3, s4⟩ := selfLoop_spec p m2
      refine ⟨_, rfl, ?_, ?_⟩
      · intro a ha
        have hap : a ≠ p := fun e => ha (e ▸ Reach.refl _)
        rw [s1 a hap]; exact hout a ha
      · intro a ha
        rcases hsplit a ha with rfl | ⟨i, q, hq, _⟩
        · constructor
          · intro _
            refine ⟨by rw [s2, hl], s4, ?_⟩
            rw [s3, hcol, setLeaf_avgcolor, hmp]
          · rintro ⟨i, hi⟩; exact absurd (hleaf i) hi
        · rw [hleaf i] at hq; cases hq
    · have hex : ∃ i, (m0 p).c i ≠ none := by
        by_contra hne
        exact hleaf (fun i => by
          by_contra hi
          exact hne ⟨i, hi⟩)
      have hl : (m2 p).leaf = false := by
        obtain ⟨i, hi⟩ := hex
        exact hl1 ⟨i, List.mem_finRange i, hi⟩
      rw [if_neg (by rw [hl]; simp)]
      simp only [PRUNE_NODES, or_true, if_true]
      obtain ⟨a1, a2, a3, a4⟩ := sumKids_spec m2 p
      refine ⟨_, rfl, ?_, ?_⟩
      · intro a ha
        have hap : a ≠ p := fun e => ha (e ▸ Reach.refl _)
        rw [setColor_other _ _ _ _ hap]; exact hout a ha
      · intro a ha
        rcases hsplit a ha with rfl | ⟨i, q, hq, hr⟩
        · have hkid : ∀ q i, (m2 a).c i = some q →
              (m2.setColor a (rgb ((sumKids m2 a).r / (sumKids m2 a).n)
                ((sumKids m2 a).g / (sumKids m2 a).n) ((sumKids m2 a).b / (sumKids m2 a).n))) q
                = m2 q := by
            intro q i hq
            rw [hc] at hq
            have := (ht.lt a i q hq).1
            exact setColor_other _ _ _ _ (by omega)
          constructor
          · intro hl'; exact absurd hl' hleaf
          · intro _
            refine ⟨by rw [setColor_leaf, hl], by rw [setColor_c, hc], ?_⟩
            rw [setColor_self]
            have e : ∀ ch, meanChan ch (m2.setColor a (rgb ((sumKids m2 a).r / (sumKids m2 a).n)
                ((sumKids m2 a).g / (sumKids m2 a).n) ((sumKids m2 a).b / (sumKids m2 a).n))) a
                = meanChan ch m2 a := by
              intro ch
              unfold meanChan
              have ek : kids (m2.setColor a (rgb ((sumKids m2 a).r / (sumKids m2 a).n)
                ((sumKids m2 a).g / (sumKids m2 a).n) ((sumKids m2 a).b / (sumKids m2 a).n))) a
                  = kids m2 a := by
                unfold kids; rw [setColor_c]
              rw [ek]
              congr 2
              apply List.map_congr_left
              intro q hq
              obtain ⟨i, hi⟩ := mem_kids.1 hq
              rw [hkid q i hi]
            rw [e chanR, e chanG, e chanB]
            unfold meanChan
            rw [a1, a2, a3, a4]
        · apply (hav i (List.mem_finRange i) q hq a hr).congr
          intro b hb
          have : p < b := by
            have := (hr.trans hb).le ht
            have := (ht.lt p i q hq).1
            omega
          exact setColor_other _ _ _ _ (by omega)

theorem average_of_build (vs : List Voxel) (hvs : ValidVoxels vs) :
    ∃ h, build vs = some h ∧ HeapOK h ∧ ∀ fuel, used h.buf ≤ fuel →
      ∃ m', averageFuel fuel h.mem rootAddr = some m' ∧
        (∀ a, ¬ Reach h.mem rootAddr a → m' a = h.mem a) ∧
        (∀ a, Reach h.mem rootAddr a → Averaged h.mem m' a) := by
  obtain ⟨h, hb, hok⟩ := build_ok vs hvs
  refine ⟨h, hb, hok, fun fuel hf => ?_⟩
  exact average_spec hok.tree fuel rootAddr hok.root (by omega) h.mem (fun _ _ => rfl)

theorem reach_of_averaged {m0 m' : Mem} {r : Nat}
    (hav : ∀ a, Reach m0 r a → Averaged m0 m' a) :
    ∀ {p a : Nat}, Reach m' p a → Reach m0 r p → Reach m0 r a := by
  intro p a h
  induction h with
  | refl p => exact id
  | @step p q a i hq _ ih =>
    intro hp
    apply ih
    by_cases hl : ∀ i, (m0 p).c i = none
    · have := ((hav p hp).leaf hl).2.1 i
      rw [hq] at this
      simp only [Option.some.injEq] at this
      subst this; exact hp
    · have hex : ∃ i, (m0 p).c i ≠ none := by
        by_contra hne
        exact hl (fun i => by
          by_contra hi
          exact hne ⟨i, hi⟩)
      have := ((hav p hp).inner hex).2.1
      rw [this] at hq
      exact hp.snoc hq

theorem meanChan_const (ch : Nat → Nat) (m : Mem) (a v : Nat) (hk : kids m a ≠ [])
    (hv : ∀ q ∈ kids m a, ch (m q).avgcolor = v) : meanChan ch m a = v := by
  unfold meanChan
  have e : ((kids m a).map fun q => (ch (m q).avgcolor : ℚ)) = (kids m a).map fun _ => (v : ℚ) := by
    apply List.map_congr_left
    intro q hq
    rw [hv q hq]
  rw [e, List.map_const', List.sum_replicate, nsmul_eq_mul]
  have hlen : ((kids m a).length : ℚ) ≠ 0 := by
    have : (kids m a).length ≠ 0 := fun h0 => hk (List.length_eq_zero.1 h0)
    exact_mod_cast this
  field_simp

theorem meanChan_bounds (ch : Nat → Nat) (m : Mem) (a : Nat) (hk : kids m a ≠ [])
    (hv : ∀ v, ch v ≤ 255) : 0 ≤ meanChan ch m a ∧ meanChan ch m a ≤ 255 := by
  unfold meanChan
  have hlen : (0 : ℚ) < ((kids m a).length : ℚ) := by
    have : 0 < (kids m a).length := List.length_pos.2 hk
    exact_mod_cast this
  have h0 : (0 : ℚ) ≤ ((kids m a).map fun q => (ch (m q).avgcolor : ℚ)).sum := by
    apply List.sum_nonneg
    intro x hx
    obtain ⟨q, _, rfl⟩ := List.mem_map.1 hx
    positivity
  have h1 : ((kids m a).map fun q => (ch (m q).avgcolor : ℚ)).sum
      ≤ ((kids m a).map fun q => (ch (m q).avgcolor : ℚ)).length • (255 : ℚ) := by
    apply List.sum_le_card_nsmul
    intro x hx
    obtain ⟨q, _, rfl⟩ := List.mem_map.1 hx
    exact_mod_cast hv _
  rw [List.length_map, nsmul_eq_mul] at h1
  constructor
  · positivity
  · rw [div_le_iff₀ hlen]; linarith

theorem round_bounds (x : ℚ) (h0 : 0 ≤ x) (h1 : x ≤ 255) : 0 ≤ round x ∧ round x ≤ 255 := by
  rw [round_eq]
  constructor
  · apply Int.floor_nonneg.2; linarith
  · have : ⌊x + 1 / 2⌋ < 256 := by
      apply Int.floor_lt.2
      push_cast; linarith
    omega

theorem chan_le (v : Nat) : chanR v ≤ 255 ∧ chanG v ≤ 255 ∧ chanB v ≤ 255 := by
  rw [chanR_eq, chanG_eq, chanB_eq]; omega

/-- C2: averaging closure.  For every tree built by `set` (depths 0..26) and every
fuel not below the number of allocated nodes, `average()` returns, and then for every
node `N` reachable from the root that has at least one non-empty child, each of the
red, green and blue channels of `N.avgcolor` equals `round` of the mean of that channel
of `avgcolor` over `N`'s non-empty children, taken in the final memory. -/
theorem average_rounds_mean (vs : List Voxel) (hvs : ValidVoxels vs) :
    ∃ h, build vs = some h ∧ ∀ fuel, used h.buf ≤ fuel →
      ∃ m', averageFuel fuel h.mem rootAddr = some m' ∧
        ∀ a, Reach m' rootAddr a → kids m' a ≠ [] →
          (chanR (m' a).avgcolor : ℤ) = round (meanChan chanR m' a) ∧
          (chanG (m' a).avgcolor : ℤ) = round (meanChan chanG m' a) ∧
          (chanB (m' a).avgcolor : ℤ) = round (meanChan chanB m' a) := by
  obtain ⟨h, hb, hok, hf⟩ := average_of_build vs hvs
  refine ⟨h, hb, fun fuel hfuel => ?_⟩
  obtain ⟨m', hm', _, hav⟩ := hf fuel hfuel
  refine ⟨m', hm', fun a ha hk => ?_⟩
  have ha0 : Reach h.mem rootAddr a := reach_of_averaged hav ha (Reach.refl _)
  by_cases hl : ∀ i, (h.mem a).c i = none
  · obtain ⟨_, hc, _⟩ := (hav a ha0).leaf hl
    have hself : ∀ q ∈ kids m' a, q = a := by
      intro q hq
      obtain ⟨i, hi⟩ := mem_kids.1 hq
      rw [hc i] at hi
      simp only [Option.some.injEq] at hi
      exact hi.symm
    have e : ∀ ch : Nat → Nat, meanChan ch m' a = (ch (m' a).avgcolor : ℚ) := fun ch =>
      meanChan_const ch m' a _ hk (fun q hq => by rw [hself q hq])
    rw [e chanR, e chanG, e chanB]
    simp only [round_natCast, and_self]
  · have hex : ∃ i, (h.mem a).c i ≠ none := by
      by_contra hne
      exact hl (fun i => by
        by_contra hi
        exact hne ⟨i, hi⟩)
    obtain ⟨_, _, hcol⟩ := (hav a ha0).inner hex
    obtain ⟨r0, r1⟩ := meanChan_bounds chanR m' a hk (fun v => (chan_le v).1)
    obtain ⟨g0, g1⟩ := meanChan_bounds chanG m' a hk (fun v => (chan_le v).2.1)
    obtain ⟨b0, b1⟩ := meanChan_bounds chanB m' a hk (fun v => (chan_le v).2.2)
    obtain ⟨rr0, rr1⟩ := round_bounds _ r0 r1
    obtain ⟨rg0, rg1⟩ := round_bounds _ g0 g1
    obtain ⟨rb0, rb1⟩ := round_bounds _ b0 b1
    obtain ⟨c1, c2, c3⟩ := chan_rgb _ _ _ rr1 rg1 rb1
    rw [hcol, c1, c2, c3]
    refine ⟨Int.toNat_of_nonneg rr0, Int.toNat_of_nonneg rg0, Int.toNat_of_nonneg rb0⟩

theorem average_rounds_mean_witness :
    ValidVoxels [⟨0, 0, 0, 1, 0xFF000000⟩, ⟨0, 0, 1, 1, 0xFF00FF00⟩, ⟨0, 1, 0, 1, 0xFF0000FF⟩,
      ⟨1, 0, 0, 1, 0xFFFF0000⟩] ∧
    ∃ h, build [⟨0, 0, 0, 1, 0xFF000000⟩, ⟨0, 0, 1, 1, 0xFF00FF00⟩, ⟨0, 1, 0, 1, 0xFF0000FF⟩,
        ⟨1, 0, 0, 1, 0xFFFF0000⟩] = some h ∧ ∀ fuel, used h.buf ≤ fuel →
      ∃ m', averageFuel fuel h.mem rootAddr = some m' ∧
        ∀ a, Reach m' rootAddr a → kids m' a ≠ [] →
          (chanR (m' a).avgcolor : ℤ) = round (meanChan chanR m' a) ∧
          (chanG (m' a).avgcolor : ℤ) = round (meanChan chanG m' a) ∧
          (chanB (m' a).avgcolor : ℤ) = round (meanChan chanB m' a) :=
  ⟨by unfold ValidVoxels; decide,
   average_rounds_mean _ (by unfold ValidVoxels; decide)⟩

theorem not_forall_none {f : Fin 8 → Option Nat} (h : ¬ ∀ i, f i = none) : ∃ i, f i ≠ none := by
  by_contra hne
  exact h (fun i => by
    by_contra hi
    exact hne ⟨i, hi⟩)

theorem averaged_ptr_le {m0 m' : Mem} {u r : Nat} (ht : TreeInv m0 u)
    (hfr : ∀ a, ¬ Reach m0 r a → m' a = m0 a)
    (hav : ∀ a, Reach m0 r a → Averaged m0 m' a) :
    ∀ b i q, (m' b).c i = some q → b ≤ q := by
  intro b i q hq
  by_cases hb : Reach m0 r b
  · by_cases hl : ∀ i, (m0 b).c i = none
    · have := ((hav b hb).leaf hl).2.1 i
      rw [hq] at this
      simp only [Option.some.injEq] at this
      omega
    · have := ((hav b hb).inner (not_forall_none hl)).2.1
      rw [this] at hq
      exact le_of_lt (ht.lt b i q hq).1
  · rw [hfr b hb] at hq
    exact le_of_lt (ht.lt b i q hq).1

theorem reach_le_of_ptr_le {m : Mem} (hle : ∀ b i q, (m b).c i = some q → b ≤ q) {p a : Nat}
    (h : Reach m p a) : p ≤ a := by
  induction h with
  | refl p => exact le_refl _
  | step i hq _ ih => exact le_trans (hle _ i _ hq) ih

/-- C3: after `average()` on any tree built by `set` (the empty root included), every
node reachable from the root has exactly one of two shapes: a leaf, with the leaf flag
set and all eight child slots pointing to the node itself, or an internal node, with
the leaf flag clear, at least one child, and every child a different, strictly deeper
node (the parent cannot be reached back from it); no node mixes self-pointers with
other children. -/
theorem average_shapes (vs : List Voxel) (hvs : ValidVoxels vs) :
    ∃ h, build vs = some h ∧ ∀ fuel, used h.buf ≤ fuel →
      ∃ m', averageFuel fuel h.mem rootAddr = some m' ∧
        ∀ a, Reach m' rootAddr a →
          ((m' a).leaf = true ∧ ∀ i, (m' a).c i = some a) ∨
          ((m' a).leaf = false ∧ (∃ i q, (m' a).c i = some q) ∧
            ∀ i q, (m' a).c i = some q → q ≠ a ∧ ¬ Reach m' q a) := by
  obtain ⟨h, hb, hok, hf⟩ := average_of_build vs hvs
  refine ⟨h, hb, fun fuel hfuel => ?_⟩
  obtain ⟨m', hm', hfr, hav⟩ := hf fuel hfuel
  refine ⟨m', hm', fun a ha => ?_⟩
  have ha0 : Reach h.mem rootAddr a := reach_of_averaged hav ha (Reach.refl _)
  by_cases hl : ∀ i, (h.mem a).c i = none
  · obtain ⟨h1, h2, _⟩ := (hav a ha0).leaf hl
    exact Or.inl ⟨h1, h2⟩
  · obtain ⟨h1, h2, _⟩ := (hav a ha0).inner (not_forall_none hl)
    right
    refine ⟨h1, ?_, ?_⟩
    · obtain ⟨i, hi⟩ := not_forall_none hl
      rw [h2]
      cases hc : (h.mem a).c i with
      | none => exact absurd hc hi
      | some q => exact ⟨i, q, hc⟩
    · intro i q hq
      rw [h2] at hq
      have hlt := (hok.tree.lt a i q hq).1
      refine ⟨by omega, fun hr => ?_⟩
      have := reach_le_of_ptr_le (averaged_ptr_le hok.tree hfr hav) hr
      omega

theorem average_shapes_witness :
    ValidVoxels [] ∧
    ∃ h, build [] = some h ∧ ∀ fuel, used h.buf ≤ fuel →
      ∃ m', averageFuel fuel h.mem rootAddr = some m' ∧
        ∀ a, Reach m' rootAddr a →
          ((m' a).leaf = true ∧ ∀ i, (m' a).c i = some a) ∨
          ((m' a).leaf = false ∧ (∃ i q, (m' a).c i = some q) ∧
            ∀ i q, (m' a).c i = some q → q ≠ a ∧ ¬ Reach m' q a) :=
  ⟨by unfold ValidVoxels; decide, average_shapes [] (by unfold ValidVoxels; decide)⟩

/-! ## A second `average` does not return -/

theorem Reach.of_same_c {m m' : Mem} (hc : ∀ a, (m' a).c = (m a).c) {p a : Nat}
    (h : Reach m' p a) : Reach m p a := by
  induction h with
  | refl p => exact Reach.refl _
  | step i hq _ ih => exact Reach.step i (by rw [← hc]; exact hq) ih

theorem average_stuck : ∀ (fuel : Nat) (m : Mem) (p : Nat),
    (∀ a, Reach m p a → ∃ i q, (m a).c i = some q) → averageFuel fuel m p = none := by
  intro fuel
  induction fuel with
  | zero => intro m p _; rfl
  | succ fuel IH =>
    intro m p hs
    have loop : ∀ (l : List (Fin 8)) (m1 : Mem),
        (∀ a, Reach m1 p a → ∃ i q, (m1 a).c i = some q) →
        (∃ i ∈ l, (m1 p).c i ≠ none) →
        l.foldlM (avgStep (averageFuel fuel) p) m1 = none := by
      intro l
      induction l with
      | nil => rintro m1 _ ⟨i, hi, _⟩; cases hi
      | cons i l ih =>
        intro m1 hs1 hex
        simp only [List.foldlM_cons]
        cases hc : (m1 p).c i with
        | some q =>
          have : avgStep (averageFuel fuel) p m1 i = none := by
            unfold avgStep
            rw [hc]; simp only
            rw [IH m1 q (fun a ha => hs1 a (Reach.step i hc ha))]
            rfl
          rw [this]; rfl
        | none =>
          have : avgStep (averageFuel fuel) p m1 i = some m1 := by
            unfold avgStep; rw [hc]
          rw [this]
          apply ih m1 hs1
          obtain ⟨j, hj, hne⟩ := hex
          rcases List.mem_cons.1 hj with rfl | hj'
          · exact absurd hc hne
          · exact ⟨j, hj', hne⟩
    have hs1 : ∀ a, Reach (m.setLeaf p true) p a → ∃ i q, ((m.setLeaf p true) a).c i = some q := by
      intro a ha
      obtain ⟨i, q, hq⟩ := hs a (ha.of_same_c (fun a => setLeaf_c m p a true))
      exact ⟨i, q, by rw [setLeaf_c]; exact hq⟩
    have hex : ∃ i ∈ List.finRange 8, ((m.setLeaf p true) p).c i ≠ none := by
      obtain ⟨i, q, hq⟩ := hs1 p (Reach.refl _)
      exact ⟨i, List.mem_finRange i, by rw [hq]; simp⟩
    simp only [averageFuel, loop _ _ hs1 hex, Option.none_bind]

theorem averaged_stuck {m0 m' : Mem} {r : Nat}
    (hav : ∀ a, Reach m0 r a → Averaged m0 m' a) :
    ∀ a, Reach m' r a → ∃ i q, (m' a).c i = some q := by
  intro a ha
  have ha0 : Reach m0 r a := reach_of_averaged hav ha (Reach.refl _)
  by_cases hl : ∀ i, (m0 a).c i = none
  · exact ⟨0, a, ((hav a ha0).leaf hl).2.1 0⟩
  · obtain ⟨i, hi⟩ := not_forall_none hl
    rw [((hav a ha0).inner (not_forall_none hl)).2.1]
    cases hc : (m0 a).c i with
    | none => exact absurd hc hi
    | some q => exact ⟨i, q, hc⟩

/-- C4 (as stated, refuted): on the empty tree the first `average()` returns, and the
second `average()` on its result never returns, whatever the fuel: the root is then a
leaf whose child slots point to itself, and `average` recurses into `c[0]`. -/
theorem average_twice_empty_diverges :
    build [] = some Heap.init ∧
    ∃ m', averageFuel 1 Heap.init.mem rootAddr = some m' ∧
      ∀ fuel, averageFuel fuel m' rootAddr = none := by
  obtain ⟨h, hb, hok, hf⟩ := average_of_build [] (by unfold ValidVoxels; decide)
  have hh : h = Heap.init := by
    simp only [build, Option.some.injEq] at hb; exact hb.symm
  subst hh
  obtain ⟨m', hm', _, hav⟩ := hf 1 (by decide)
  exact ⟨rfl, m', hm', fun fuel => average_stuck fuel m' rootAddr (averaged_stuck hav)⟩

/-- C4 (amended): `average` cannot be run twice.  For every tree built by `set`, the
first `average()` returns, and a second `average()` on the averaged tree does not
return for any amount of fuel: it recurses without bound through the self-pointer of
a leaf, so it leaves no final state at all. -/
theorem average_twice_diverges (vs : List Voxel) (hvs : ValidVoxels vs) :
    ∃ h, build vs = some h ∧ ∀ fuel, used h.buf ≤ fuel →
      ∃ m', averageFuel fuel h.mem rootAddr = some m' ∧
        ∀ fuel', averageFuel fuel' m' rootAddr = none := by
  obtain ⟨h, hb, _, hf⟩ := average_of_build vs hvs
  refine ⟨h, hb, fun fuel hfuel => ?_⟩
  obtain ⟨m', hm', _, hav⟩ := hf fuel hfuel
  exact ⟨m', hm', fun fuel' => average_stuck fuel' m' rootAddr (averaged_stuck hav)⟩

theorem average_twice_diverges_witness :
    ValidVoxels [⟨3, 1, 2, 2, 0xFF102030⟩] ∧
    ∃ h, build [⟨3, 1, 2, 2, 0xFF102030⟩] = some h ∧ ∀ fuel, used h.buf ≤ fuel →
      ∃ m', averageFuel fuel h.mem rootAddr = some m' ∧
        ∀ fuel', averageFuel fuel' m' rootAddr = none :=
  ⟨by unfold ValidVoxels; decide,
   average_twice_diverges [⟨3, 1, 2, 2, 0xFF102030⟩] (by unfold ValidVoxels; decide)⟩

/-! ## `replicate` -/

theorem maskSlot_seven (i : Fin 8) : maskSlot 7 i = i := by
  revert i; decide

theorem foldl_fixed {α β : Type} (f : α → β → α) (a : α) (hf : ∀ b, f a b = a) :
    ∀ l : List β, l.foldl f a = a := by
  intro l
  induction l with
  | nil => rfl
  | cons b l ih => rw [List.foldl_cons, hf b, ih]

theorem replicateN_seven : ∀ (d : Nat) (m : Mem) (p : Nat), replicateN 7 d m p = m := by
  intro d
  induction d with
  | zero => intro m p; rfl
  | succ d ih =>
    intro m p
    simp only [replicateN]
    apply foldl_fixed
    intro i
    unfold repStep
    rw [if_pos (maskSlot_seven i).symm]
    cases (m p).c i with
    | none => rfl
    | some q => exact ih m q

/-- C6: replication is a no-op in its neutral cases.  For every memory and node,
`replicate(mask, depth)` returns the memory unchanged (every child slot, colour and
flag of every node) whenever `depth <= 0`, for any mask, and whenever `mask == 7`, for
any depth; in particular `replicate(7, 0)`, the call made by `init_octree`. -/
theorem replicate_neutral (m : Mem) (p : Nat) (mask depth : Int) (h : depth ≤ 0 ∨ mask = 7) :
    octree.replicate m p mask depth = m := by
  unfold octree.replicate
  rcases h with h | h
  · rw [if_pos h]
  · subst h
    split
    · rfl
    · exact replicateN_seven _ m p

theorem replicate_neutral_witness :
    ((0 : Int) ≤ 0 ∨ (7 : Int) = 7) ∧ octree.replicate Heap.init.mem rootAddr 7 0 = Heap.init.mem :=
  ⟨Or.inl (le_refl _), replicate_neutral Heap.init.mem rootAddr 7 0 (Or.inl (le_refl _))⟩

theorem maskSlot_idem (mask : Int) (i : Fin 8) :
    maskSlot mask (maskSlot mask i) = maskSlot mask i := by
  unfold maskSlot
  apply Fin.ext
  simp only
  rw [Nat.and_assoc, Nat.and_self]

theorem setChild_avgcolor (m : Mem) (p a : Nat) (i : Fin 8) (q : Option Nat) :
    ((m.setChild p i q) a).avgcolor = (m a).avgcolor := by
  unfold Mem.setChild
  by_cases h : a = p
  · subst h; simp
  · simp [h]

theorem AvgShape.closed {m0 m : Mem} {a q : Nat} {i : Fin 8} (h : AvgShape m0 m a)
    (hq : (m a).c i = some q) : Reach m0 a q := by
  rcases h with ⟨_, hs⟩ | ⟨_, hc⟩
  · rw [hs i] at hq
    simp only [Option.some.injEq] at hq
    subst hq; exact Reach.refl _
  · rw [hc] at hq
    exact Reach.step i hq (Reach.refl _)

theorem walk_congr_on {m0 mA mB : Mem} {p : Nat} (hag : ∀ a, Reach m0 p a → mA a = mB a)
    (hcl : ∀ a, Reach m0 p a → ∀ i q, (mB a).c i = some q → Reach m0 p q) :
    ∀ (π : List (Fin 8)) (x : Nat), Reach m0 p x → walk mA x π = walk mB x π := by
  intro π
  induction π with
  | nil => intro x _; rfl
  | cons i rest ih =>
    intro x hx
    simp only [walk]
    rw [hag x hx]
    cases hc : (mB x).c i with
    | none => rfl
    | some r => exact ih r (hcl x hx i r hc)

theorem walk_leaf {m : Mem} {p : Nat} (hs : ∀ i, (m p).c i = some p) :
    ∀ π : List (Fin 8), walk m p π = some p := by
  intro π
  induction π with
  | nil => rfl
  | cons i rest ih => simp only [walk, hs i]; exact ih

theorem setChild_same (m : Mem) (p : Nat) (i : Fin 8) : m.setChild p i ((m p).c i) = m := by
  funext a
  unfold Mem.setChild
  by_cases h : a = p
  · subst h
    simp only [if_true]
    have : (fun j => if j = i then (m a).c i else (m a).c j) = (m a).c := by
      funext j
      by_cases hj : j = i
      · subst hj; simp
      · simp [hj]
    rw [this]
  · simp [h]

theorem replicateN_leaf (mask : Int) : ∀ (d : Nat) (m : Mem) (p : Nat),
    (∀ i, (m p).c i = some p) → replicateN mask d m p = m := by
  intro d
  induction d with
  | zero => intro m p _; rfl
  | succ d ih =>
    intro m p hs
    simp only [replicateN]
    apply foldl_fixed
    intro i
    unfold repStep
    split
    · rw [hs i]; exact ih m p hs
    · rw [hs (maskSlot mask i), ← hs i]; exact setChild_same m p i

theorem maskPath_nil (mask : Int) (d : Nat) : maskPath mask d [] = [] := by
  cases d <;> rfl

theorem rep_loop {m0 : Mem} {u : Nat} (ht : TreeInv m0 u) (mask : Int) (d p : Nat) (m : Mem)
    (IH : ∀ (q : Nat) (m : Mem), (∀ a, Reach m0 q a → AvgShape m0 m a) →
      (∀ a, ¬ Reach m0 q a → replicateN mask d m q a = m a) ∧
      (∀ a, (replicateN mask d m q a).avgcolor = (m a).avgcolor) ∧
      (∀ a, Reach m0 q a → ∀ i r, (replicateN mask d m q a).c i = some r → Reach m0 q r) ∧
      (∀ π, walk (replicateN mask d m q) q π = walk m q (maskPath mask d π)))
    (hshape : ∀ a, Reach m0 p a → AvgShape m0 m a) :
    ∀ l : List (Fin 8), l.Nodup → ∀ mc : Mem,
      (∀ k, k = maskSlot mask k → (mc p).c k = (m0 p).c k) →
      (∀ j ∈ l, j = maskSlot mask j → ∀ q, (m0 p).c j = some q →
        ∀ a, Reach m0 q a → mc a = m a) →
      (∀ a, a ≠ p → (∀ j ∈ l, j = maskSlot mask j → ∀ q, (m0 p).c j = some q →
          ¬ Reach m0 q a) → l.foldl (repStep (replicateN mask d) mask p) mc a = mc a) ∧
      (∀ k, (l.foldl (repStep (replicateN mask d) mask p) mc p).c k =
        if k ∈ l ∧ k ≠ maskSlot mask k then (m0 p).c (maskSlot mask k) else (mc p).c k) ∧
      (∀ a, (l.foldl (repStep (replicateN mask d) mask p) mc a).avgcolor = (mc a).avgcolor) ∧
      (∀ j ∈ l, j = maskSlot mask j → ∀ q, (m0 p).c j = some q →
        (∀ a, Reach m0 q a → ∀ i r,
          (l.foldl (repStep (replicateN mask d) mask p) mc a).c i = some r → Reach m0 q r) ∧
        (∀ π, walk (l.foldl (repStep (replicateN mask d) mask p) mc) q π
          = walk m q (maskPath mask d π))) := by
  intro l
  induction l with
  | nil =>
    intro _ mc _ _
    refine ⟨fun _ _ _ => rfl, fun k => by simp, fun _ => rfl, fun j hj => by cases hj⟩
  | cons j l ih =>
    intro hnd mc I1 I2
    have hjl : j ∉ l := (List.nodup_cons.1 hnd).1
    have hndl : l.Nodup := (List.nodup_cons.1 hnd).2
    simp only [List.foldl_cons]
    by_cases hcan : j = maskSlot mask j
    · -- canonical slot: recurse into the child, if any
      cases hcj : (m0 p).c j with
      | none =>
        have hstep : repStep (replicateN mask d) mask p mc j = mc := by
          unfold repStep; rw [if_pos hcan, I1 j hcan, hcj]
        rw [hstep]
        obtain ⟨E1, E2, E3, E4⟩ := ih hndl mc I1 (fun j' hj' => I2 j' (List.mem_cons_of_mem _ hj'))
        refine ⟨?_, ?_, E3, ?_⟩
        · intro a ha hr
          exact E1 a ha (fun j' hj' => hr j' (List.mem_cons_of_mem _ hj'))
        · intro k
          rw [E2 k]
          by_cases hk : k = j
          · subst hk
            rw [if_neg (fun h => h.2 hcan), if_neg (fun h => h.2 hcan)]
          · simp only [List.mem_cons, hk, false_or]
        · intro j' hj' hc' q hq
          rcases List.mem_cons.1 hj' with rfl | hj''
          · rw [hcj] at hq; cases hq
          · exact E4 j' hj'' hc' q hq
      | some q =>
        have hpq : p < q := (ht.lt p j q hcj).1
        have hagq : ∀ a, Reach m0 q a → mc a = m a := I2 j (List.mem_cons_self _ _) hcan q hcj
        have hshq : ∀ a, Reach m0 q a → AvgShape m0 mc a := by
          intro a ha
          have := hshape a (Reach.step j hcj ha)
          unfold AvgShape at this ⊢
          rw [hagq a ha]; exact this
        obtain ⟨F, K, C, W⟩ := IH q mc hshq
        have hstep : repStep (replicateN mask d) mask p mc j = replicateN mask d mc q := by
          unfold repStep; rw [if_pos hcan, I1 j hcan, hcj]
        rw [hstep]
        have hnotp : ¬ Reach m0 q p := fun hr => by have := hr.le ht; omega
        have I1' : ∀ k, k = maskSlot mask k → (replicateN mask d mc q p).c k = (m0 p).c k := by
          intro k hk; rw [F p hnotp]; exact I1 k hk
        have I2' : ∀ j' ∈ l, j' = maskSlot mask j' → ∀ q', (m0 p).c j' = some q' →
            ∀ a, Reach m0 q' a → replicateN mask d mc q a = m a := by
          intro j' hj' hc' q' hq' a ha
          have hne : j ≠ j' := fun e => hjl (e ▸ hj')
          rw [F a (fun hr => siblings_disjoint ht hcj hq' hne hr ha)]
          exact I2 j' (List.mem_cons_of_mem _ hj') hc' q' hq' a ha
        obtain ⟨E1, E2, E3, E4⟩ := ih hndl (replicateN mask d mc q) I1' I2'
        refine ⟨?_, ?_, ?_, ?_⟩
        · intro a ha hr
          rw [E1 a ha (fun j' hj' => hr j' (List.mem_cons_of_mem _ hj'))]
          exact F a (hr j (List.mem_cons_self _ _) hcan q hcj)
        · intro k
          rw [E2 k, F p hnotp]
          by_cases hk : k = j
          · subst hk
            rw [if_neg (fun h => h.2 hcan), if_neg (fun h => h.2 hcan)]
          · simp only [List.mem_cons, hk, false_or]
        · intro a; rw [E3 a, K a]
        · intro j' hj' hc' q' hq'
          rcases List.mem_cons.1 hj' with rfl | hj''
          · rw [hcj] at hq'
            simp only [Option.some.injEq] at hq'
            subst hq'
            have hend : ∀ a, Reach m0 q a →
                l.foldl (repStep (replicateN mask d) mask p) (replicateN mask d mc q) a
                  = replicateN mask d mc q a := by
              intro a ha
              have hap : a ≠ p := fun e => hnotp (e ▸ ha)
              apply E1 a hap
              intro k hk _ qk hqk hr
              exact siblings_disjoint ht hcj hqk (fun e => hjl (e ▸ hk)) ha hr
            refine ⟨?_, ?_⟩
            · intro a ha i r hr
              rw [hend a ha] at hr
              exact C a ha i r hr
            · intro π
              rw [walk_congr_on hend C π q (Reach.refl _), W π]
              apply walk_congr_on hagq _ _ q (Reach.refl _)
              intro a ha i r hr
              exact ha.trans ((hshape a (Reach.step j' hcj ha)).closed hr)
          · exact E4 j' hj'' hc' q' hq'
    · -- aliased slot: c[j] = c[j & mask]
      have hstep : repStep (replicateN mask d) mask p mc j
          = mc.setChild p j ((m0 p).c (maskSlot mask j)) := by
        unfold repStep
        rw [if_neg hcan, I1 (maskSlot mask j) (maskSlot_idem mask j).symm]
      rw [hstep]
      have I1' : ∀ k, k = maskSlot mask k →
          ((mc.setChild p j ((m0 p).c (maskSlot mask j))) p).c k = (m0 p).c k := by
        intro k hk
        rw [setChild_self, if_neg (fun (e : k = j) => hcan (by rw [← e]; exact hk))]
        exact I1 k hk
      have I2' : ∀ j' ∈ l, j' = maskSlot mask j' → ∀ q', (m0 p).c j' = some q' →
          ∀ a, Reach m0 q' a → (mc.setChild p j ((m0 p).c (maskSlot mask j))) a = m a := by
        intro j' hj' hc' q' hq' a ha
        have hap : a ≠ p := by
          have := ha.le ht
          have := (ht.lt p j' q' hq').1
          omega
        rw [setChild_other _ _ _ _ _ hap]
        exact I2 j' (List.mem_cons_of_mem _ hj') hc' q' hq' a ha
      obtain ⟨E1, E2, E3, E4⟩ := ih hndl _ I1' I2'
      refine ⟨?_, ?_, ?_, ?_⟩
      · intro a ha hr
        rw [E1 a ha (fun j' hj' => hr j' (List.mem_cons_of_mem _ hj')),
          setChild_other _ _ _ _ _ ha]
      · intro k
        rw [E2 k, setChild_self]
        by_cases hk : k = j
        · subst hk
          rw [if_neg (fun h => hjl h.1), if_pos rfl,
            if_pos ⟨List.mem_cons_self _ _, hcan⟩]
        · simp only [List.mem_cons, hk, false_or, if_false]
      · intro a; rw [E3 a, setChild_avgcolor]
      · intro j' hj' hc' q' hq'
        rcases List.mem_cons.1 hj' with rfl | hj''
        · exact absurd hc' hcan
        · exact E4 j' hj'' hc' q' hq'

theorem rep_spec {m0 : Mem} {u : Nat} (ht : TreeInv m0 u) (mask : Int) :
    ∀ (d p : Nat) (m : Mem), (∀ a, Reach m0 p a → AvgShape m0 m a) →
      (∀ a, ¬ Reach m0 p a → replicateN mask d m p a = m a) ∧
      (∀ a, (replicateN mask d m p a).avgcolor = (m a).avgcolor) ∧
      (∀ a, Reach m0 p a → ∀ i r, (replicateN mask d m p a).c i = some r → Reach m0 p r) ∧
      (∀ π, walk (replicateN mask d m p) p π = walk m p (maskPath mask d π)) := by
  intro d
  induction d with
  | zero =>
    intro p m hshape
    refine ⟨fun _ _ => rfl, fun _ => rfl, ?_, fun _ => rfl⟩
    intro a ha i r hr
    exact ha.trans ((hshape a ha).closed hr)
  | succ d IH =>
    intro p m hshape
    rcases hshape p (Reach.refl _) with ⟨_, hs⟩ | ⟨_, hc⟩
    · -- a leaf: nothing changes
      rw [replicateN_leaf mask (d + 1) m p hs]
      refine ⟨fun _ _ => rfl, fun _ => rfl, ?_, ?_⟩
      · intro a ha i r hr
        exact ha.trans ((hshape a ha).closed hr)
      · intro π; rw [walk_leaf hs, walk_leaf hs]
    · obtain ⟨E1, E2, E3, E4⟩ := rep_loop ht mask d p m IH hshape (List.finRange 8)
        (List.nodup_finRange 8) m (fun k _ => by rw [hc])
        (fun _ _ _ _ _ _ _ => rfl)
      simp only [replicateN]
      have hsplit : ∀ a, Reach m0 p a → a = p ∨ ∃ i q, (m0 p).c i = some q ∧ Reach m0 q a := by
        intro a ha
        cases ha with
        | refl => exact Or.inl rfl
        | step i hq hr => exact Or.inr ⟨i, _, hq, hr⟩
      have hslot : ∀ k, ((List.finRange 8).foldl (repStep (replicateN mask d) mask p) m p).c k
          = (m0 p).c (maskSlot mask k) := by
        intro k
        rw [E2 k]
        by_cases hk : k = maskSlot mask k
        · rw [if_neg (fun h => h.2 hk), hc, ← hk]
        · rw [if_pos ⟨List.mem_finRange k, hk⟩]
      refine ⟨?_, E3, ?_, ?_⟩
      · intro a ha
        have hap : a ≠ p := fun e => ha (e ▸ Reach.refl _)
        exact E1 a hap (fun j _ _ q hq hr => ha (Reach.step j hq hr))
      · intro a ha i r hr
        rcases hsplit a ha with rfl | ⟨j, q, hq, hqa⟩
        · rw [hslot i] at hr
          exact Reach.step _ hr (Reach.refl _)
        · by_cases hj : j = maskSlot mask j
          · exact (Reach.step j hq (Reach.refl _)).trans
              ((E4 j (List.mem_finRange j) hj q hq).1 a hqa i r hr)
          · have hap : a ≠ p := by
              have := hqa.le ht
              have := (ht.lt p j q hq).1
              omega
            rw [E1 a hap (fun j' _ hj' q' hq' hr' =>
              siblings_disjoint ht hq hq' (fun e => hj (e ▸ hj')) hqa hr')] at hr
            exact ha.trans ((hshape a ha).closed hr)
      · intro π
        cases π with
        | nil => rw [maskPath_nil]; rfl
        | cons k rest =>
          simp only [maskPath, walk]
          rw [hslot k, hc]
          cases hq : (m0 p).c (maskSlot mask k) with
          | none => rfl
          | some q =>
            exact (E4 (maskSlot mask k) (List.mem_finRange _) (maskSlot_idem mask k).symm q hq).2 rest

theorem AvgShape.of_averaged {m0 m' : Mem} {a : Nat} (h : Averaged m0 m' a) : AvgShape m0 m' a := by
  by_cases hl : ∀ i, (m0 a).c i = none
  · exact Or.inl ⟨hl, (h.leaf hl).2.1⟩
  · exact Or.inr ⟨not_forall_none hl, (h.inner (not_forall_none hl)).2.1⟩

/-- C5: replication equivalence.  For every tree built by `set` and averaged, every
mask and every `d ≥ 0`, a lookup in the tree after `replicate(mask, d)` along any
child-index path of length at least `d` gives the same result (the same colour, or
absent) as the lookup in the tree before replication along the path whose first `d`
indices are replaced by `i & mask`, the deeper indices being untouched. -/
theorem replicate_lookup (vs : List Voxel) (hvs : ValidVoxels vs) (mask d : Int) (h0 : 0 ≤ d) :
    ∃ h, build vs = some h ∧ ∀ fuel, used h.buf ≤ fuel →
      ∃ m', averageFuel fuel h.mem rootAddr = some m' ∧
        ∀ π : List (Fin 8), d.toNat ≤ π.length →
          colorAt (octree.replicate m' rootAddr mask d) rootAddr π
            = colorAt m' rootAddr (maskPath mask d.toNat π) := by
  obtain ⟨h, hb, hok, hf⟩ := average_of_build vs hvs
  refine ⟨h, hb, fun fuel hfuel => ?_⟩
  obtain ⟨m', hm', _, hav⟩ := hf fuel hfuel
  refine ⟨m', hm', fun π _ => ?_⟩
  obtain ⟨_, K, _, W⟩ := rep_spec hok.tree mask d.toNat rootAddr m'
    (fun a ha => AvgShape.of_averaged (hav a ha))
  have hrep : octree.replicate m' rootAddr mask d = replicateN mask d.toNat m' rootAddr := by
    unfold octree.replicate
    split
    · have : d.toNat = 0 := by omega
      rw [this]; rfl
    · rfl
  unfold colorAt
  rw [hrep, W π]
  cases walk m' rootAddr (maskPath mask d.toNat π) with
  | none => rfl
  | some q => simp only [Option.map_some', K q]

theorem replicate_lookup_witness :
    (ValidVoxels [⟨0, 0, 0, 2, 0xFF000000⟩, ⟨2, 0, 1, 2, 0xFF00FF00⟩] ∧ (0 : Int) ≤ 2) ∧
    ∃ h, build [⟨0, 0, 0, 2, 0xFF000000⟩, ⟨2, 0, 1, 2, 0xFF00FF00⟩] = some h ∧
      ∀ fuel, used h.buf ≤ fuel →
        ∃ m', averageFuel fuel h.mem rootAddr = some m' ∧
          ∀ π : List (Fin 8), (2 : Int).toNat ≤ π.length →
            colorAt (octree.replicate m' rootAddr 2 2) rootAddr π
              = colorAt m' rootAddr (maskPath 2 (2 : Int).toNat π) :=
  ⟨⟨by unfold ValidVoxels; decide, by decide⟩,
   replicate_lookup _ (by unfold ValidVoxels; decide) 2 2 (by decide)⟩

/-! ## Paint monotonicity of the sub-face traversal -/

theorem cellOf_inj (q : QuadCfg) (r r' : Nat) (hr : r < 4294967296) (hr' : r' < 4294967296)
    (h : cellOf q r = cellOf q r') : r = r' := by
  unfold cellOf u32 at h
  omega

theorem foldlM_pres {α β : Type} (P : α → Prop) (step : α → β → Option α) :
    ∀ (l : List β), (∀ a b a', b ∈ l → P a → step a b = some a' → P a') →
      ∀ a a', P a → l.foldlM step a = some a' → P a' := by
  intro l
  induction l with
  | nil =>
    intro _ a a' ha h
    simp only [List.foldlM_nil] at h
    cases h; exact ha
  | cons b l ih =>
    intro hstep a a' ha h
    simp only [List.foldlM_cons] at h
    cases hs : step a b with
    | none => rw [hs] at h; cases h
    | some a1 =>
      rw [hs] at h
      exact ih (fun a b a' hb => hstep a b a' (List.mem_cons_of_mem _ hb)) a1 a'
        (hstep a b a1 (List.mem_cons_self _ _) ha hs) h

theorem foldl_pres {α β : Type} (P : α → Prop) (step : α → β → α) :
    ∀ (l : List β), (∀ a b, b ∈ l → P a → P (step a b)) → ∀ a, P a → P (l.foldl step a) := by
  intro l
  induction l with
  | nil => intro _ a ha; exact ha
  | cons b l ih =>
    intro hstep a ha
    simp only [List.foldl_cons]
    exact ih (fun a b hb => hstep a b (List.mem_cons_of_mem _ hb)) _
      (hstep a b (List.mem_cons_self _ _) ha)

theorem paint_paintOK (t : SubFace) (q : QuadCfg) (mem : Mem) (f : QState) (r s : Nat) (b : Box)
    (hf : PaintOK q f) (hmap : f.map r ≠ 0) (hr : 4 * q.L + 4 ≤ r) (hr' : r < 4294967296) :
    PaintOK q (paint t q mem f r s b) := by
  unfold paint
  split
  · exact hf
  · have hne : ∀ w ∈ f.log, w.r ≠ r := by
      intro w hw e
      exact hmap (e ▸ (hf.each w hw).2.1)
    have hcell : ∀ w ∈ f.log, cellOf q w.r ≠ cellOf q r := by
      intro w hw e
      exact hne w hw (cellOf_inj q _ _ (hf.each w hw).2.2.2.2 hr' e)
    constructor
    · simp only [List.map_cons, List.nodup_cons]
      refine ⟨?_, hf.nodup⟩
      intro hmem
      obtain ⟨w, hw, e⟩ := List.mem_map.1 hmem
      exact hcell w hw e
    · intro w hw
      rcases List.mem_cons.1 hw with rfl | hw'
      · simp only [if_true]
        exact ⟨hmap, trivial, trivial, hr, hr'⟩
      · obtain ⟨h1, h2, h3, h4, h5⟩ := hf.each w hw'
        simp only [if_neg (hne w hw'), if_neg (hcell w hw')]
        exact ⟨h1, h2, h3, h4, h5⟩

theorem compute_paintOK (q : QuadCfg) (f : QState) (r : Nat)
    (hcomp : ∀ r mp j, 4 * q.L + 4 ≤ j → q.compute r mp j = mp j) (hf : PaintOK q f) :
    PaintOK q { f with map := q.compute r f.map } := by
  constructor
  · exact hf.nodup
  · intro w hw
    obtain ⟨h1, h2, h3, h4, h5⟩ := hf.each w hw
    exact ⟨h1, by simp only; rw [hcomp r f.map w.r h4]; exact h2, h3, h4, h5⟩

theorem mem_quadCalls {r : Nat} {b : Box} {rb : Nat × Box} (h : rb ∈ quadCalls r b) :
    rb.1 = u32 (r * 4 + 4) ∨ rb.1 = u32 (r * 4 + 5) ∨ rb.1 = u32 (r * 4 + 6) ∨
      rb.1 = u32 (r * 4 + 7) := by
  unfold quadCalls at h
  simp only [List.mem_cons, List.mem_singleton, List.not_mem_nil, or_false] at h
  rcases h with rfl | rfl | rfl | rfl <;> simp

theorem traverse_inv (t : SubFace) (q : QuadCfg) (mem : Mem) (P : QState → Prop)
    (hL : 16 * q.L + 20 ≤ 4294967296)
    (hpaint : ∀ (f : QState) (r s : Nat) (b : Box), P f → f.map r ≠ 0 → 4 * q.L + 4 ≤ r →
      r < 4294967296 → P (paint t q mem f r s b))
    (hcompute : ∀ (f : QState) (r : Nat), P f → P { f with map := q.compute r f.map }) :
    ∀ (fuel : Nat) (f : QState) (r s : Nat) (b : Box) (d : Int) (f' : QState),
      P f → r ≤ 4 * q.L + 3 → traverse t q mem fuel f r s b d = some f' → P f' := by
  intro fuel
  induction fuel with
  | zero => intro f r s b d f' _ _ h; cases h
  | succ fuel IH =>
    intro f r s b d f' hf hr h
    simp only [traverse] at h
    split at h
    · cases h; exact hf
    · split at h
      · -- octree arm
        refine foldlM_pres P _ (octCalls t b) ?_ f f' hf h
        intro a kb a' _ ha hstep
        cases hc : (mem s).c kb.1 with
        | none => rw [hc] at hstep; cases hstep; exact ha
        | some s' => rw [hc] at hstep; exact IH a r s' kb.2 _ a' ha hr hstep
      · -- quadtree arm
        have hLu : u32 q.L = q.L := by unfold u32; omega
        rw [hLu] at h
        split at h
        · rename_i hrL
          cases hm : (quadCalls r b).foldlM (fun (f : QState) (rb : Nat × Box) =>
              if f.map rb.1 ≠ 0 then traverse t q mem fuel f rb.1 s rb.2 d else some f) f with
          | none => rw [hm] at h; cases h
          | some f2 =>
            rw [hm] at h
            simp only [Option.map_some', Option.some.injEq] at h
            subst h
            apply hcompute f2 r
            refine foldlM_pres P _ (quadCalls r b) ?_ f f2 hf hm
            intro a rb a' hrb ha hstep
            split at hstep
            · refine IH a rb.1 s rb.2 d a' ha ?_ hstep
              have := mem_quadCalls hrb
              unfold u32 at this
              omega
            · cases hstep; exact ha
        · rename_i hrL
          simp only [Option.map_some', Option.some.injEq] at h
          subst h
          apply hcompute _ r
          refine foldl_pres P _ (quadCalls r b) ?_ f hf
          intro a rb hrb ha
          unfold paintIf
          split
          · rename_i hmap
            have := mem_quadCalls hrb
            unfold u32 at this
            exact hpaint a rb.1 s rb.2 ha hmap (by omega) (by omega)
          · exact ha

theorem paint_logged (t : SubFace) (q : QuadCfg) (mem : Mem) (f0 f : QState) (r s : Nat) (b : Box)
    (hf : ∀ j, (∀ w ∈ f.log, cellOf q w.r ≠ j) → f.face j = f0.face j) :
    ∀ j, (∀ w ∈ (paint t q mem f r s b).log, cellOf q w.r ≠ j) →
      (paint t q mem f r s b).face j = f0.face j := by
  unfold paint
  split
  · exact hf
  · intro j hj
    simp only [List.mem_cons, forall_eq_or_imp] at hj
    simp only [if_neg (Ne.symm hj.1)]
    exact hf j hj.2

theorem foldlM_some {α β : Type} (step : α → β → Option α) :
    ∀ (l : List β), (∀ a b, b ∈ l → ∃ a', step a b = some a') →
      ∀ a, ∃ a', l.foldlM step a = some a' := by
  intro l
  induction l with
  | nil => intro _ a; exact ⟨a, rfl⟩
  | cons b l ih =>
    intro hstep a
    obtain ⟨a1, h1⟩ := hstep a b (List.mem_cons_self _ _)
    simp only [List.foldlM_cons, h1]
    exact ih (fun a b hb => hstep a b (List.mem_cons_of_mem _ hb)) a1

theorem traverse_returns (t : SubFace) (q : QuadCfg) (mem : Mem)
    (hL : 16 * q.L + 20 ≤ 4294967296) :
    ∀ (fuel : Nat) (f : QState) (r s : Nat) (b : Box) (d : Int),
      -2147483648 ≤ d → (20 - d).toNat + (q.L - r) < fuel →
      ∃ f', traverse t q mem fuel f r s b d = some f' := by
  intro fuel
  induction fuel with
  | zero => intro f r s b d _ h; omega
  | succ fuel IH =>
    intro f r s b d hd hfuel
    simp only [traverse]
    split
    · exact ⟨f, rfl⟩
    · split
      · rename_i hcond
        apply foldlM_some
        intro a kb _
        cases (mem s).c kb.1 with
        | none => exact ⟨a, rfl⟩
        | some s' =>
          have hd1 : add32 d 1 = d + 1 := by
            unfold add32
            exact wrap32_of_range _ (by omega) (by omega)
          simp only
          rw [hd1]
          exact IH a r s' kb.2 (d + 1) (by omega) (by omega)
      · have hLu : u32 q.L = q.L := by unfold u32; omega
        rw [hLu]
        split
        · rename_i hrL
          have : ∃ f2, (quadCalls r b).foldlM (fun (f : QState) (rb : Nat × Box) =>
              if f.map rb.1 ≠ 0 then traverse t q mem fuel f rb.1 s rb.2 d else some f) f
                = some f2 := by
            apply foldlM_some
            intro a rb hrb
            split
            · apply IH a rb.1 s rb.2 d hd
              have := mem_quadCalls hrb
              unfold u32 at this
              omega
            · exact ⟨a, rfl⟩
          obtain ⟨f2, h2⟩ := this
          rw [h2]
          exact ⟨_, rfl⟩
        · exact ⟨_, rfl⟩

/-- C7: paint monotonicity in variant A.  Assume `compute(r)` rewrites no `map` entry
of a leaf index (`4*L+4` and above) and the quadtree indices fit in `unsigned int`.
A traversal started with an empty record at a node `r` of the quadtree (`r <= 4*L+3`)
returns, and in the state it returns: every `face` write was made by `paint` at a leaf
index `r` whose `map[r]` was non-zero at that moment, `map[r]` is zero afterwards, no
`face` cell was written twice, every written cell still holds the colour written to it,
and every cell that was not written holds what it held before the traversal. -/
theorem paint_monotone (t : SubFace) (q : QuadCfg) (mem : Mem)
    (hL : 16 * q.L + 20 ≤ 4294967296)
    (hcomp : ∀ r mp j, 4 * q.L + 4 ≤ j → q.compute r mp j = mp j)
    (fuel : Nat) (f : QState) (r s : Nat) (b : Box) (d : Int)
    (hlog : f.log = []) (hr : r ≤ 4 * q.L + 3) (hd : -2147483648 ≤ d)
    (hfuel : (20 - d).toNat + (q.L - r) < fuel) :
    ∃ f', traverse t q mem fuel f r s b d = some f' ∧
      (f'.log.map fun w => cellOf q w.r).Nodup ∧
      (∀ w ∈ f'.log, w.mapBefore ≠ 0 ∧ f'.map w.r = 0 ∧ f'.face (cellOf q w.r) = w.color ∧
        4 * q.L + 4 ≤ w.r) ∧
      (∀ j, (∀ w ∈ f'.log, cellOf q w.r ≠ j) → f'.face j = f.face j) := by
  obtain ⟨f', hf'⟩ := traverse_returns t q mem hL fuel f r s b d hd hfuel
  have h0 : PaintOK q f := by
    constructor
    · rw [hlog]; exact List.nodup_nil
    · intro w hw; rw [hlog] at hw; cases hw
  have h1 : PaintOK q f' :=
    traverse_inv t q mem (PaintOK q) hL
      (fun f r s b hf hm h4 h5 => paint_paintOK t q mem f r s b hf hm h4 h5)
      (fun f r hf => compute_paintOK q f r hcomp hf) fuel f r s b d f' h0 hr hf'
  have h2 : ∀ j, (∀ w ∈ f'.log, cellOf q w.r ≠ j) → f'.face j = f.face j :=
    traverse_inv t q mem (fun g => ∀ j, (∀ w ∈ g.log, cellOf q w.r ≠ j) → g.face j = f.face j) hL
      (fun g r s b hg _ _ _ => paint_logged t q mem f g r s b hg)
      (fun g r hg => hg) fuel f r s b d f' (fun _ _ => rfl) hr hf'
  refine ⟨f', hf', h1.nodup, ?_, h2⟩
  intro w hw
  obtain ⟨a1, a2, a3, a4, _⟩ := h1.each w hw
  exact ⟨a1, a2, a3, a4⟩

set_option maxRecDepth 100000 in
theorem paint_monotone_witness :
    (16 * sampleQuad.L + 20 ≤ 4294967296 ∧
      (∀ r mp j, 4 * sampleQuad.L + 4 ≤ j → sampleQuad.compute r mp j = mp j) ∧
      sampleQState.log = [] ∧ 3 ≤ 4 * sampleQuad.L + 3 ∧ (-2147483648 : Int) ≤ 0 ∧
      (20 - (0 : Int)).toNat + (sampleQuad.L - 3) < 22) ∧
    (traverse sampleSubFace sampleQuad solidMem 22 sampleQState 3 0 wideBox 0).map
        (fun f => f.log.map fun w => (w.r, w.mapBefore, w.color, cellOf sampleQuad w.r)) =
      some [(19, 1, 0xFF336699, 19), (18, 1, 0xFF336699, 18), (17, 1, 0xFF336699, 17),
        (16, 1, 0xFF336699, 16)] ∧
    (∃ f', traverse sampleSubFace sampleQuad solidMem 22 sampleQState 3 0 wideBox 0
        = some f' ∧
      (f'.log.map fun w => cellOf sampleQuad w.r).Nodup ∧
      (∀ w ∈ f'.log, w.mapBefore ≠ 0 ∧ f'.map w.r = 0 ∧
        f'.face (cellOf sampleQuad w.r) = w.color ∧ 4 * sampleQuad.L + 4 ≤ w.r) ∧
      (∀ j, (∀ w ∈ f'.log, cellOf sampleQuad w.r ≠ j) → f'.face j = sampleQState.face j)) ∧
    (traverse sampleSubFace sampleQuad solidMem 10 sampleQState 3 0 sampleBox 12).map
        (fun f => f.log.map fun w => (w.r, w.mapBefore, w.color, cellOf sampleQuad w.r)) =
      some [(19, 1, 0xFF336699, 19), (18, 1, 0xFF336699, 18), (17, 1, 0xFF336699, 17),
        (16, 1, 0xFF336699, 16)] ∧
    ∃ f', traverse sampleSubFace sampleQuad solidMem 10 sampleQState 3 0 sampleBox 12
        = some f' ∧
      (f'.log.map fun w => cellOf sampleQuad w.r).Nodup ∧
      (∀ w ∈ f'.log, w.mapBefore ≠ 0 ∧ f'.map w.r = 0 ∧
        f'.face (cellOf sampleQuad w.r) = w.color ∧ 4 * sampleQuad.L + 4 ≤ w.r) ∧
      (∀ j, (∀ w ∈ f'.log, cellOf sampleQuad w.r ≠ j) → f'.face j = sampleQState.face j) :=
  ⟨⟨by decide, fun _ _ _ _ => rfl, rfl, by decide, by decide, by decide⟩,
   by decide,
   paint_monotone sampleSubFace sampleQuad solidMem (by decide) (fun _ _ _ _ => rfl)
     22 sampleQState 3 0 wideBox 0 rfl (by decide) (by decide) (by decide),
   by decide,
   paint_monotone sampleSubFace sampleQuad solidMem (by decide) (fun _ _ _ _ => rfl)
     10 sampleQState 3 0 sampleBox 12 rfl (by decide) (by decide) (by decide)⟩

/-! ## Front-to-back order of variant B -/

theorem wrap32_spec (v : Int) :
    ∃ k : Int, wrap32 v = v - 4294967296 * k ∧ -2147483648 ≤ wrap32 v ∧ wrap32 v < 2147483648 := by
  unfold wrap32 toI32 toU32
  split
  · exact ⟨v / 4294967296, by omega, by omega, by omega⟩
  · exact ⟨v / 4294967296 + 1, by omega, by omega, by omega⟩

theorem near_le_far_aux (p P : Int) (h1 : -2147483648 ≤ p) (h2 : p < 2147483648)
    (hP : (1 ≤ P ∧ P ≤ 1073741824) ∨ P = 2147483648 ∨ ∃ K : Int, P = 4294967296 * K) :
    |wrap32 (p + wrap32 ((if p < 0 then 1 else -1) * P))|
      ≤ |wrap32 (p + wrap32 ((if p < 0 then -1 else 1) * P))| := by
  by_cases hp : p < 0
  · simp only [hp, if_true, one_mul, neg_mul]
    obtain ⟨k1, e1, a1, b1⟩ := wrap32_spec P
    obtain ⟨k2, e2, a2, b2⟩ := wrap32_spec (-P)
    obtain ⟨k3, e3, a3, b3⟩ := wrap32_spec (p + wrap32 P)
    obtain ⟨k4, e4, a4, b4⟩ := wrap32_spec (p + wrap32 (-P))
    generalize wrap32 (p + wrap32 P) = X at *
    generalize wrap32 (p + wrap32 (-P)) = Y at *
    generalize wrap32 P = s at *
    generalize wrap32 (-P) = s' at *
    rcases hP with ⟨hP1, hP2⟩ | rfl | ⟨K, rfl⟩ <;>
      rcases abs_cases X with ⟨hx, _⟩ | ⟨hx, _⟩ <;>
      rcases abs_cases Y with ⟨hy, _⟩ | ⟨hy, _⟩ <;> rw [hx, hy] <;> omega
  · simp only [hp, if_false, one_mul, neg_mul]
    obtain ⟨k1, e1, a1, b1⟩ := wrap32_spec P
    obtain ⟨k2, e2, a2, b2⟩ := wrap32_spec (-P)
    obtain ⟨k3, e3, a3, b3⟩ := wrap32_spec (p + wrap32 P)
    obtain ⟨k4, e4, a4, b4⟩ := wrap32_spec (p + wrap32 (-P))
    generalize wrap32 (p + wrap32 P) = X at *
    generalize wrap32 (p + wrap32 (-P)) = Y at *
    generalize wrap32 P = s at *
    generalize wrap32 (-P) = s' at *
    rcases hP with ⟨hP1, hP2⟩ | rfl | ⟨K, rfl⟩ <;>
      rcases abs_cases X with ⟨hx, _⟩ | ⟨hx, _⟩ <;>
      rcases abs_cases Y with ⟨hy, _⟩ | ⟨hy, _⟩ <;> rw [hx, hy] <;> omega

theorem two_pow_cases (depth : Nat) :
    ((1 : Int) ≤ 2 ^ depth ∧ (2 : Int) ^ depth ≤ 1073741824) ∨ (2 : Int) ^ depth = 2147483648 ∨
      ∃ K : Int, (2 : Int) ^ depth = 4294967296 * K := by
  rcases Nat.lt_or_ge depth 31 with hd | hd
  · left
    refine ⟨one_le_pow₀ (by norm_num), ?_⟩
    have : (2 : Int) ^ depth ≤ 2 ^ 30 := pow_le_pow_right₀ (by norm_num) (by omega)
    norm_num at this; exact this
  · rcases Nat.eq_or_lt_of_le hd with he | hlt
    · right; left; rw [← he]; norm_num
    · right; right
      refine ⟨2 ^ (depth - 32), ?_⟩
      have : depth = 32 + (depth - 32) := by omega
      conv_lhs => rw [this, pow_add]
      norm_num

theorem near_le_far (p : Int) (depth : Nat) (h1 : -2147483648 ≤ p) (h2 : p < 2147483648) :
    |add32 p (shl32 (if p < 0 then 1 else -1) depth)|
      ≤ |add32 p (shl32 (if p < 0 then -1 else 1) depth)| :=
  near_le_far_aux p (2 ^ depth) h1 h2 (two_pow_cases depth)

theorem furthest_eq (pos : v4si) :
    furthest pos = (if pos 0 < 0 then 4 else 0) + (if pos 1 < 0 then 2 else 0)
      + (if pos 2 < 0 then 1 else 0) := by
  unfold furthest octant vneg vltz
  by_cases h0 : pos 0 < 0 <;> by_cases h1 : pos 1 < 0 <;> by_cases h2 : pos 2 < 0 <;>
    simp only [h0, h1, h2, if_true, if_false] <;> decide

theorem order_perm_fin : ∀ f : Fin 8,
    ((List.range 8).map fun k : Nat => xor32 (f.val : Int) (k : Int)).Perm
      [0, 1, 2, 3, 4, 5, 6, 7] := by
  decide

theorem order_mono_fin : ∀ f a b : Fin 8,
    (∀ l ∈ axes, DELTA a.val l = DELTA b.val l ∨ DELTA a.val l = DELTA f.val l) →
    List.indexOf (a.val : Int) ((List.range 8).map fun k : Nat => xor32 (f.val : Int) (k : Int))
      ≤ List.indexOf (b.val : Int)
          ((List.range 8).map fun k : Nat => xor32 (f.val : Int) (k : Int)) := by
  decide

theorem xor32_zero_fin : ∀ f : Fin 8, xor32 (f.val : Int) ((0 : Nat) : Int) = (f.val : Int) := by
  decide

theorem delta_sign_fin : ∀ (i : Fin 8), ∀ l ∈ axes, DELTA i.val l = 1 ∨ DELTA i.val l = -1 := by
  decide

theorem furthest_fin (pos : v4si) :
    ∃ f : Fin 8, furthest pos = (f.val : Int) ∧
      ∀ l ∈ axes, DELTA f.val l = if pos l < 0 then 1 else -1 := by
  have hax : ∀ l ∈ axes, l = 0 ∨ l = 1 ∨ l = 2 := by decide
  rw [furthest_eq]
  by_cases h0 : pos 0 < 0 <;> by_cases h1 : pos 1 < 0 <;> by_cases h2 : pos 2 < 0 <;>
    simp only [h0, h1, h2, if_true, if_false]
  · exact ⟨7, by decide, fun l hl => by
      rcases hax l hl with rfl | rfl | rfl <;> simp [DELTA, h0, h1, h2]⟩
  · exact ⟨6, by decide, fun l hl => by
      rcases hax l hl with rfl | rfl | rfl <;> simp [DELTA, h0, h1, h2]⟩
  · exact ⟨5, by decide, fun l hl => by
      rcases hax l hl with rfl | rfl | rfl <;> simp [DELTA, h0, h1, h2]⟩
  · exact ⟨4, by decide, fun l hl => by
      rcases hax l hl with rfl | rfl | rfl <;> simp [DELTA, h0, h1, h2]⟩
  · exact ⟨3, by decide, fun l hl => by
      rcases hax l hl with rfl | rfl | rfl <;> simp [DELTA, h0, h1, h2]⟩
  · exact ⟨2, by decide, fun l hl => by
      rcases hax l hl with rfl | rfl | rfl <;> simp [DELTA, h0, h1, h2]⟩
  · exact ⟨1, by decide, fun l hl => by
      rcases hax l hl with rfl | rfl | rfl <;> simp [DELTA, h0, h1, h2]⟩
  · exact ⟨0, by decide, fun l hl => by
      rcases hax l hl with rfl | rfl | rfl <;> simp [DELTA, h0, h1, h2]⟩

theorem childPos_lane (pos : v4si) (depth : Nat) (i : Fin 8) (l : Fin 4) :
    childPos pos depth (i.val : Int) l = add32 (pos l) (shl32 (DELTA i.val l) depth) := by
  unfold childPos vadd vshl
  rw [Int.toNat_ofNat]

theorem near_child_le (pos : v4si) (depth : Nat)
    (hpos : ∀ l, -2147483648 ≤ pos l ∧ pos l < 2147483648) (f i : Fin 8)
    (hf : ∀ l ∈ axes, DELTA f.val l = if pos l < 0 then 1 else -1) :
    ∀ l ∈ axes, |childPos pos depth (f.val : Int) l| ≤ |childPos pos depth (i.val : Int) l| := by
  intro l hl
  rw [childPos_lane, childPos_lane, hf l hl]
  by_cases hi : DELTA i.val l = if pos l < 0 then 1 else -1
  · rw [hi]
  · have hfar : DELTA i.val l = if pos l < 0 then -1 else 1 := by
      rcases delta_sign_fin i l hl with h | h <;> rw [h] at hi ⊢ <;>
        by_cases hp : pos l < 0 <;> simp only [hp, if_true, if_false] at hi ⊢ <;> simp at hi
    rw [hfar]
    exact near_le_far (pos l) depth (hpos l).1 (hpos l).2

/-- C8 (as stated, refuted): with the node centred on the camera (`pos = 0`, depth 0)
child 7 is at least as near as child 0 on every axis (all eight centres have absolute
value 1 on every axis), yet child 7 is visited after child 0. -/
theorem visit_order_tie :
    (∀ l ∈ axes, |childPos ![0, 0, 0, 0] 0 7 l| ≤ |childPos ![0, 0, 0, 0] 0 0 l|) ∧
      List.indexOf (0 : Int) (visitOrder ![0, 0, 0, 0])
        < List.indexOf (7 : Int) (visitOrder ![0, 0, 0, 0]) := by
  decide

/-- C8 (amended): front-to-back order in variant B.  For every `int32` centre `pos`
and every depth, the octree arm considers the children `furthest ^ k`, `k = 0..7`: a
permutation of `0..7`; its first element is a child whose centre
`pos + (DELTA[i] << depth)` has the least absolute value on every axis among the eight
children; and whenever, on every axis, child `a` is on the same side as child `b` or
strictly nearer than `b`, `a` is not visited after `b`. -/
theorem visit_order_near_to_far (pos : v4si) (depth : Nat)
    (hpos : ∀ l, -2147483648 ≤ pos l ∧ pos l < 2147483648) :
    (visitOrder pos).Perm [0, 1, 2, 3, 4, 5, 6, 7] ∧
    (∀ i : Fin 8, ∀ l ∈ axes,
      |childPos pos depth (visitIdx pos 0) l| ≤ |childPos pos depth (i.val : Int) l|) ∧
    (∀ a b : Fin 8,
      (∀ l ∈ axes, DELTA a.val l = DELTA b.val l ∨
        |childPos pos depth (a.val : Int) l| < |childPos pos depth (b.val : Int) l|) →
      List.indexOf (a.val : Int) (visitOrder pos) ≤ List.indexOf (b.val : Int) (visitOrder pos)) := by
  obtain ⟨f, hf, hdelta⟩ := furthest_fin pos
  have hord : visitOrder pos = (List.range 8).map fun k : Nat => xor32 (f.val : Int) (k : Int) := by
    unfold visitOrder visitIdx; rw [hf]
  refine ⟨by rw [hord]; exact order_perm_fin f, ?_, ?_⟩
  · intro i l hl
    have : visitIdx pos 0 = (f.val : Int) := by
      unfold visitIdx; rw [hf]; exact xor32_zero_fin f
    rw [this]
    exact near_child_le pos depth hpos f i hdelta l hl
  · intro a b hab
    rw [hord]
    apply order_mono_fin f a b
    intro l hl
    rcases hab l hl with h | h
    · exact Or.inl h
    · by_cases hs : DELTA a.val l = DELTA b.val l
      · exact Or.inl hs
      · right
        by_contra hne
        -- `a` is on the far side, so `b` is on the near side and cannot be farther
        have hb : DELTA b.val l = DELTA f.val l := by
          rcases delta_sign_fin a l hl with ha | ha <;>
            rcases delta_sign_fin b l hl with hb | hb <;>
            rcases delta_sign_fin f l hl with hf' | hf' <;>
            rw [ha, hb] at hs <;> rw [ha, hf'] at hne <;> rw [hb, hf'] <;>
            first | rfl | exact absurd rfl hs | exact absurd rfl hne
        have hle := near_child_le pos depth hpos f a hdelta l hl
        rw [childPos_lane] at h hle
        rw [childPos_lane] at h hle
        rw [hb] at h
        omega

theorem visit_order_near_to_far_witness :
    (∀ l, (-2147483648 : Int) ≤ (![-3, 5, 0, 0] : v4si) l ∧ (![-3, 5, 0, 0] : v4si) l < 2147483648) ∧
    ((visitOrder ![-3, 5, 0, 0]).Perm [0, 1, 2, 3, 4, 5, 6, 7] ∧
    (∀ i : Fin 8, ∀ l ∈ axes,
      |childPos ![-3, 5, 0, 0] 2 (visitIdx ![-3, 5, 0, 0] 0) l|
        ≤ |childPos ![-3, 5, 0, 0] 2 (i.val : Int) l|) ∧
    (∀ a b : Fin 8,
      (∀ l ∈ axes, DELTA a.val l = DELTA b.val l ∨
        |childPos ![-3, 5, 0, 0] 2 (a.val : Int) l| < |childPos ![-3, 5, 0, 0] 2 (b.val : Int) l|) →
      List.indexOf (a.val : Int) (visitOrder ![-3, 5, 0, 0])
        ≤ List.indexOf (b.val : Int) (visitOrder ![-3, 5, 0, 0]))) :=
  ⟨by decide, visit_order_near_to_far ![-3, 5, 0, 0] 2 (by decide)⟩

/-! ## The frustum test of variant B -/

theorem and_mask_fin : ∀ b0 b1 b2 b3 : Bool,
    and32 (and32 (and32 (if b0 then -1 else 0) (if b1 then -1 else 0)) (if b2 then -1 else 0))
      (if b3 then -1 else 0) = 0 ↔ ¬ (b0 = true ∧ b1 = true ∧ b2 = true ∧ b3 = true) := by
  decide

theorem frustumMask_eq_zero_iff (nb dltz dgtz : v4si) :
    frustumMask nb dltz dgtz = 0 ↔
      ¬ (sub32 (nb 0) (dltz 0) < 0 ∧ sub32 (nb 1) (dgtz 1) > 0 ∧
          sub32 (nb 2) (dltz 2) < 0 ∧ sub32 (nb 3) (dgtz 3) > 0) := by
  have h := and_mask_fin (decide (sub32 (nb 0) (dltz 0) < 0)) (decide (sub32 (nb 1) (dgtz 1) > 0))
    (decide (sub32 (nb 2) (dltz 2) < 0)) (decide (sub32 (nb 3) (dgtz 3) > 0))
  simp only [decide_eq_true_eq] at h
  unfold frustumMask vltz vgtz vsub
  simp only
  exact h

theorem octChild_of_pass (C : Int) (octnode : Nat) (avgcolor i : Int)
    (bound dx dy dz dltz dgtz pos : v4si) (depth : Nat)
    (hne : ¬ (octnode ≠ 4294967295 ∧ avgcolor < 0))
    (hA : sub32 (newBound C i bound dx dy dz 0) (dltz 0) < 0 ∧
      sub32 (newBound C i bound dx dy dz 1) (dgtz 1) > 0 ∧
      sub32 (newBound C i bound dx dy dz 2) (dltz 2) < 0 ∧
      sub32 (newBound C i bound dx dy dz 3) (dgtz 3) > 0) :
    octChild C octnode avgcolor i bound dx dy dz dltz dgtz pos depth
      = ChildAction.recurse (newBound C i bound dx dy dz) (childPos pos depth i)
          (sub32 depth 1) := by
  unfold octChild
  rw [if_neg hne]
  simp only
  rw [if_neg (fun h0 => (frustumMask_eq_zero_iff _ _ _).1 h0 hA)]

theorem octChild_of_fail (C : Int) (octnode : Nat) (avgcolor i : Int)
    (bound dx dy dz dltz dgtz pos : v4si) (depth : Nat)
    (hne : ¬ (octnode ≠ 4294967295 ∧ avgcolor < 0))
    (hA : ¬ (sub32 (newBound C i bound dx dy dz 0) (dltz 0) < 0 ∧
      sub32 (newBound C i bound dx dy dz 1) (dgtz 1) > 0 ∧
      sub32 (newBound C i bound dx dy dz 2) (dltz 2) < 0 ∧
      sub32 (newBound C i bound dx dy dz 3) (dgtz 3) > 0)) :
    octChild C octnode avgcolor i bound dx dy dz dltz dgtz pos depth = ChildAction.rejected := by
  unfold octChild
  rw [if_neg hne]
  simp only
  rw [if_pos ((frustumMask_eq_zero_iff _ _ _).2 hA)]

/-- C9 (as stated, refuted): a non-empty child whose doubled bound is `(-2, 2, -2, 2)`
with `dltz = dgtz = 0` satisfies `(new_bound - dltz) < 0` in the `x1` and `y1` lanes and
`(new_bound - dgtz) > 0` in the `x2` and `y2` lanes, and the octree arm recurses into
it instead of rejecting it. -/
theorem frustum_pass_recurses :
    (sub32 (newBound 0 0 ![-1, 1, -1, 1] 0 0 0 0) ((0 : v4si) 0) < 0 ∧
      sub32 (newBound 0 0 ![-1, 1, -1, 1] 0 0 0 1) ((0 : v4si) 1) > 0 ∧
      sub32 (newBound 0 0 ![-1, 1, -1, 1] 0 0 0 2) ((0 : v4si) 2) < 0 ∧
      sub32 (newBound 0 0 ![-1, 1, -1, 1] 0 0 0 3) ((0 : v4si) 3) > 0) ∧
    octChild 0 0 0 0 ![-1, 1, -1, 1] 0 0 0 0 0 ![5, 5, 5, 0] 3
      = ChildAction.recurse (newBound 0 0 ![-1, 1, -1, 1] 0 0 0) (childPos ![5, 5, 5, 0] 3 0)
          (sub32 3 1) :=
  ⟨by decide, octChild_of_pass 0 0 0 0 ![-1, 1, -1, 1] 0 0 0 0 0 ![5, 5, 5, 0] 3 (by decide)
    (by decide)⟩

/-- C9 (amended): frustum test in variant B.  In the octree arm of `traverse` a
non-empty child is recursed into (with `new_bound`, `pos + (DELTA[i] << depth)` and
`depth - 1`) if `(new_bound - dltz) < 0` holds in the `x1` and `y1` lanes and
`(new_bound - dgtz) > 0` holds in the `x2` and `y2` lanes, and it is rejected (skipped
without recursing) otherwise. -/
theorem frustum_test (C : Int) (octnode : Nat) (avgcolor i : Int)
    (bound dx dy dz dltz dgtz pos : v4si) (depth : Nat)
    (hne : ¬ (octnode ≠ 4294967295 ∧ avgcolor < 0)) :
    ((sub32 (newBound C i bound dx dy dz 0) (dltz 0) < 0 ∧
        sub32 (newBound C i bound dx dy dz 1) (dgtz 1) > 0 ∧
        sub32 (newBound C i bound dx dy dz 2) (dltz 2) < 0 ∧
        sub32 (newBound C i bound dx dy dz 3) (dgtz 3) > 0) →
      octChild C octnode avgcolor i bound dx dy dz dltz dgtz pos depth
        = ChildAction.recurse (newBound C i bound dx dy dz) (childPos pos depth i)
            (sub32 depth 1)) ∧
    (¬ (sub32 (newBound C i bound dx dy dz 0) (dltz 0) < 0 ∧
        sub32 (newBound C i bound dx dy dz 1) (dgtz 1) > 0 ∧
        sub32 (newBound C i bound dx dy dz 2) (dltz 2) < 0 ∧
        sub32 (newBound C i bound dx dy dz 3) (dgtz 3) > 0) →
      octChild C octnode avgcolor i bound dx dy dz dltz dgtz pos depth
        = ChildAction.rejected) :=
  ⟨octChild_of_pass C octnode avgcolor i bound dx dy dz dltz dgtz pos depth hne,
   octChild_of_fail C octnode avgcolor i bound dx dy dz dltz dgtz pos depth hne⟩

theorem frustum_test_witness :
    ¬ ((7 : Nat) ≠ 4294967295 ∧ (5 : Int) < 0) ∧
    (((sub32 (newBound 3 1 ![-1, 1, -1, 1] 0 0 0 0) ((0 : v4si) 0) < 0 ∧
        sub32 (newBound 3 1 ![-1, 1, -1, 1] 0 0 0 1) ((0 : v4si) 1) > 0 ∧
        sub32 (newBound 3 1 ![-1, 1, -1, 1] 0 0 0 2) ((0 : v4si) 2) < 0 ∧
        sub32 (newBound 3 1 ![-1, 1, -1, 1] 0 0 0 3) ((0 : v4si) 3) > 0) →
      octChild 3 7 5 1 ![-1, 1, -1, 1] 0 0 0 0 0 ![5, 5, 5, 0] 3
        = ChildAction.recurse (newBound 3 1 ![-1, 1, -1, 1] 0 0 0) (childPos ![5, 5, 5, 0] 3 1)
            (sub32 3 1)) ∧
    (¬ (sub32 (newBound 3 1 ![-1, 1, -1, 1] 0 0 0 0) ((0 : v4si) 0) < 0 ∧
        sub32 (newBound 3 1 ![-1, 1, -1, 1] 0 0 0 1) ((0 : v4si) 1) > 0 ∧
        sub32 (newBound 3 1 ![-1, 1, -1, 1] 0 0 0 2) ((0 : v4si) 2) < 0 ∧
        sub32 (newBound 3 1 ![-1, 1, -1, 1] 0 0 0 3) ((0 : v4si) 3) > 0) →
      octChild 3 7 5 1 ![-1, 1, -1, 1] 0 0 0 0 0 ![5, 5, 5, 0] 3 = ChildAction.rejected)) :=
  ⟨by decide, frustum_test 3 7 5 1 ![-1, 1, -1, 1] 0 0 0 0 0 ![5, 5, 5, 0] 3 (by decide)⟩

/-! ## Face selection of the cubemap projection -/

theorem face_selected (SIZE : Nat) (p : Vec3) (hp : p.x ≠ 0 ∨ p.y ≠ 0 ∨ p.z ≠ 0) :
    ∃ i fx fy, drawCase SIZE p = [(i, fx, fy)] ∧ prepareCase SIZE p = [(i, fx, fy)] ∧
      Dominant p i := by
  have hx := abs_nonneg p.x
  have hy := abs_nonneg p.y
  have hz := abs_nonneg p.z
  have hpos : 0 < |p.x| ∨ 0 < |p.y| ∨ 0 < |p.z| := by
    rcases hp with h | h | h
    · exact Or.inl (abs_pos.2 h)
    · exact Or.inr (Or.inl (abs_pos.2 h))
    · exact Or.inr (Or.inr (abs_pos.2 h))
  unfold drawCase prepareCase Dominant
  simp only
  by_cases h1 : |p.x| ≥ |p.y| ∧ |p.x| ≥ |p.z|
  · have hax : 0 < |p.x| := by rcases hpos with h | h | h <;> linarith [h1.1, h1.2]
    by_cases hs : p.x > 0
    · simp only [h1, hs, and_self, if_true]
      refine ⟨2, _, _, rfl, rfl, by norm_num, ?_⟩
      simp only [alongFace]
      rw [abs_of_pos hs] at h1 ⊢
      exact ⟨hs, le_refl _, h1.1, h1.2⟩
    · simp only [h1, hs, and_self, if_true, if_false]
      refine ⟨4, _, _, rfl, rfl, by norm_num, ?_⟩
      simp only [alongFace]
      have hneg : p.x ≤ 0 := not_lt.1 hs
      rw [abs_of_nonpos hneg] at h1 hax ⊢
      exact ⟨hax, le_refl _, h1.1, h1.2⟩
  · by_cases h2 : |p.y| ≥ |p.x| ∧ |p.y| ≥ |p.z|
    · have hay : 0 < |p.y| := by rcases hpos with h | h | h <;> linarith [h2.1, h2.2]
      by_cases hs : p.y > 0
      · simp only [h1, h2, hs, and_self, if_true, if_false]
        refine ⟨0, _, _, rfl, rfl, by norm_num, ?_⟩
        simp only [alongFace]
        rw [abs_of_pos hs] at h2 ⊢
        exact ⟨hs, h2.1, le_refl _, h2.2⟩
      · simp only [h1, h2, hs, and_self, if_true, if_false]
        refine ⟨5, _, _, rfl, rfl, by norm_num, ?_⟩
        simp only [alongFace]
        have hneg : p.y ≤ 0 := not_lt.1 hs
        rw [abs_of_nonpos hneg] at h2 hay ⊢
        exact ⟨hay, h2.1, le_refl _, h2.2⟩
    · have h3 : |p.z| ≥ |p.x| ∧ |p.z| ≥ |p.y| := by
        rw [not_and_or, not_le, not_le] at h1 h2
        constructor
        · rcases h1 with h | h <;> rcases h2 with h' | h' <;> linarith
        · rcases h1 with h | h <;> rcases h2 with h' | h' <;> linarith
      have haz : 0 < |p.z| := by rcases hpos with h | h | h <;> linarith [h3.1, h3.2]
      by_cases hs : p.z > 0
      · simp only [h1, h2, h3, hs, and_self, if_true, if_false]
        refine ⟨1, _, _, rfl, rfl, by norm_num, ?_⟩
        simp only [alongFace]
        rw [abs_of_pos hs] at h3 ⊢
        exact ⟨hs, h3.1, h3.2, le_refl _⟩
      · simp only [h1, h2, h3, hs, and_self, if_true, if_false]
        refine ⟨3, _, _, rfl, rfl, by norm_num, ?_⟩
        simp only [alongFace]
        have hneg : p.z ≤ 0 := not_lt.1 hs
        rw [abs_of_nonpos hneg] at h3 haz ⊢
        exact ⟨haz, h3.1, h3.2, le_refl _⟩

/-- C10: in the readback `draw_cubemap`, for every screen pixel `(x, y)` with
`0 <= x < SCREEN_WIDTH`, `0 <= y < SCREEN_HEIGHT` and every orientation whose ray `p`
is non-zero, exactly one of the six face cases is selected, the face of a component of
`p` of maximal absolute value with the sign of that component, so `pix` is called
exactly once for the pixel; and `prepare_cubemap` marks the same face at the same face
coordinates for that pixel. -/
theorem readback_one_face (SIZE : Nat) (o : Fin 3 → Fin 3 → ℚ) (W H x y : Int)
    (_hx : 0 ≤ x ∧ x < W) (_hy : 0 ≤ y ∧ y < H)
    (hp : (ray o W H x y).x ≠ 0 ∨ (ray o W H x y).y ≠ 0 ∨ (ray o W H x y).z ≠ 0) :
    ∃ i fx fy, drawCase SIZE (ray o W H x y) = [(i, fx, fy)] ∧
      prepareCase SIZE (ray o W H x y) = [(i, fx, fy)] ∧ Dominant (ray o W H x y) i :=
  face_selected SIZE (ray o W H x y) hp

theorem readback_one_face_witness :
    (((0 : Int) ≤ 1 ∧ (1 : Int) < 4) ∧ ((0 : Int) ≤ 1 ∧ (1 : Int) < 4) ∧
      ((ray sampleOrientation 4 4 1 1).x ≠ 0 ∨ (ray sampleOrientation 4 4 1 1).y ≠ 0 ∨
        (ray sampleOrientation 4 4 1 1).z ≠ 0)) ∧
    ∃ i fx fy, drawCase 1024 (ray sampleOrientation 4 4 1 1) = [(i, fx, fy)] ∧
      prepareCase 1024 (ray sampleOrientation 4 4 1 1) = [(i, fx, fy)] ∧
      Dominant (ray sampleOrientation 4 4 1 1) i :=
  ⟨⟨by decide, by decide, Or.inr (Or.inr (by simp [ray, sampleOrientation]))⟩,
   readback_one_face 1024 sampleOrientation 4 4 1 1 (by decide) (by decide)
     (Or.inr (Or.inr (by simp [ray, sampleOrientation])))⟩

/-! ## The colour conversion of the loader -/

theorem conv_testBit (c i : Nat) :
    (conv c).testBit i =
      if i < 8 then c.testBit (i + 16) else if i < 16 then c.testBit i
      else if i < 24 then c.testBit (i - 16) else decide (i < 32) := by
  unfold conv
  have e1 : (0xff : Nat) = 2 ^ 8 - 1 := by decide
  have e2 : (0xff00 : Nat) = (2 ^ 8 - 1) <<< 8 := by decide
  have e3 : (0xff0000 : Nat) = (2 ^ 8 - 1) <<< 16 := by decide
  have e4 : (0xff000000 : Nat) = (2 ^ 8 - 1) <<< 24 := by decide
  rw [e2, e3, e4, e1]
  simp only [Nat.testBit_or, Nat.testBit_and, Nat.testBit_shiftLeft, Nat.testBit_shiftRight,
    Nat.testBit_two_pow_sub_one]
  rcases Nat.lt_or_ge i 32 with h | h
  · interval_cases i <;> simp
  · have h1 : ¬ i < 8 := by omega
    have h2 : ¬ i < 16 := by omega
    have h3 : ¬ i < 24 := by omega
    have h4 : ¬ i < 32 := by omega
    have h5 : ¬ i - 16 < 8 := by omega
    have h6 : ¬ i - 8 < 8 := by omega
    have h7 : ¬ i - 24 < 8 := by omega
    have h8 : ¬ 16 + i < 8 := by omega
    simp [h1, h2, h3, h4, h5, h6, h7, h8]

theorem conv_conv (c : Nat) : conv (conv c) = 0xff000000 ||| (c &&& 0xffffff) := by
  apply Nat.eq_of_testBit_eq
  intro i
  have e4 : (0xff000000 : Nat) = (2 ^ 8 - 1) <<< 24 := by decide
  have e5 : (0xffffff : Nat) = 2 ^ 24 - 1 := by decide
  rw [conv_testBit, e4, e5]
  simp only [conv_testBit, Nat.testBit_or, Nat.testBit_and, Nat.testBit_shiftLeft,
    Nat.testBit_two_pow_sub_one]
  rcases Nat.lt_or_ge i 32 with h | h
  · interval_cases i <;> simp
  · have h1 : ¬ i < 8 := by omega
    have h2 : ¬ i < 16 := by omega
    have h3 : ¬ i < 24 := by omega
    have h4 : ¬ i < 32 := by omega
    have h7 : ¬ i - 24 < 8 := by omega
    simp [h1, h2, h3, h4, h7]

theorem chan_testBit (v i : Nat) :
    (chanR v).testBit i = (decide (i < 8) && v.testBit (i + 16)) ∧
    (chanG v).testBit i = (decide (i < 8) && v.testBit (i + 8)) ∧
    (chanB v).testBit i = (decide (i < 8) && v.testBit i) := by
  rw [chanR_eq, chanG_eq, chanB_eq]
  have e256 : (256 : Nat) = 2 ^ 8 := by decide
  have e16 : (65536 : Nat) = 2 ^ 16 := by decide
  rw [e16, e256]
  simp only [Nat.testBit_mod_two_pow, ← Nat.shiftRight_eq_div_pow, Nat.testBit_shiftRight]
  refine ⟨?_, ?_, trivial⟩
  · rw [Nat.add_comm]
  · rw [Nat.add_comm]

/-- C12: the loader's colour conversion.  `conv(c)` is opaque (top byte `0xFF`), keeps
the green byte of `c`, exchanges the red and blue bytes, and does not depend on the top
byte of `c`; and `conv(conv(c)) == 0xFF000000 | (c & 0xFFFFFF)` for every `c`, so `conv`
is an involution on opaque colours. -/
theorem conv_swaps_red_blue (c : Nat) :
    conv c >>> 24 = 0xff ∧ chanG (conv c) = chanG c ∧ chanR (conv c) = chanB c ∧
      chanB (conv c) = chanR c ∧ conv c = conv (c &&& 0xffffff) ∧
      conv (conv c) = 0xff000000 ||| (c &&& 0xffffff) := by
  have e5 : (0xffffff : Nat) = 2 ^ 24 - 1 := by decide
  have e1 : (0xff : Nat) = 2 ^ 8 - 1 := by decide
  refine ⟨?_, ?_, ?_, ?_, ?_, conv_conv c⟩
  · apply Nat.eq_of_testBit_eq
    intro i
    rw [Nat.testBit_shiftRight, conv_testBit, e1, Nat.testBit_two_pow_sub_one]
    have h1 : ¬ 24 + i < 8 := by omega
    have h2 : ¬ 24 + i < 16 := by omega
    have h3 : ¬ 24 + i < 24 := by omega
    simp only [h1, h2, h3, if_false]
    congr 1
    exact propext ⟨fun h => by omega, fun h => by omega⟩
  · apply Nat.eq_of_testBit_eq
    intro i
    rw [(chan_testBit _ i).2.1, (chan_testBit _ i).2.1, conv_testBit]
    by_cases h : i < 8
    · have h1 : ¬ i + 8 < 8 := by omega
      have h2 : i + 8 < 16 := by omega
      simp only [h, h1, h2, if_true, if_false]
    · simp only [h, decide_False, Bool.false_and]
  · apply Nat.eq_of_testBit_eq
    intro i
    rw [(chan_testBit _ i).1, (chan_testBit _ i).2.2, conv_testBit]
    by_cases h : i < 8
    · have h1 : ¬ i + 16 < 8 := by omega
      have h2 : ¬ i + 16 < 16 := by omega
      have h3 : i + 16 < 24 := by omega
      simp only [h, h1, h2, h3, if_true, if_false, Nat.add_sub_cancel]
    · simp only [h, decide_False, Bool.false_and]
  · apply Nat.eq_of_testBit_eq
    intro i
    rw [(chan_testBit _ i).2.2, (chan_testBit _ i).1, conv_testBit]
    by_cases h : i < 8
    · simp only [h, if_true]
    · simp only [h, decide_False, Bool.false_and]
  · apply Nat.eq_of_testBit_eq
    intro i
    rw [conv_testBit, conv_testBit, e5]
    simp only [Nat.testBit_and, Nat.testBit_two_pow_sub_one]
    by_cases h8 : i < 8
    · have : i + 16 < 24 := by omega
      simp [h8, this]
    · by_cases h16 : i < 16
      · have : i < 24 := by omega
        simp [h8, h16, this]
      · by_cases h24 : i < 24
        · have : i - 16 < 24 := by omega
          simp [h8, h16, h24, this]
        · simp [h8, h16, h24]

/-! ## Configurations accepted by the face renderer -/

/-- C13: the static assertions of `FaceRenderer` accept exactly the valid
configurations: for all integers `C, AX, AY, AZ` the four assertions hold if and only
if `0 <= C < 8` and `(AX, AY, AZ)` is a permutation of `(1, 2, 4)`; and the six
instantiations used by `draw_octree` satisfy them. -/
theorem face_asserts_iff :
    (∀ C AX AY AZ : Int, faceAsserts C AX AY AZ ↔ (0 ≤ C ∧ C < 8) ∧ IsPerm124 AX AY AZ) ∧
      ∀ t ∈ faceInstances, faceAsserts t.1 t.2.1 t.2.2.1 t.2.2.2 := by
  constructor
  · intro C AX AY AZ
    unfold faceAsserts IsPerm124
    constructor
    · rintro ⟨hC, h1, h2, h4⟩
      refine ⟨hC, ?_⟩
      rcases h1 with h1 | h1 | h1 <;> rcases h2 with h2 | h2 | h2 <;>
        rcases h4 with h4 | h4 | h4 <;> omega
    · rintro ⟨hC, h⟩
      refine ⟨hC, ?_⟩
      rcases h with ⟨a, b, c⟩ | ⟨a, b, c⟩ | ⟨a, b, c⟩ | ⟨a, b, c⟩ | ⟨a, b, c⟩ | ⟨a, b, c⟩ <;>
        simp [a, b, c]
  · intro t ht
    simp only [faceInstances, List.mem_cons, List.mem_singleton, List.not_mem_nil,
      or_false] at ht
    rcases ht with rfl | rfl | rfl | rfl | rfl | rfl <;> simp [faceAsserts]

/-! ## Range of the face coordinates -/

theorem prepareCaseR_id (SIZE : Nat) (p : Vec3) :
    prepareCaseR (fun q => q) SIZE p = prepareCase SIZE p := rfl

theorem drawCaseR_id (SIZE : Nat) (p : Vec3) :
    drawCaseR (fun q => q) SIZE p = drawCase SIZE p := rfl

theorem rounding_id (S : Nat) : Rounding S (fun q => q) :=
  ⟨fun _ _ h => h, rfl, rfl, rfl, rfl, rfl, rfl⟩

theorem rounding_grid : Rounding 1024 gridRound := by
  unfold Rounding gridRound
  refine ⟨?_, ?_, ?_, ?_, ?_, ?_, ?_⟩
  · intro a b h
    have : ⌊a * 1024 + 1 / 2⌋ ≤ ⌊b * 1024 + 1 / 2⌋ := Int.floor_le_floor (by linarith)
    have h2 : ((⌊a * 1024 + 1 / 2⌋ : Int) : ℚ) ≤ ((⌊b * 1024 + 1 / 2⌋ : Int) : ℚ) := by
      exact_mod_cast this
    exact div_le_div_of_nonneg_right h2 (by norm_num)
  all_goals
    first
    | (have e : ⌊((0 : ℚ)) * 1024 + 1 / 2⌋ = 0 := by rw [Int.floor_eq_iff]; norm_num
       rw [e]; norm_num)
    | (have e : ⌊((1 / 2 : ℚ)) * 1024 + 1 / 2⌋ = 512 := by rw [Int.floor_eq_iff]; norm_num
       rw [e]; norm_num)
    | (have e : ⌊(-(1 / 2 : ℚ)) * 1024 + 1 / 2⌋ = -512 := by rw [Int.floor_eq_iff]; norm_num
       rw [e]; norm_num)
    | (have e : ⌊((1 : ℚ)) * 1024 + 1 / 2⌋ = 1024 := by rw [Int.floor_eq_iff]; norm_num
       rw [e]; norm_num)
    | (have e : ⌊((-1 : ℚ)) * 1024 + 1 / 2⌋ = -1024 := by rw [Int.floor_eq_iff]; norm_num
       rw [e]; norm_num)
    | (have e : ⌊(((1024 : Nat) : ℚ)) * 1024 + 1 / 2⌋ = 1048576 := by
         rw [Int.floor_eq_iff]; norm_num
       rw [e]; norm_num)

theorem faceCoord_bounds (rnd : ℚ → ℚ) (S : Nat) (hr : Rounding S rnd) (c a : ℚ) (ha : 0 < a)
    (hc : |c| ≤ a) : 0 ≤ faceCoord rnd S c a ∧ faceCoord rnd S c a ≤ S := by
  obtain ⟨hm, r0, rh, rnh, r1, rn1, rS⟩ := hr
  obtain ⟨h1, h2⟩ := abs_le.1 hc
  have hu1 : -1 ≤ c / a := by rw [le_div_iff₀ ha]; linarith
  have hu2 : c / a ≤ 1 := by rw [div_le_iff₀ ha]; linarith
  have t1a : -1 ≤ rnd (c / a) := by rw [← rn1]; exact hm hu1
  have t1b : rnd (c / a) ≤ 1 := by rw [← r1]; exact hm hu2
  have t2a : -(1 / 2) ≤ rnd (rnd (c / a) / 2) := by rw [← rnh]; exact hm (by linarith)
  have t2b : rnd (rnd (c / a) / 2) ≤ 1 / 2 := by rw [← rh]; exact hm (by linarith)
  have t3a : 0 ≤ rnd (rnd (rnd (c / a) / 2) + 0.5) := by
    rw [← r0]; exact hm (by norm_num; linarith)
  have t3b : rnd (rnd (rnd (c / a) / 2) + 0.5) ≤ 1 := by
    rw [← r1]; exact hm (by norm_num; linarith)
  have hS : (0 : ℚ) ≤ S := Nat.cast_nonneg S
  have t4a : 0 ≤ rnd (S * rnd (rnd (rnd (c / a) / 2) + 0.5)) := by
    rw [← r0]; exact hm (mul_nonneg hS t3a)
  have t4b : rnd (S * rnd (rnd (rnd (c / a) / 2) + 0.5)) ≤ S := by
    rw [← rS]
    apply hm
    rw [rS]
    calc (S : ℚ) * rnd (rnd (rnd (c / a) / 2) + 0.5) ≤ S * 1 :=
          mul_le_mul_of_nonneg_left t3b hS
      _ = S := mul_one _
  unfold faceCoord truncQ
  rw [if_pos t4a]
  refine ⟨Int.floor_nonneg.2 t4a, ?_⟩
  have : ((⌊rnd (S * rnd (rnd (rnd (c / a) / 2) + 0.5))⌋ : Int) : ℚ) ≤ ((S : Int) : ℚ) := by
    push_cast; exact le_trans (Int.floor_le _) t4b
  exact_mod_cast this

theorem prepareR_eq_drawR (rnd : ℚ → ℚ) (SIZE : Nat) (p : Vec3) :
    prepareCaseR rnd SIZE p = drawCaseR rnd SIZE p := rfl

theorem drawR_coords (rnd : ℚ → ℚ) (SIZE : Nat) (hr : Rounding SIZE rnd) (p : Vec3)
    (hp : p.x ≠ 0 ∨ p.y ≠ 0 ∨ p.z ≠ 0) :
    ∀ t ∈ drawCaseR rnd SIZE p, 0 ≤ t.2.1 ∧ t.2.1 ≤ SIZE ∧ 0 ≤ t.2.2 ∧ t.2.2 ≤ SIZE := by
  have hpos : 0 < |p.x| ∨ 0 < |p.y| ∨ 0 < |p.z| := by
    rcases hp with h | h | h
    · exact Or.inl (abs_pos.2 h)
    · exact Or.inr (Or.inl (abs_pos.2 h))
    · exact Or.inr (Or.inr (abs_pos.2 h))
  have hx := abs_nonneg p.x
  have hy := abs_nonneg p.y
  have hz := abs_nonneg p.z
  have key : ∀ (i : Nat) (c1 c2 a : ℚ), 0 < a → |c1| ≤ a → |c2| ≤ a →
      ∀ t ∈ [(i, faceCoord rnd SIZE c1 a, faceCoord rnd SIZE c2 a)],
        0 ≤ t.2.1 ∧ t.2.1 ≤ SIZE ∧ 0 ≤ t.2.2 ∧ t.2.2 ≤ SIZE := by
    intro i c1 c2 a ha h1 h2 t ht
    rw [List.mem_singleton] at ht
    subst ht
    obtain ⟨a1, a2⟩ := faceCoord_bounds rnd SIZE hr c1 a ha h1
    obtain ⟨b1, b2⟩ := faceCoord_bounds rnd SIZE hr c2 a ha h2
    exact ⟨a1, a2, b1, b2⟩
  unfold drawCaseR
  simp only
  by_cases h1 : |p.x| ≥ |p.y| ∧ |p.x| ≥ |p.z|
  · have hax : 0 < |p.x| := by rcases hpos with h | h | h <;> linarith [h1.1, h1.2]
    by_cases hsgn : p.x > 0
    · simp only [h1, hsgn, and_self, if_true]
      exact key 2 (-p.z) (-p.y) |p.x| hax (by rw [abs_neg]; exact h1.2)
        (by rw [abs_neg]; exact h1.1)
    · simp only [h1, hsgn, and_self, if_true, if_false]
      exact key 4 p.z (-p.y) |p.x| hax h1.2 (by rw [abs_neg]; exact h1.1)
  · by_cases h2 : |p.y| ≥ |p.x| ∧ |p.y| ≥ |p.z|
    · have hay : 0 < |p.y| := by rcases hpos with h | h | h <;> linarith [h2.1, h2.2]
      by_cases hsgn : p.y > 0
      · simp only [h1, h2, hsgn, and_self, if_true, if_false]
        exact key 0 p.x p.z |p.y| hay h2.1 h2.2
      · simp only [h1, h2, hsgn, and_self, if_true, if_false]
        exact key 5 p.x (-p.z) |p.y| hay h2.1 (by rw [abs_neg]; exact h2.2)
    · have h3 : |p.z| ≥ |p.x| ∧ |p.z| ≥ |p.y| := by
        rw [not_and_or, not_le, not_le] at h1 h2
        constructor
        · rcases h1 with h | h <;> rcases h2 with h' | h' <;> linarith
        · rcases h1 with h | h <;> rcases h2 with h' | h' <;> linarith
      have haz : 0 < |p.z| := by rcases hpos with h | h | h <;> linarith [h3.1, h3.2]
      by_cases hsgn : p.z > 0
      · simp only [h1, h2, h3, hsgn, and_self, if_true, if_false]
        exact key 1 p.x p.y |p.z| haz h3.1 h3.2
      · simp only [h1, h2, h3, hsgn, and_self, if_true, if_false]
        exact key 3 (-p.x) p.y |p.z| haz (by rw [abs_neg]; exact h3.1) h3.2

/-- C11 (as stated, refuted): for the ray `p = (1, -1, 0)` and `SIZE = 1024` both
`prepare_cubemap` and `draw_cubemap` select face 2 and compute, in exact arithmetic,
`fx = 512` and `fy = 1024 = SIZE`, which is not below `SIZE`. -/
theorem face_coord_reaches_size :
    prepareCase 1024 ⟨1, -1, 0⟩ = [(2, 512, 1024)] ∧ drawCase 1024 ⟨1, -1, 0⟩ = [(2, 512, 1024)] := by
  constructor
  · simp [prepareCase, truncQ]
    norm_num
  · simp [drawCase, truncQ]
    norm_num

/-- C11 (amended): for every non-zero ray `p` and each of the six dominant-axis cases
of `prepare_cubemap` and `draw_cubemap`, the computed integer face coordinates satisfy
`0 <= fx <= SIZE` and `0 <= fy <= SIZE`, stated over exact rational arithmetic with the
C truncation to `int` (the first two parts); the same bounds hold when each `double`
operation is rounded by a monotone rounding that is exact on `0`, `±1/2`, `±1` and
`SIZE` (the last two parts). -/
theorem face_coords_in_range (SIZE : Nat) (p : Vec3) (hp : p.x ≠ 0 ∨ p.y ≠ 0 ∨ p.z ≠ 0)
    (rnd : ℚ → ℚ) (hr : Rounding SIZE rnd) :
    (∀ t ∈ prepareCase SIZE p, 0 ≤ t.2.1 ∧ t.2.1 ≤ SIZE ∧ 0 ≤ t.2.2 ∧ t.2.2 ≤ SIZE) ∧
    (∀ t ∈ drawCase SIZE p, 0 ≤ t.2.1 ∧ t.2.1 ≤ SIZE ∧ 0 ≤ t.2.2 ∧ t.2.2 ≤ SIZE) ∧
    (∀ t ∈ prepareCaseR rnd SIZE p, 0 ≤ t.2.1 ∧ t.2.1 ≤ SIZE ∧ 0 ≤ t.2.2 ∧ t.2.2 ≤ SIZE) ∧
    (∀ t ∈ drawCaseR rnd SIZE p, 0 ≤ t.2.1 ∧ t.2.1 ≤ SIZE ∧ 0 ≤ t.2.2 ∧ t.2.2 ≤ SIZE) := by
  have hid := drawR_coords (fun q => q) SIZE (rounding_id SIZE) p hp
  have hrd := drawR_coords rnd SIZE hr p hp
  refine ⟨?_, ?_, ?_, hrd⟩
  · rw [← prepareCaseR_id, prepareR_eq_drawR]; exact hid
  · rw [← drawCaseR_id]; exact hid
  · rw [prepareR_eq_drawR]; exact hrd

theorem gridRound_val (q : ℚ) (n : Int) (h : (n : ℚ) ≤ q * 1024 + 1 / 2 ∧ q * 1024 + 1 / 2 < n + 1) :
    gridRound q = n / 1024 := by
  unfold gridRound
  rw [Int.floor_eq_iff.2 h]

theorem face_coords_in_range_witness :
    (((1 : ℚ) ≠ 0 ∨ (-(2047 / 2048) : ℚ) ≠ 0 ∨ (0 : ℚ) ≠ 0) ∧ Rounding 1024 gridRound) ∧
    (drawCase 1024 ⟨1, -(2047 / 2048), 0⟩ = [(2, 512, 1023)] ∧
      drawCaseR gridRound 1024 ⟨1, -(2047 / 2048), 0⟩ = [(2, 512, 1024)]) ∧
    (∀ t ∈ prepareCase 1024 ⟨1, -(2047 / 2048), 0⟩,
      0 ≤ t.2.1 ∧ t.2.1 ≤ (1024 : Nat) ∧ 0 ≤ t.2.2 ∧ t.2.2 ≤ (1024 : Nat)) ∧
    (∀ t ∈ drawCase 1024 ⟨1, -(2047 / 2048), 0⟩,
      0 ≤ t.2.1 ∧ t.2.1 ≤ (1024 : Nat) ∧ 0 ≤ t.2.2 ∧ t.2.2 ≤ (1024 : Nat)) ∧
    (∀ t ∈ prepareCaseR gridRound 1024 ⟨1, -(2047 / 2048), 0⟩,
      0 ≤ t.2.1 ∧ t.2.1 ≤ (1024 : Nat) ∧ 0 ≤ t.2.2 ∧ t.2.2 ≤ (1024 : Nat)) ∧
    (∀ t ∈ drawCaseR gridRound 1024 ⟨1, -(2047 / 2048), 0⟩,
      0 ≤ t.2.1 ∧ t.2.1 ≤ (1024 : Nat) ∧ 0 ≤ t.2.2 ∧ t.2.2 ≤ (1024 : Nat)) :=
  have e1 : |(1 : ℚ)| = 1 := abs_one
  have e2 : |(-(2047 / 2048) : ℚ)| = 2047 / 2048 := by rw [abs_neg]; exact abs_of_pos (by norm_num)
  have e0 : |(0 : ℚ)| = 0 := abs_zero
  have hdom : |(1 : ℚ)| ≥ |(-(2047 / 2048) : ℚ)| ∧ |(1 : ℚ)| ≥ |(0 : ℚ)| := by
    rw [e1, e2, e0]; constructor <;> norm_num
  have hx : truncQ ((1024 : Nat) * (-(0 : ℚ) / |(1 : ℚ)| / 2 + 0.5)) = 512 := by
    rw [e1]; unfold truncQ
    rw [if_pos (by norm_num), Int.floor_eq_iff]; norm_num
  have hy : truncQ ((1024 : Nat) * (-(-(2047 / 2048) : ℚ) / |(1 : ℚ)| / 2 + 0.5)) = 1023 := by
    rw [e1]; unfold truncQ
    rw [if_pos (by norm_num), Int.floor_eq_iff]; norm_num
  have hc : drawCase 1024 ⟨1, -(2047 / 2048), 0⟩ = [(2, 512, 1023)] := by
    unfold drawCase
    simp only [hdom, and_self, if_true, show (1 : ℚ) > 0 by norm_num, hx, hy]
  have gx : faceCoord gridRound 1024 (-(0 : ℚ)) |(1 : ℚ)| = 512 := by
    rw [e1]; unfold faceCoord
    rw [gridRound_val (-0 / 1) 0 (by norm_num), gridRound_val ((0 : Int) / 1024 / 2) 0 (by norm_num),
      gridRound_val (((0 : Int) : ℚ) / 1024 + 0.5) 512 (by norm_num),
      gridRound_val (((1024 : Nat) : ℚ) * (((512 : Int) : ℚ) / 1024)) 524288 (by norm_num)]
    unfold truncQ
    rw [if_pos (by norm_num), Int.floor_eq_iff]; norm_num
  have gy : faceCoord gridRound 1024 (-(-(2047 / 2048) : ℚ)) |(1 : ℚ)| = 1024 := by
    rw [e1]; unfold faceCoord
    rw [gridRound_val (-(-(2047 / 2048)) / 1) 1024 (by norm_num),
      gridRound_val (((1024 : Int) : ℚ) / 1024 / 2) 512 (by norm_num),
      gridRound_val (((512 : Int) : ℚ) / 1024 + 0.5) 1024 (by norm_num),
      gridRound_val (((1024 : Nat) : ℚ) * (((1024 : Int) : ℚ) / 1024)) 1048576 (by norm_num)]
    unfold truncQ
    rw [if_pos (by norm_num), Int.floor_eq_iff]; norm_num
  have hg : drawCaseR gridRound 1024 ⟨1, -(2047 / 2048), 0⟩ = [(2, 512, 1024)] := by
    unfold drawCaseR
    simp only [hdom, and_self, if_true, show (1 : ℚ) > 0 by norm_num, gx, gy]
  ⟨⟨Or.inl one_ne_zero, rounding_grid⟩, ⟨hc, hg⟩,
   face_coords_in_range 1024 ⟨1, -(2047 / 2048), 0⟩ (Or.inl one_ne_zero) gridRound
     rounding_grid⟩

/-! ## Child order of the octree arm of variant A -/

theorem foldlM_filterMap {α β γ : Type} (g : β → Option γ) (step : α → β → Option α)
    (F : α → γ → Option α) (hnone : ∀ a b, g b = none → step a b = some a)
    (hsome : ∀ a b c, g b = some c → step a b = F a c) :
    ∀ (l : List β) (a : α), l.foldlM step a = (l.filterMap g).foldlM F a := by
  intro l
  induction l with
  | nil => intro a; rfl
  | cons b l ih =>
    intro a
    cases hg : g b with
    | none =>
      rw [List.filterMap_cons_none hg, List.foldlM_cons, hnone a b hg]
      exact ih a
    | some c =>
      rw [List.filterMap_cons_some hg, List.foldlM_cons, List.foldlM_cons, hsome a b c hg]
      cases F a c with
      | none => rfl
      | some a' => exact ih a'

theorem traverse_oct_arm (t : SubFace) (q : QuadCfg) (mem : Mem) (fuel : Nat) (f : QState)
    (r s : Nat) (b : Box) (d : Int) (hout : outside t b = false)
    (harm : sub32 b.x2 b.x1 ≤ mul32 2 ONE ∧ sub32 b.y2 b.y1 ≤ mul32 2 ONE ∧ d < 20) :
    traverse t q mem (fuel + 1) f r s b d =
      (octVisits t mem s b).foldlM
        (fun (f : QState) (v : Nat × Box) => traverse t q mem fuel f r v.1 v.2 (add32 d 1)) f := by
  simp only [traverse, hout, Bool.false_eq_true, if_false, harm, and_self, if_true]
  unfold octVisits
  apply foldlM_filterMap
    (fun kb : Fin 8 × Box => ((mem s).c kb.1).map fun s' => (s', kb.2))
  · intro a kb h
    cases hc : (mem s).c kb.1 with
    | none => rfl
    | some s' => rw [hc] at h; cases h
  · intro a kb v h
    cases hc : (mem s).c kb.1 with
    | none => rw [hc] at h; cases h
    | some s' =>
      rw [hc] at h
      simp only [Option.map_some', Option.some.injEq] at h
      subst h
      rfl

theorem cornerStep_lt (z : Nat → ℚ) (m c : Int) (i : Nat) (v : Int) (h : (m : ℚ) < z i)
    (hv : truncQ (z i) = v) : cornerStep z { max_z := m, C := c } i = { max_z := v, C := i } := by
  unfold cornerStep
  rw [if_pos h, hv]

theorem cornerStep_ge (z : Nat → ℚ) (m c : Int) (i : Nat) (h : ¬ (m : ℚ) < z i) :
    cornerStep z { max_z := m, C := c } i = { max_z := m, C := c } := by
  unfold cornerStep
  rw [if_neg h]

/-- C15 (the code at a failing input): for the corner depths `sampleDepths` the loop
ends with `C = 7`, whose depth `2^26 + 0.05` is smaller than the depth `2^26 + 0.55` of
corner 1: after corner 1 sets `max_z` to the truncated value `2^26`, the later corners
with depth `2^26 + 0.05` still compare greater. -/
theorem corner_not_furthest :
    (selectCorner 0 sampleDepths).C = 7 ∧ sampleDepths 7 < sampleDepths 1 := by
  have hr : List.range 8 = [0, 1, 2, 3, 4, 5, 6, 7] := by decide
  have e0 : shl32 (-1) 31 = -2147483648 := by decide
  have t0 : truncQ (sampleDepths 0) = -67108863 := by
    unfold truncQ sampleDepths
    rw [if_neg (by norm_num), Int.ceil_eq_iff]; norm_num
  have t1 : truncQ (sampleDepths 1) = 67108864 := by
    unfold truncQ sampleDepths
    rw [if_pos (by norm_num), Int.floor_eq_iff]; norm_num
  have t3 : truncQ (sampleDepths 3) = 67108864 := by
    unfold truncQ sampleDepths
    rw [if_pos (by norm_num), Int.floor_eq_iff]; norm_num
  have t5 : truncQ (sampleDepths 5) = 67108864 := by
    unfold truncQ sampleDepths
    rw [if_pos (by norm_num), Int.floor_eq_iff]; norm_num
  have t7 : truncQ (sampleDepths 7) = 67108864 := by
    unfold truncQ sampleDepths
    rw [if_pos (by norm_num), Int.floor_eq_iff]; norm_num
  constructor
  · unfold selectCorner
    rw [hr, e0]
    simp only [List.foldl_cons, List.foldl_nil]
    rw [cornerStep_lt _ _ _ 0 (-67108863) (by norm_num [sampleDepths]) t0,
      cornerStep_lt _ _ _ 1 67108864 (by norm_num [sampleDepths]) t1,
      cornerStep_ge _ _ _ 2 (by norm_num [sampleDepths]),
      cornerStep_lt _ _ _ 3 67108864 (by norm_num [sampleDepths]) t3,
      cornerStep_ge _ _ _ 4 (by norm_num [sampleDepths]),
      cornerStep_lt _ _ _ 5 67108864 (by norm_num [sampleDepths]) t5,
      cornerStep_ge _ _ _ 6 (by norm_num [sampleDepths]),
      cornerStep_lt _ _ _ 7 67108864 (by norm_num [sampleDepths]) t7]
    rfl
  · norm_num [sampleDepths]

/-! ## Sign of `dltz` and `dgtz` -/

theorem mul_sign_lane (d : Int) (h1 : -536870912 ≤ d) (h2 : d ≤ 536870912) :
    mul32 (if d < 0 then -1 else 0) d = -min d 0 ∧
      mul32 (if d > 0 then -1 else 0) d = -max d 0 := by
  unfold mul32
  constructor
  · by_cases h : d < 0
    · rw [if_pos h, wrap32_of_range _ (by omega) (by omega)]; omega
    · rw [if_neg h, wrap32_of_range _ (by omega) (by omega)]; omega
  · by_cases h : d > 0
    · rw [if_pos h, wrap32_of_range _ (by omega) (by omega)]; omega
    · rw [if_neg h, wrap32_of_range _ (by omega) (by omega)]; omega

theorem dltz_lane (dx dy dz : v4si) (l : Fin 4)
    (hx : -536870912 ≤ dx l ∧ dx l ≤ 536870912) (hy : -536870912 ≤ dy l ∧ dy l ≤ 536870912)
    (hz : -536870912 ≤ dz l ∧ dz l ≤ 536870912) :
    dltzOf dx dy dz l = -(min (dx l) 0 + min (dy l) 0 + min (dz l) 0) ∧
      dgtzOf dx dy dz l = -(max (dx l) 0 + max (dy l) 0 + max (dz l) 0) := by
  unfold dltzOf dgtzOf vadd vmul vltz vgtz
  rw [(mul_sign_lane _ hx.1 hx.2).1, (mul_sign_lane _ hy.1 hy.2).1, (mul_sign_lane _ hz.1 hz.2).1,
    (mul_sign_lane _ hx.1 hx.2).2, (mul_sign_lane _ hy.1 hy.2).2, (mul_sign_lane _ hz.1 hz.2).2]
  unfold add32
  constructor
  · rw [wrap32_of_range (-min (dx l) 0 + -min (dy l) 0) (by omega) (by omega),
      wrap32_of_range _ (by omega) (by omega)]
    omega
  · rw [wrap32_of_range (-max (dx l) 0 + -max (dy l) 0) (by omega) (by omega),
      wrap32_of_range _ (by omega) (by omega)]
    omega

/-- C16 (as stated, refuted): with `dx = (-1, 1, 0, 0)` and `dy = dz = 0`, lane 0 of
`dltz` is `1`, not the sum `-1` of the negative values and not `<= 0`, and lane 1 of
`dgtz` is `-1`, not the sum `1` of the positive values and not `>= 0`: a true lane of
a vector comparison is `-1`. -/
theorem dltz_is_positive :
    dltzOf ![-1, 1, 0, 0] 0 0 0 = 1 ∧ dgtzOf ![-1, 1, 0, 0] 0 0 1 = -1 := by
  decide

/-- C16 (amended): in variant B, where no lane overflows (deltas within `±2^29`),
`dltz` is lane-wise minus the sum of the negative values among `dx, dy, dz`, so every
lane of `dltz` is `>= 0`, and `dgtz` is lane-wise minus the sum of the positive values
among `dx, dy, dz`, so every lane of `dgtz` is `<= 0`; the same expressions are used at
the entry point and after each quadtree-descent interpolation. -/
theorem dltz_dgtz_sign (dx dy dz : v4si)
    (hx : ∀ l, -536870912 ≤ dx l ∧ dx l ≤ 536870912)
    (hy : ∀ l, -536870912 ≤ dy l ∧ dy l ≤ 536870912)
    (hz : ∀ l, -536870912 ≤ dz l ∧ dz l ≤ 536870912) :
    ∀ l, dltzOf dx dy dz l = -(min (dx l) 0 + min (dy l) 0 + min (dz l) 0) ∧
      0 ≤ dltzOf dx dy dz l ∧
      dgtzOf dx dy dz l = -(max (dx l) 0 + max (dy l) 0 + max (dz l) 0) ∧
      dgtzOf dx dy dz l ≤ 0 := by
  intro l
  obtain ⟨h1, h2⟩ := dltz_lane dx dy dz l (hx l) (hy l) (hz l)
  refine ⟨h1, ?_, h2, ?_⟩
  · rw [h1]; omega
  · rw [h2]; omega

theorem dltz_dgtz_sign_witness :
    ((∀ l, (-536870912 : Int) ≤ (![-1, 1, 0, 0] : v4si) l ∧ (![-1, 1, 0, 0] : v4si) l ≤ 536870912) ∧
      (∀ l, (-536870912 : Int) ≤ (![3, -2, 0, 5] : v4si) l ∧ (![3, -2, 0, 5] : v4si) l ≤ 536870912) ∧
      (∀ l, (-536870912 : Int) ≤ (![-7, -7, 1, 0] : v4si) l ∧
        (![-7, -7, 1, 0] : v4si) l ≤ 536870912)) ∧
    ∀ l, dltzOf ![-1, 1, 0, 0] ![3, -2, 0, 5] ![-7, -7, 1, 0] l =
        -(min ((![-1, 1, 0, 0] : v4si) l) 0 + min ((![3, -2, 0, 5] : v4si) l) 0 +
          min ((![-7, -7, 1, 0] : v4si) l) 0) ∧
      0 ≤ dltzOf ![-1, 1, 0, 0] ![3, -2, 0, 5] ![-7, -7, 1, 0] l ∧
      dgtzOf ![-1, 1, 0, 0] ![3, -2, 0, 5] ![-7, -7, 1, 0] l =
        -(max ((![-1, 1, 0, 0] : v4si) l) 0 + max ((![3, -2, 0, 5] : v4si) l) 0 +
          max ((![-7, -7, 1, 0] : v4si) l) 0) ∧
      dgtzOf ![-1, 1, 0, 0] ![3, -2, 0, 5] ![-7, -7, 1, 0] l ≤ 0 :=
  ⟨⟨by decide, by decide, by decide⟩,
   dltz_dgtz_sign ![-1, 1, 0, 0] ![3, -2, 0, 5] ![-7, -7, 1, 0] (by decide) (by decide)
     (by decide)⟩

/-! ## Interpolation of the sixteen cells -/

theorem weights_fin : ∀ i : Fin 16,
    weightA (i.val : Int) = ![4 - ((i.val % 4 : Nat) : Int), ((i.val % 4 : Nat) : Int) + 1,
      ((i.val / 4 : Nat) : Int) + 1, 4 - ((i.val / 4 : Nat) : Int)] ∧
    weightB (i.val : Int) = ![((i.val % 4 : Nat) : Int), 3 - ((i.val % 4 : Nat) : Int),
      3 - ((i.val / 4 : Nat) : Int), ((i.val / 4 : Nat) : Int)] ∧
    and32 (i.val : Int) 3 = ((i.val % 4 : Nat) : Int) ∧
    shr32 (i.val : Int) 2 = ((i.val / 4 : Nat) : Int) := by
  decide

theorem lerp_sum (s t : Int) (hs : -2147483648 ≤ s ∧ s < 2147483648)
    (ht : -2147483648 ≤ t ∧ t < 2147483648) (hst : -2147483648 ≤ s + t ∧ s + t < 2147483648) :
    shr32 (wrap32 (wrap32 s + wrap32 t)) 2 = (s + t) / 4 := by
  rw [wrap32_of_range s hs.1 hs.2, wrap32_of_range t ht.1 ht.2, wrap32_of_range _ hst.1 hst.2]
  rfl

theorem lerp_lane (a b : Int) (h0 : 0 ≤ a) (h4 : a ≤ 4) (hb : b = 4 - a) (p q : Int)
    (hp : -536870912 ≤ p ∧ p < 536870912) (hq : -536870912 ≤ q ∧ q < 536870912) :
    shr32 (add32 (mul32 a p) (mul32 b q)) 2 = (a * p + b * q) / 4 := by
  subst hb
  unfold add32 mul32
  apply lerp_sum <;> interval_cases a <;> omega

/-- The four lanes of the interpolated vector of cell `i`, as exact quotients. -/
theorem interp_lanes (v : v4si) (hv : ∀ l, -536870912 ≤ v l ∧ v l < 536870912) (i : Fin 16) :
    interp (i.val : Int) v 0
        = ((4 - ((i.val % 4 : Nat) : Int)) * v 0 + ((i.val % 4 : Nat) : Int) * v 1) / 4 ∧
      interp (i.val : Int) v 1
        = ((((i.val % 4 : Nat) : Int) + 1) * v 1 + (3 - ((i.val % 4 : Nat) : Int)) * v 0) / 4 ∧
      interp (i.val : Int) v 2
        = ((((i.val / 4 : Nat) : Int) + 1) * v 2 + (3 - ((i.val / 4 : Nat) : Int)) * v 3) / 4 ∧
      interp (i.val : Int) v 3
        = ((4 - ((i.val / 4 : Nat) : Int)) * v 3 + ((i.val / 4 : Nat) : Int) * v 2) / 4 := by
  obtain ⟨hA, hB, -, -⟩ := weights_fin i
  have hx : (i.val % 4 : Nat) < 4 := Nat.mod_lt _ (by decide)
  have hy : (i.val / 4 : Nat) < 4 := by have := i.isLt; omega
  unfold interp vshr vadd vmul shuffle1032
  rw [hA, hB]
  refine ⟨?_, ?_, ?_, ?_⟩
  · show shr32 (add32 (mul32 (4 - ((i.val % 4 : Nat) : Int)) (v 0))
      (mul32 ((i.val % 4 : Nat) : Int) (v 1))) 2 = _
    exact lerp_lane _ _ (by omega) (by omega) (by omega) _ _ (hv 0) (hv 1)
  · show shr32 (add32 (mul32 (((i.val % 4 : Nat) : Int) + 1) (v 1))
      (mul32 (3 - ((i.val % 4 : Nat) : Int)) (v 0))) 2 = _
    exact lerp_lane _ _ (by omega) (by omega) (by omega) _ _ (hv 1) (hv 0)
  · show shr32 (add32 (mul32 (((i.val / 4 : Nat) : Int) + 1) (v 2))
      (mul32 (3 - ((i.val / 4 : Nat) : Int)) (v 3))) 2 = _
    exact lerp_lane _ _ (by omega) (by omega) (by omega) _ _ (hv 2) (hv 3)
  · show shr32 (add32 (mul32 (4 - ((i.val / 4 : Nat) : Int)) (v 3))
      (mul32 ((i.val / 4 : Nat) : Int) (v 2))) 2 = _
    exact lerp_lane _ _ (by omega) (by omega) (by omega) _ _ (hv 3) (hv 2)

/-- C17: in the quadtree arm of variant B the sixteen interpolated sub-bounds tile the
parent bound exactly. For every parent bound `v = (x1,x2,y1,y2)` whose products by 4
do not overflow (lanes in `[-2^29, 2^29)`) and every cell `i < 16` with column
`x = i&3` and row `y = i>>2`: the two weights of each lane sum to 4; in column 0 the
new `x1` is `x1` and in column 3 the new `x2` is `x2`; the new `x2` of column `x` is the
new `x1` of column `x+1`; in row 0 the new `y2` is `y2` and in row 3 the new `y1` is
`y1`; the new `y1` of row `y` is the new `y2` of row `y+1`. -/
theorem interp_tiles (v : v4si) (hv : ∀ l, -536870912 ≤ v l ∧ v l < 536870912) :
    (∀ i : Fin 16, ∀ l, weightA (i.val : Int) l + weightB (i.val : Int) l = 4) ∧
    (∀ i : Fin 16, and32 (i.val : Int) 3 = 0 → interp (i.val : Int) v 0 = v 0) ∧
    (∀ i : Fin 16, and32 (i.val : Int) 3 = 3 → interp (i.val : Int) v 1 = v 1) ∧
    (∀ i j : Fin 16, and32 (j.val : Int) 3 = and32 (i.val : Int) 3 + 1 →
      interp (i.val : Int) v 1 = interp (j.val : Int) v 0) ∧
    (∀ i : Fin 16, shr32 (i.val : Int) 2 = 0 → interp (i.val : Int) v 3 = v 3) ∧
    (∀ i : Fin 16, shr32 (i.val : Int) 2 = 3 → interp (i.val : Int) v 2 = v 2) ∧
    (∀ i j : Fin 16, shr32 (j.val : Int) 2 = shr32 (i.val : Int) 2 + 1 →
      interp (i.val : Int) v 2 = interp (j.val : Int) v 3) := by
  refine ⟨by decide, ?_, ?_, ?_, ?_, ?_, ?_⟩
  · intro i h
    rw [(weights_fin i).2.2.1] at h
    rw [(interp_lanes v hv i).1, h]
    omega
  · intro i h
    rw [(weights_fin i).2.2.1] at h
    rw [(interp_lanes v hv i).2.1, h]
    omega
  · intro i j h
    rw [(weights_fin i).2.2.1, (weights_fin j).2.2.1] at h
    rw [(interp_lanes v hv i).2.1, (interp_lanes v hv j).1, h]
    congr 1
    ring
  · intro i h
    rw [(weights_fin i).2.2.2] at h
    rw [(interp_lanes v hv i).2.2.2, h]
    omega
  · intro i h
    rw [(weights_fin i).2.2.2] at h
    rw [(interp_lanes v hv i).2.2.1, h]
    omega
  · intro i j h
    rw [(weights_fin i).2.2.2, (weights_fin j).2.2.2] at h
    rw [(interp_lanes v hv i).2.2.1, (interp_lanes v hv j).2.2.2, h]
    congr 1
    ring

theorem interp_tiles_witness :
    (∀ l, (-536870912 : Int) ≤ (![-100, 300, -50, 350] : v4si) l ∧
      (![-100, 300, -50, 350] : v4si) l < 536870912) ∧
    interp ((⟨6, by decide⟩ : Fin 16).val : Int) ![-100, 300, -50, 350] 1
      = interp ((⟨7, by decide⟩ : Fin 16).val : Int) ![-100, 300, -50, 350] 0 ∧
    interp ((⟨6, by decide⟩ : Fin 16).val : Int) ![-100, 300, -50, 350] 1 = 200 :=
  ⟨by decide,
   (interp_tiles ![-100, 300, -50, 350] (by decide)).2.2.2.1 ⟨6, by decide⟩ ⟨7, by decide⟩
     (by decide),
   by decide⟩

/-! ## The bit scan of the quadtree arm -/

theorem afterCalls_succ (k : Nat) :
    afterCalls (k + 1) = { list := k / 65536 + 1, i := k % 65536 } := by
  induction k with
  | zero => rfl
  | succ k ih =>
    show (afterCalls (k + 1)).allocate.1 = _
    rw [ih]
    unfold octree_buffer.allocate N
    by_cases h : k % 65536 + 1 ≥ 65536
    · simp only [h, if_true]
      have h1 : (k + 1) / 65536 = k / 65536 + 1 := by omega
      have h2 : (k + 1) % 65536 = 0 := by omega
      rw [h1, h2]
    · simp only [h, if_false]
      have h1 : (k + 1) / 65536 = k / 65536 := by omega
      have h2 : (k + 1) % 65536 = k % 65536 + 1 := by omega
      rw [h1, h2]

theorem allocated_eq (k : Nat) : allocated k = ptr (k / 65536) (k % 65536) := by
  unfold allocated
  cases k with
  | zero => rfl
  | succ k =>
    rw [afterCalls_succ]
    unfold octree_buffer.allocate N
    by_cases h : k % 65536 + 1 ≥ 65536
    · simp only [h, if_true]
      have h1 : (k + 1) / 65536 = k / 65536 + 1 := by omega
      have h2 : (k + 1) % 65536 = 0 := by omega
      rw [h1, h2]
      rfl
    · simp only [h, if_false]
      have h1 : (k + 1) / 65536 = k / 65536 := by omega
      have h2 : (k + 1) % 65536 = k % 65536 + 1 := by omega
      rw [h1, h2]
      rfl

/-- C20: the arena hands out every slot once and stays in range. Starting from a new
`octree_buffer`, call number `k + 1` of `allocate()` (`k = 0, 1, ...`) returns slot
`k mod 65536` of chunk number `k / 65536`, the last chunk of the list, and leaves
`i = k mod 65536`, which is within `[0, 65536)`; the call pushes a new chunk exactly
when `k` is a multiple of 65536 (calls 1, 65537, 131073, ...); two different calls
return different nodes; and every slot `s < 65536` of chunk `k` is returned, by call
number `k * 65536 + s + 1`. -/
theorem allocate_kth_call (k : Nat) :
    allocated k = ptr (k / 65536) (k % 65536) ∧
    (afterCalls (k + 1)).i = k % 65536 ∧
    (afterCalls (k + 1)).list = k / 65536 + 1 ∧
    (afterCalls (k + 1)).i < N ∧
    ((afterCalls (k + 1)).list = (afterCalls k).list + 1 ↔ k % 65536 = 0) ∧
    ((afterCalls (k + 1)).list = (afterCalls k).list ∨
      (afterCalls (k + 1)).list = (afterCalls k).list + 1) ∧
    (∀ j, allocated j = allocated k ↔ j = k) ∧
    (∀ s : Fin 65536, allocated (k * 65536 + s.val) = ptr k s.val) := by
  have hs := afterCalls_succ k
  have hl : (afterCalls k).list = if k = 0 then 0 else (k - 1) / 65536 + 1 := by
    cases k with
    | zero => rfl
    | succ k => rw [afterCalls_succ]; simp
  refine ⟨allocated_eq k, by rw [hs], by rw [hs], by rw [hs]; unfold N; simp; omega, ?_, ?_, ?_, ?_⟩
  · rw [hs, hl]
    simp only
    split <;> omega
  · rw [hs, hl]
    simp only
    split <;> omega
  · intro j
    constructor
    · intro h
      rw [allocated_eq, allocated_eq] at h
      unfold ptr N at h
      omega
    · intro h
      rw [h]
  · intro s
    rw [allocated_eq]
    have h1 : (k * 65536 + s.val) / 65536 = k := by have := s.isLt; omega
    have h2 : (k * 65536 + s.val) % 65536 = s.val := by have := s.isLt; omega
    rw [h1, h2]

/-! ## `average` keeps the colours of the stored voxels -/

theorem setN_noKids (x y z : Int) (col : Nat) : ∀ (d : Nat), d ≤ 29 → ∀ (h : Heap) (p : Nat),
    bufOK h.buf → TreeInv h.mem (used h.buf) → p < used h.buf → NoKidsAt h.mem p d →
    ∀ h', setN h p x y z d col = some h' → NoKidsAt h'.mem p d := by
  intro d
  induction d with
  | zero =>
    intro _ h p _ _ _ hn h' hs
    simp only [setN, Option.some.injEq] at hs
    subst hs
    intro π hl q hw i
    have : π = [] := List.length_eq_zero.mp hl
    subst this
    simp only [walk, Option.some.injEq] at hw
    subst hw
    simp only [setColor_c]
    exact hn [] rfl p rfl i
  | succ d ih =>
    intro hd h p hb ht hp hn h' hs
    have hidx := setIdx_eq x y z d (by omega)
    have hi : 0 ≤ setIdx x y z d ∧ setIdx x y z d < 8 := by
      rw [hidx]; have := (bitIdx x y z d).isLt; omega
    have hfin : (⟨(setIdx x y z d).toNat, by omega⟩ : Fin 8) = bitIdx x y z d := by
      apply Fin.ext; simp only; rw [hidx]; simp
    simp only [setN, show d < 30 by omega, if_true, hi, and_self, dite_true, hfin] at hs
    cases hc : (h.mem p).c (bitIdx x y z d) with
    | some q0 =>
      rw [hc] at hs
      simp only at hs
      have hq := ht.lt _ _ _ hc
      obtain ⟨h'', hs', _, _, _, _, hfr, _⟩ := setN_spec x y z col d (by omega) h q0 hb ht hq.2
      rw [hs] at hs'
      simp only [Option.some.injEq] at hs'
      subst hs'
      have hn0 : NoKidsAt h.mem q0 d := by
        intro π hl q hw i
        exact hn (bitIdx x y z d :: π) (by simp [hl]) q (by simp only [walk, hc]; exact hw) i
      have hk := ih (by omega) h q0 hb ht hq.2 hn0 h' hs
      have hp' : h'.mem p = h.mem p :=
        hfr p hp (fun hr => by have := hr.le ht; omega)
      intro π hl q hw i
      cases π with
      | nil => simp at hl
      | cons j π' =>
        simp only [List.length_cons, Nat.add_right_cancel_iff] at hl
        simp only [walk, hp'] at hw
        cases hcj : (h.mem p).c j with
        | none => rw [hcj] at hw; cases hw
        | some q1 =>
          rw [hcj] at hw
          simp only at hw
          by_cases hj : j = bitIdx x y z d
          · subst hj
            rw [hc] at hcj; simp only [Option.some.injEq] at hcj; subst hcj
            exact hk π' hl q hw i
          · have hcg : walk h'.mem q1 π' = walk h.mem q1 π' :=
              walk_congr π' q1 (fun a ha =>
                hfr a (ha.lt_used ht (ht.lt _ _ _ hcj).2)
                  (fun hr => siblings_disjoint ht hc hcj (Ne.symm hj) hr ha))
            rw [hcg] at hw
            have hqr := walk_reach π' q1 q hw
            rw [hfr q (hqr.lt_used ht (ht.lt _ _ _ hcj).2)
              (fun hr => siblings_disjoint ht hc hcj (Ne.symm hj) hr hqr)]
            exact hn (j :: π') (by simp [hl]) q (by simp only [walk, hcj]; exact hw) i
    | none =>
      rw [hc] at hs
      simp only at hs
      obtain ⟨ha2, hau, hab⟩ := allocate_spec h.buf hb
      rw [ha2] at hs
      have ht1 : TreeInv (h.mem.setChild p (bitIdx x y z d) (some (used h.buf)))
          (used h.buf.allocate.1) := by
        rw [hau]; exact ht.setChild_fresh hp _
      have hfreshKids : ∀ j, ((h.mem.setChild p (bitIdx x y z d) (some (used h.buf)))
          (used h.buf)).c j = none := by
        intro j
        rw [setChild_c]
        have : ¬ (used h.buf = p ∧ j = bitIdx x y z d) := by omega
        rw [if_neg this, no_child_of_fresh ht (le_refl _)]
      have hfreshReach : ∀ b, Reach (h.mem.setChild p (bitIdx x y z d) (some (used h.buf)))
          (used h.buf) b → b = used h.buf := by
        intro b hr
        cases hr with
        | refl => rfl
        | step j hq _ => rw [hfreshKids] at hq; cases hq
      obtain ⟨h'', hs', _, _, _, _, hfr, _⟩ := setN_spec x y z col d (by omega)
        { buf := h.buf.allocate.1, mem := h.mem.setChild p (bitIdx x y z d) (some (used h.buf)) }
        (used h.buf) hab ht1 (by simp only; omega)
      rw [hs] at hs'
      simp only [Option.some.injEq] at hs'
      subst hs'
      simp only at hfr
      have hn1 : NoKidsAt (h.mem.setChild p (bitIdx x y z d) (some (used h.buf)))
          (used h.buf) d := by
        intro π hl q hw i
        cases π with
        | nil =>
          simp only [walk, Option.some.injEq] at hw
          subst hw
          exact hfreshKids i
        | cons k π'' =>
          simp only [walk, hfreshKids] at hw
          cases hw
      have hk := ih (by omega)
        { buf := h.buf.allocate.1, mem := h.mem.setChild p (bitIdx x y z d) (some (used h.buf)) }
        (used h.buf) hab ht1 (by simp only; omega) hn1 h' hs
      have hp' : h'.mem p = (h.mem.setChild p (bitIdx x y z d) (some (used h.buf))) p :=
        hfr p (by omega) (fun hr => by have := hfreshReach p hr; omega)
      intro π hl q hw i
      cases π with
      | nil => simp at hl
      | cons j π' =>
        simp only [List.length_cons, Nat.add_right_cancel_iff] at hl
        simp only [walk, hp', setChild_self] at hw
        by_cases hj : j = bitIdx x y z d
        · subst hj
          simp only [if_true] at hw
          exact hk π' hl q hw i
        · simp only [if_neg hj] at hw
          cases hcj : (h.mem p).c j with
          | none => rw [hcj] at hw; cases hw
          | some q1 =>
            rw [hcj] at hw
            simp only at hw
            have hsame : ∀ b, Reach h.mem q1 b →
                h'.mem b = h.mem b := by
              intro b hb'
              have hbu := hb'.lt_used ht (ht.lt _ _ _ hcj).2
              have hbp : b ≠ p := by
                have := hb'.le ht
                have := (ht.lt _ _ _ hcj).1
                omega
              rw [hfr b (by omega) (fun hr' => by have := hfreshReach b hr'; omega)]
              exact setChild_other _ _ _ _ _ hbp
            rw [walk_congr π' q1 hsame] at hw
            rw [hsame q (walk_reach π' q1 q hw)]
            exact hn (j :: π') (by simp [hl]) q (by simp only [walk, hcj]; exact hw) i

theorem build_noKids (d : Int) (h0 : 0 ≤ d) (h26 : d ≤ 26) : ∀ vs : List Voxel,
    (∀ v ∈ vs, v.depth = d) → ∃ h, build vs = some h ∧ HeapOK h ∧
      NoKidsAt h.mem rootAddr d.toNat := by
  intro vs
  induction vs with
  | nil =>
    intro _
    exact ⟨_, rfl, HeapOK_init, fun _ _ _ _ _ => rfl⟩
  | cons v vs ih =>
    intro hv
    obtain ⟨h, hb, hok, hn⟩ := ih (fun w hw => hv w (List.mem_cons_of_mem _ hw))
    have hvd := hv v (List.mem_cons_self _ _)
    obtain ⟨h', hs, hok', _⟩ := set_spec h hok v.x v.y v.z v.depth v.color (by omega) (by omega)
    refine ⟨h', by simp only [build, hb, Option.some_bind]; exact hs, hok', ?_⟩
    unfold octree.set at hs
    rw [if_neg (by omega), hvd] at hs
    exact setN_noKids v.x v.y v.z v.color d.toNat (by omega) h rootAddr hok.buf hok.tree
      hok.root hn h' hs

theorem build_last_colour (d : Int) (h0 : 0 ≤ d) (h26 : d ≤ 26) : ∀ vs : List Voxel,
    (∀ v ∈ vs, v.depth = d) → ∀ h, build vs = some h →
    ∀ (pre : List Voxel) (v : Voxel) (post : List Voxel), vs = pre ++ v :: post →
      (∀ w ∈ pre, bitPath w.x w.y w.z d.toNat ≠ bitPath v.x v.y v.z d.toNat) →
      colorAt h.mem rootAddr (bitPath v.x v.y v.z d.toNat) = some v.color := by
  intro vs
  induction vs with
  | nil =>
    intro _ h _ pre v post e
    cases pre <;> simp at e
  | cons w vs ih =>
    intro hv h hb pre v post e hpre
    have hvs : ∀ u ∈ vs, u.depth = d := fun u hu => hv u (List.mem_cons_of_mem _ hu)
    obtain ⟨g, hg, hok, _⟩ := build_noKids d h0 h26 vs hvs
    have hwd := hv w (List.mem_cons_self _ _)
    obtain ⟨h', hs, _, hcol, _, hoth⟩ :=
      set_spec g hok w.x w.y w.z w.depth w.color (by omega) (by omega)
    have hh : h' = h := by
      simp only [build, hg, Option.some_bind] at hb
      rw [hs] at hb
      exact Option.some.inj hb
    subst hh
    rw [hwd] at hcol hoth
    cases pre with
    | nil =>
      simp only [List.nil_append, List.cons.injEq] at e
      obtain ⟨rfl, _⟩ := e
      exact hcol
    | cons w' pre' =>
      simp only [List.cons_append, List.cons.injEq] at e
      obtain ⟨rfl, e'⟩ := e
      rw [hoth _ (length_bitPath _ _ _ _)
        (fun e2 => hpre w (List.mem_cons_self _ _) e2.symm)]
      exact ih hvs g hg pre' v post e'
        (fun u hu => hpre u (List.mem_cons_of_mem _ hu))

theorem walk_append (m : Mem) : ∀ (π ρ : List (Fin 8)) (p : Nat),
    walk m p (π ++ ρ) = (walk m p π).bind fun q => walk m q ρ := by
  intro π
  induction π with
  | nil => intro ρ p; rfl
  | cons i rest ih =>
    intro ρ p
    simp only [List.cons_append, walk]
    cases (m p).c i with
    | none => rfl
    | some r => exact ih ρ r

theorem walk_averaged {m0 m' : Mem} {r : Nat} (hav : ∀ a, Reach m0 r a → Averaged m0 m' a) :
    ∀ (π : List (Fin 8)) (p q : Nat), Reach m0 r p → walk m0 p π = some q →
      walk m' p π = some q := by
  intro π
  induction π with
  | nil => intro p q _ h; exact h
  | cons i rest ih =>
    intro p q hr h
    simp only [walk] at h ⊢
    cases hc : (m0 p).c i with
    | none => rw [hc] at h; cases h
    | some s =>
      rw [hc] at h
      have hin := ((hav p hr).inner ⟨i, by rw [hc]; exact Option.some_ne_none s⟩).2.1
      rw [hin, hc]
      exact ih s q (hr.trans (Reach.step i hc (Reach.refl _))) h

/-- C19: `average()` never changes the colour of a node that has no children. For
every tree built by `set` from records that all have the same depth `0 ≤ d ≤ 26`
(the list holds the latest record first), `average()` returns, and for every record
`v` that no later record overwrites (no record before it in the list has the same
depth-`d` bit path) the depth-`d` lookup of `v` gives the colour of `v` before
`average()`, still gives it after `average()`, and so does the lookup continued by
any further child indices `ext` (through the self-loop). -/
theorem average_keeps_voxel_colour (vs : List Voxel) (d : Int) (h0 : 0 ≤ d) (h26 : d ≤ 26)
    (hd : ∀ v ∈ vs, v.depth = d) :
    ∃ h, build vs = some h ∧ ∀ fuel, used h.buf ≤ fuel →
      ∃ m', averageFuel fuel h.mem rootAddr = some m' ∧
        ∀ (pre : List Voxel) (v : Voxel) (post : List Voxel), vs = pre ++ v :: post →
          (∀ w ∈ pre, bitPath w.x w.y w.z d.toNat ≠ bitPath v.x v.y v.z d.toNat) →
          colorAt h.mem rootAddr (bitPath v.x v.y v.z d.toNat) = some v.color ∧
          ∀ ext : List (Fin 8),
            colorAt m' rootAddr (bitPath v.x v.y v.z d.toNat ++ ext) = some v.color := by
  obtain ⟨h, hb, hok, hn⟩ := build_noKids d h0 h26 vs hd
  refine ⟨h, hb, ?_⟩
  intro fuel hf
  obtain ⟨m', ha, _, hav⟩ := average_spec hok.tree fuel rootAddr hok.root (by omega) h.mem
    (fun _ _ => rfl)
  refine ⟨m', ha, ?_⟩
  intro pre v post e hpre
  have hcol := build_last_colour d h0 h26 vs hd h hb pre v post e hpre
  refine ⟨hcol, ?_⟩
  intro ext
  unfold colorAt at hcol ⊢
  cases hw : walk h.mem rootAddr (bitPath v.x v.y v.z d.toNat) with
  | none => rw [hw] at hcol; cases hcol
  | some q =>
    rw [hw] at hcol
    simp only [Option.map_some', Option.some.injEq] at hcol
    have hr := walk_reach _ _ _ hw
    have hleaf := (hav q hr).leaf (hn _ (length_bitPath _ _ _ _) q hw)
    rw [walk_append, walk_averaged hav _ _ _ (Reach.refl _) hw]
    simp only [Option.some_bind]
    rw [walk_leaf hleaf.2.1 ext]
    simp only [Option.map_some', Option.some.injEq]
    rw [hleaf.2.2, hcol]

theorem average_keeps_voxel_colour_witness :
    ((0 : Int) ≤ 1 ∧ (1 : Int) ≤ 26 ∧
      ∀ v ∈ ([⟨1, 0, 0, 1, 0xFF0000FF⟩, ⟨0, 0, 0, 1, 0xFF00FF00⟩,
        ⟨1, 0, 0, 1, 0xFFFF0000⟩] : List Voxel), v.depth = 1) ∧
    ∃ h, build [⟨1, 0, 0, 1, 0xFF0000FF⟩, ⟨0, 0, 0, 1, 0xFF00FF00⟩,
        ⟨1, 0, 0, 1, 0xFFFF0000⟩] = some h ∧ ∀ fuel, used h.buf ≤ fuel →
      ∃ m', averageFuel fuel h.mem rootAddr = some m' ∧
        ∀ (pre : List Voxel) (v : Voxel) (post : List Voxel),
          ([⟨1, 0, 0, 1, 0xFF0000FF⟩, ⟨0, 0, 0, 1, 0xFF00FF00⟩,
            ⟨1, 0, 0, 1, 0xFFFF0000⟩] : List Voxel) = pre ++ v :: post →
          (∀ w ∈ pre, bitPath w.x w.y w.z (1 : Int).toNat ≠ bitPath v.x v.y v.z (1 : Int).toNat) →
          colorAt h.mem rootAddr (bitPath v.x v.y v.z (1 : Int).toNat) = some v.color ∧
          ∀ ext : List (Fin 8),
            colorAt m' rootAddr (bitPath v.x v.y v.z (1 : Int).toNat ++ ext) = some v.color :=
  ⟨⟨by decide, by decide, by simp⟩,
   average_keeps_voxel_colour _ 1 (by decide) (by decide) (by simp)⟩

/-! ## The index assertions of `set` at entry depth 30 -/

theorem setIdx_29 (x y z : Int) :
    setIdx x y z 29 = ((bitIdx x y z 29).val : Int) - 8 * (bitOf x 29 : Int) := by
  unfold setIdx shr32
  simp only
  rw [and32_mask x 29 (by omega), and32_mask y 29 (by omega), and32_mask z 29 (by omega)]
  have hx := bitOf_lt x 29
  have hy := bitOf_lt y 29
  have hz := bitOf_lt z 29
  unfold bitIdx
  simp only
  generalize bitOf x 29 = bx at *
  generalize bitOf y 29 = by' at *
  generalize bitOf z 29 = bz at *
  interval_cases bx <;> interval_cases by' <;> interval_cases bz <;> decide

/-- C23 (the code at a failing input): `set(x = 2^29, y = 0, z = 0, depth = 30, c)` passes
`assert(depth>=0)` and `assert(depth<30)` after the decrement, computes the index
`-4` (the product `(x&mask)*4 = 2^31` does not fit an `int`) and fails
`assert(idx>=0)`. For the depths `0..28` after the decrement the index is within
`0..7` for all `x, y, z`; at depth `29` it is the bit index minus `8` times bit 29 of
`x`. -/
theorem set_index_assert_fails :
    setIdx 536870912 0 0 29 = -4 ∧
    (∀ (h : Heap) (p c : Nat), octree.set h p 536870912 0 0 30 c = none) ∧
    (∀ (x y z : Int) (k : Fin 29), 0 ≤ setIdx x y z k.val ∧ setIdx x y z k.val < 8) ∧
    (∀ x y z : Int,
      setIdx x y z 29 = ((bitIdx x y z 29).val : Int) - 8 * (bitOf x 29 : Int)) := by
  have h1 : setIdx 536870912 0 0 29 = -4 := by decide
  refine ⟨h1, ?_, ?_, setIdx_29⟩
  · intro h p c
    unfold octree.set
    rw [if_neg (by decide)]
    have e : (30 : Int).toNat = 29 + 1 := by decide
    rw [e]
    have hn : ¬ (0 ≤ setIdx 536870912 0 0 29 ∧ setIdx 536870912 0 0 29 < 8) := by
      rw [h1]; decide
    rw [setN, if_pos (by decide)]
    exact dif_neg hn
  · intro x y z k
    rw [setIdx_eq x y z k.val (by have := k.isLt; omega)]
    have := (bitIdx x y z k.val).isLt
    omega

/-! ## Termination of `SubFaceRenderer::traverse` -/

theorem mem_octVisits {t : SubFace} {mem : Mem} {s : Nat} {b : Box} {v : Nat × Box}
    (h : v ∈ octVisits t mem s b) :
    ∃ kb ∈ octCalls t b, (mem s).c kb.1 = some v.1 ∧ v.2 = kb.2 := by
  unfold octVisits at h
  rw [List.mem_filterMap] at h
  obtain ⟨kb, hkb, hv⟩ := h
  refine ⟨kb, hkb, ?_⟩
  cases hc : (mem s).c kb.1 with
  | none => rw [hc] at hv; cases hv
  | some s' =>
    rw [hc] at hv
    simp only [Option.map_some', Option.some.injEq] at hv
    subst hv
    exact ⟨rfl, rfl⟩

theorem quadCalls_index (q : QuadCfg) (hL : 16 * q.L + 20 ≤ 4294967296) {r : Nat} {b : Box}
    {rb : Nat × Box} (hr : r < q.L) (h : rb ∈ quadCalls r b) :
    4 * r + 4 ≤ rb.1 ∧ rb.1 ≤ 4 * r + 7 := by
  have := mem_quadCalls h
  unfold u32 at this
  omega

theorem traverse_quad_arm (t : SubFace) (q : QuadCfg) (mem : Mem) (fuel : Nat) (f : QState)
    (r s : Nat) (b : Box) (d : Int) (hout : outside t b = false)
    (harm : ¬ octCond { r := r, s := s, b := b, d := d }) (hr : r < u32 q.L) :
    traverse t q mem (fuel + 1) f r s b d =
      ((quadCalls r b).foldlM (fun (f : QState) (rb : Nat × Box) =>
        if f.map rb.1 ≠ 0 then traverse t q mem fuel f rb.1 s rb.2 d else some f) f).map
        fun (f : QState) => { f with map := q.compute r f.map } := by
  unfold octCond at harm
  simp only at harm
  simp only [traverse, hout, Bool.false_eq_true, if_false, harm, hr, if_true]

theorem nested_measure (t : SubFace) (q : QuadCfg) (mem : Mem)
    (hL : 16 * q.L + 20 ≤ 4294967296) (c0 : Call) (h0 : -2147483648 ≤ c0.d) :
    ∀ (no nq : Nat) (c : Call), Nested t q mem c0 no nq c →
      c.d = c0.d + no ∧ c0.r + nq ≤ c.r ∧ (0 < no → c.d ≤ 20) := by
  intro no nq c h
  induction h with
  | start => exact ⟨by simp, by simp, fun h => by omega⟩
  | @oct no' nq' c' v _ _ hc _ ih =>
    obtain ⟨i1, i2, _⟩ := ih
    have hlt : c'.d < 20 := hc.2.2
    have hd : add32 c'.d 1 = c'.d + 1 := by
      unfold add32
      exact wrap32_of_range _ (by omega) (by omega)
    simp only
    rw [hd]
    refine ⟨by push_cast; omega, i2, fun _ => by omega⟩
  | quad rb _ _ _ hr hrb ih =>
    obtain ⟨i1, i2, i3⟩ := ih
    have hLu : u32 q.L = q.L := by unfold u32; omega
    rw [hLu] at hr
    have := quadCalls_index q hL hr hrb
    simp only
    exact ⟨i1, by omega, i3⟩

/-- C21: `SubFaceRenderer::traverse` terminates for every input, whatever the octree
(its leaves may point to themselves). With `Q::L` such that the quadtree indices do
not wrap (`16*L + 20 <= 2^32`): every call with an `int` `d` returns once the
recursion depth allowed exceeds `(20 - d) + (L - r)`; the octree arm, taken only
while `d < 20`, calls with `d + 1` and the same `r`; the quadtree arm recurses only
while `r < L`, with the same `d` and an index among `4r+4 .. 4r+7`; and along any chain
of nested calls with `no` octree descents and `nq` quadtree descents `d` has grown by
`no` and `r` by at least `nq`, so from `d = 0` there are at most 20 octree descents. -/
theorem traverse_terminates (t : SubFace) (q : QuadCfg) (mem : Mem)
    (hL : 16 * q.L + 20 ≤ 4294967296) :
    (∀ (f : QState) (r s : Nat) (b : Box) (d : Int) (fuel : Nat), -2147483648 ≤ d →
      (20 - d).toNat + (q.L - r) < fuel → ∃ f', traverse t q mem fuel f r s b d = some f') ∧
    (∀ (fuel : Nat) (f : QState) (r s : Nat) (b : Box) (d : Int), outside t b = false →
      octCond { r := r, s := s, b := b, d := d } → -2147483648 ≤ d →
      add32 d 1 = d + 1 ∧ traverse t q mem (fuel + 1) f r s b d =
        (octVisits t mem s b).foldlM
          (fun (f : QState) (v : Nat × Box) => traverse t q mem fuel f r v.1 v.2 (add32 d 1))
          f) ∧
    (∀ (fuel : Nat) (f : QState) (r s : Nat) (b : Box) (d : Int), outside t b = false →
      ¬ octCond { r := r, s := s, b := b, d := d } → r < q.L →
      traverse t q mem (fuel + 1) f r s b d =
        ((quadCalls r b).foldlM (fun (f : QState) (rb : Nat × Box) =>
          if f.map rb.1 ≠ 0 then traverse t q mem fuel f rb.1 s rb.2 d else some f) f).map
          fun (f : QState) => { f with map := q.compute r f.map }) ∧
    (∀ (r : Nat) (b : Box) (rb : Nat × Box), r < q.L → rb ∈ quadCalls r b →
      4 * r + 4 ≤ rb.1 ∧ rb.1 ≤ 4 * r + 7 ∧ r < rb.1) ∧
    (∀ (c0 c : Call) (no nq : Nat), Nested t q mem c0 no nq c → -2147483648 ≤ c0.d →
      c.d = c0.d + no ∧ c0.r + nq ≤ c.r ∧ (0 < no → c.d ≤ 20) ∧ (c0.d = 0 → no ≤ 20)) := by
  have hLu : u32 q.L = q.L := by unfold u32; omega
  refine ⟨?_, ?_, ?_, ?_, ?_⟩
  · intro f r s b d fuel hd hf
    exact traverse_returns t q mem hL fuel f r s b d hd hf
  · intro fuel f r s b d hout hc hd
    refine ⟨?_, traverse_oct_arm t q mem fuel f r s b d hout hc⟩
    unfold add32
    exact wrap32_of_range _ (by omega) (by have := hc.2.2; simp only at this; omega)
  · intro fuel f r s b d hout hc hr
    exact traverse_quad_arm t q mem fuel f r s b d hout hc (by rw [hLu]; exact hr)
  · intro r b rb hr hrb
    have := quadCalls_index q hL hr hrb
    omega
  · intro c0 c no nq h h0
    obtain ⟨h1, h2, h3⟩ := nested_measure t q mem hL c0 h0 no nq c h
    refine ⟨h1, h2, h3, ?_⟩
    intro hz
    by_cases hn : 0 < no
    · have := h3 hn
      omega
    · omega

theorem traverse_terminates_witness :
    16 * sampleQuad.L + 20 ≤ 4294967296 ∧
    ∃ f', traverse sampleSubFace sampleQuad loopMem 22 sampleQState 0 0 sampleBox 0 = some f' :=
  ⟨by decide,
   (traverse_terminates sampleSubFace sampleQuad loopMem (by decide)).1 sampleQState 0 0
     sampleBox 0 22 (by decide) (by decide)⟩

/-! ## Bounds of the cubemap traversal -/

theorem ONE_eq : ONE = 1048576 := by decide

theorem tdiv_two_between (a b : Int) (h : a ≤ b) :
    a ≤ Int.tdiv (a + b) 2 ∧ Int.tdiv (a + b) 2 ≤ b := by
  by_cases hs : 0 ≤ a + b
  · rw [Int.tdiv_eq_ediv hs (by norm_num)]
    omega
  · have e : Int.tdiv (a + b) 2 = -((-(a + b)) / 2) := by
      have h1 : a + b = -(-(a + b)) := by ring
      conv_lhs => rw [h1]
      rw [Int.neg_tdiv, Int.tdiv_eq_ediv (by omega) (by norm_num)]
    rw [e]
    omega

theorem mem_octCalls_shape {t : SubFace} {b : Box} {kb : Fin 8 × Box} (h : kb ∈ octCalls t b) :
    ∃ xp yp : Bool,
      kb.2 = childBox t b (sub32 b.x1 b.x1p) (sub32 b.x2 b.x2p) (sub32 b.y1 b.y1p)
        (sub32 b.y2 b.y2p) xp yp ∨
      kb.2 = childBox t b b.x1 b.x2 b.y1 b.y2 xp yp := by
  unfold octCalls at h
  simp only [List.mem_append, List.mem_cons, List.mem_singleton, List.not_mem_nil,
    or_false] at h
  rcases h with h | h
  · split at h
    · simp only [List.mem_cons, List.mem_singleton, List.not_mem_nil, or_false] at h
      rcases h with rfl | rfl | rfl | rfl
      · exact ⟨true, true, Or.inl rfl⟩
      · exact ⟨false, true, Or.inl rfl⟩
      · exact ⟨true, false, Or.inl rfl⟩
      · exact ⟨false, false, Or.inl rfl⟩
    · simp at h
  · rcases h with rfl | rfl | rfl | rfl
    · exact ⟨true, true, Or.inr rfl⟩
    · exact ⟨false, true, Or.inr rfl⟩
    · exact ⟨true, false, Or.inr rfl⟩
    · exact ⟨false, false, Or.inr rfl⟩

theorem octCalls_deriv {t : SubFace} {b : Box} {kb : Fin 8 × Box} (h : kb ∈ octCalls t b)
    (hder : BoxDerivOK t b) : BoxDerivOK t kb.2 := by
  obtain ⟨xp, yp, h | h⟩ := mem_octCalls_shape h <;> rw [h] <;> exact hder

theorem deriv_half (D a1p a2p : Int) (h : DerivOK D a1p a2p) :
    DerivOK D a1p (Int.tdiv (add32 a1p a2p) 2) ∧ DerivOK D (Int.tdiv (add32 a1p a2p) 2) a2p := by
  have ha : add32 a1p a2p = a1p + a2p := by
    unfold add32
    unfold DerivOK at h
    rw [ONE_eq] at h
    exact wrap32_of_range _ (by omega) (by omega)
  rw [ha]
  unfold DerivOK at *
  rcases h with ⟨rfl, d1, d2, d3⟩ | ⟨rfl, d1, d2, d3⟩
  · obtain ⟨m1, m2⟩ := tdiv_two_between a1p a2p d2
    exact ⟨Or.inl ⟨rfl, d1, m1, by omega⟩, Or.inl ⟨rfl, by omega, m2, d3⟩⟩
  · obtain ⟨m1, m2⟩ := tdiv_two_between a1p a2p d2
    exact ⟨Or.inr ⟨rfl, d1, m1, by omega⟩, Or.inr ⟨rfl, by omega, m2, d3⟩⟩

theorem quadCalls_deriv {t : SubFace} {r : Nat} {b : Box} {rb : Nat × Box}
    (h : rb ∈ quadCalls r b) (hder : BoxDerivOK t b) : BoxDerivOK t rb.2 := by
  obtain ⟨hx1, hx2⟩ := deriv_half t.DX b.x1p b.x2p hder.1
  obtain ⟨hy1, hy2⟩ := deriv_half t.DY b.y1p b.y2p hder.2
  unfold quadCalls at h
  simp only [List.mem_cons, List.mem_singleton, List.not_mem_nil, or_false] at h
  rcases h with rfl | rfl | rfl | rfl
  · exact ⟨hx1, hy1⟩
  · exact ⟨hx2, hy1⟩
  · exact ⟨hx1, hy2⟩
  · exact ⟨hx2, hy2⟩

theorem nested_deriv (t : SubFace) (q : QuadCfg) (mem : Mem) (c0 : Call)
    (h0 : BoxDerivOK t c0.b) :
    ∀ (no nq : Nat) (c : Call), Nested t q mem c0 no nq c → BoxDerivOK t c.b := by
  intro no nq c h
  induction h with
  | start => exact h0
  | oct v _ _ _ hv ih =>
    obtain ⟨kb, hkb, _, e⟩ := mem_octVisits hv
    simp only
    rw [e]
    exact octCalls_deriv hkb ih
  | quad rb _ _ _ _ hrb ih => exact quadCalls_deriv hrb ih

end VoxelEngine
